import Mathlib

/-!
# srec2bin: the S-Record decoder of `src/srec2bin.c`

A shallow embedding of `hexvalue` and of the decoding loop of `main`.

* C `int` variables are `Int`; every arithmetic statement of the decoding loop is
  reduced to the signed 32-bit range by `wrap32`.
* The characters of an input file are the values `getc` returns before `EOF`
  (`List Nat`); they are handed to the state machine as `Int`, the type of `c`.
* The binary file `fp_bin` is its byte contents together with its file position
  indicator.  `fseek (fp, off, SEEK_SET)` with a negative offset fails and leaves
  the position where it was (its result is ignored by the source); `fwrite` of one
  byte stores it at the position (appending when the position is the end of the
  file) and advances the position by one.
* What the program prints is kept as a list of `Out` events, one constructor per
  `printf` of the decoding loop.
* The scan of the command line (lines 122-138) takes the `atoi` of the C library
  as a parameter.
* The source keeps no count of the bytes a record has consumed; where a statement
  speaks of that count, `countStep` runs `step` unchanged beside two counters,
  and `tallyStep` beside two more, for the checksum byte and the records closed.
-/

namespace Srec2bin

/-! ## Constants of the source -/

def SREC_NEWLINE : Int := 0
def SREC_RECORDTYPE : Int := 1
def SREC_BYTECOUNT : Int := 2
def SREC_ADDRESS : Int := 3
def SREC_DATA : Int := 4
def SREC_CHKSUM : Int := 5
def SREC_ENDOFLINE : Int := 6

def LO : Int := 0
def HI : Int := 1

def FALSE : Int := 0
def TRUE : Int := 1

/-- Reduction of an integer to the range of a 32-bit signed `int`. -/
def wrap32 (x : Int) : Int := (x + 2147483648) % 4294967296 - 2147483648

/-- Source `hexvalue` (lines 71-77); the three ranges are those of the source,
including the `c - 'f' + 10` of the lower-case branch. -/
def hexvalue (c : Int) : Int :=
  if 48 ≤ c ∧ c ≤ 57 then c - 48
  else if 65 ≤ c ∧ c ≤ 70 then c - 65 + 10
  else if 97 ≤ c ∧ c ≤ 102 then c - 102 + 10
  else -1

/-! ## Output events -/

/-- One constructor per `printf` of the per-file part of `main`. -/
inductive Out where
  /-- Line 221: the record type, at verbosity above 1. -/
  | recordType (t : Int)
  /-- Lines 237, 306, 360, 418: the character read, at verbosity above 1. -/
  | echo (c : Int)
  /-- Line 262: the byte count, at verbosity above 1. -/
  | byteCount (n : Int)
  /-- Line 329: the address, at verbosity above 1. -/
  | address (a : Int)
  /-- Line 376: a data byte, at verbosity above 1. -/
  | data (b : Int)
  /-- Line 435: the checksum byte read, at verbosity above 1. -/
  | chk (b : Int)
  /-- Line 438: the checksum warning, at verbosity above 0. -/
  | chkFailed
  /-- Line 463: the expected checksum, at verbosity above 1. -/
  | endOfLine (x : Int)
  /-- Line 472: the undefined-state message, at verbosity above 1. -/
  | undefinedState
  /-- Line 478: the per-file record count, at verbosity other than 0. -/
  | records (n : Int)
  deriving DecidableEq, Repr

/-! ## Machine state -/

/-- The variables of `main` that the decoding loop reads or writes, the binary
file, what was printed, the calls made on the binary file (`writes`: for each
`fseek`/`fwrite` pair of lines 386-388, the offset asked for and the byte
written, oldest first), and whether `exit (EXIT_FAILURE)` was called. -/
structure Machine where
  bin : List Nat
  pos : Nat
  state : Int
  processing : Int
  error : Int
  type : Int
  nibble : Int
  bytes : Int
  records : Int
  checksum : Int
  byte_value : Int
  nibble_value : Int
  byte_count : Int
  address : Int
  value : Int
  addr_bytes : Int
  data_bytes : Int
  min_rom_size : Int
  out : List Out
  writes : List (Int × Nat)
  exited : Bool
  deriving DecidableEq

/-- File position after `fseek (fp_bin, off, SEEK_SET)`: a negative offset is
refused and the position stays. -/
def fseekSet (pos : Nat) (off : Int) : Nat :=
  if off < 0 then pos else off.toNat

/-- Contents of the file after `fwrite` of the single byte `b` at position `pos`
(a gap past the end of the file reads as zero bytes). -/
def fwriteByte (bin : List Nat) (pos : Nat) (b : Nat) : List Nat :=
  if pos < bin.length then bin.set pos b
  else bin ++ List.replicate (pos - bin.length) 0 ++ [b]

/-- Conversion of an `int` to `unsigned char` (line 387, `byte = byte_value`). -/
def toByte (x : Int) : Nat := (x % 256).toNat

/-- Events printed only at verbosity above 1. -/
def trace (verbosity : Int) (o : List Out) (es : List Out) : List Out :=
  if verbosity > 1 then o ++ es else o

/-! ## The decoding loop, state by state -/

/-- The error branches: `processing = FALSE; error = TRUE;`. -/
def fail (s : Machine) : Machine :=
  { s with processing := FALSE, error := TRUE }

/-- Lines 189-206, `case SREC_NEWLINE`. -/
def stepNewline (s : Machine) (c : Int) : Machine :=
  if c = 10 ∨ c = 13 ∨ c = 32 ∨ c = 9 then s
  else if c = 115 ∨ c = 83 then { s with state := SREC_RECORDTYPE }
  else fail s

/-- Lines 208-233, `case SREC_RECORDTYPE`. -/
def stepRecordType (verbosity : Int) (s : Machine) (c : Int) : Machine :=
  if c = 48 ∨ c = 49 ∨ c = 50 ∨ c = 51 ∨ c = 53 ∨ c = 55 ∨ c = 56 ∨ c = 57 then
    { s with
      type := c - 48
      out := trace verbosity s.out [Out.recordType (c - 48)]
      state := SREC_BYTECOUNT
      nibble := HI
      bytes := 1
      value := 0
      checksum := 0 }
  else fail s

/-- Lines 264-277: the address width of a record type; `none` is the `default`
branch, which leaves `addr_bytes` as it was. -/
def addrWidth (type : Int) : Option Int :=
  if type = 0 then some 0
  else if type = 1 then some 2
  else if type = 2 then some 3
  else if type = 3 then some 4
  else if type = 5 then some 0
  else if type = 7 then some 4
  else if type = 8 then some 3
  else if type = 9 then some 2
  else none

/-- Lines 260-289: the byte count is complete (`bytes` reached 0). The argument
`s` already holds the new `nibble`, `byte_value`, `checksum` and `bytes`. -/
def byteCountDone (verbosity : Int) (s : Machine) : Machine :=
  let s1 : Machine :=
    { s with
      byte_count := s.byte_value
      out := trace verbosity s.out [Out.byteCount s.byte_value] }
  let s2 : Machine :=
    match addrWidth s1.type with
    | some w => { s1 with addr_bytes := w }
    | none => fail s1
  let s3 : Machine :=
    { s2 with
      data_bytes := wrap32 (wrap32 (s2.byte_count - s2.addr_bytes) - 1)
      value := 0 }
  if s3.addr_bytes ≠ 0 then
    { s3 with state := SREC_ADDRESS, bytes := s3.addr_bytes }
  else
    { s3 with state := SREC_DATA, bytes := s3.data_bytes }

/-- Lines 235-302, `case SREC_BYTECOUNT`. -/
def stepByteCount (verbosity : Int) (s : Machine) (c : Int) : Machine :=
  let s0 : Machine :=
    { s with out := trace verbosity s.out [Out.echo c], nibble_value := hexvalue c }
  if s0.nibble_value ≥ 0 then
    if s0.nibble = HI then
      { s0 with nibble := LO, byte_value := s0.nibble_value }
    else if s0.nibble = LO then
      let bv := wrap32 (wrap32 (s0.byte_value * 16) + s0.nibble_value)
      let s1 : Machine :=
        { s0 with
          nibble := HI
          byte_value := bv
          checksum := wrap32 (s0.checksum + bv)
          bytes := wrap32 (s0.bytes - 1) }
      if s1.bytes ≠ 0 then
        { s1 with value := wrap32 (wrap32 (s1.value * 256) + s1.byte_value) }
      else byteCountDone verbosity s1
    else fail s0
  else fail s0

/-- Lines 325-343: the address is complete (`bytes` reached 0). -/
def addressDone (verbosity : Int) (s : Machine) : Machine :=
  let s1 : Machine :=
    { s with
      address := s.value
      out := trace verbosity s.out [Out.address s.value]
      state := SREC_DATA
      value := 0 }
  if s1.data_bytes ≠ 0 then
    { s1 with state := SREC_DATA, bytes := s1.data_bytes }
  else
    { s1 with
      state := SREC_CHKSUM
      checksum := (-s1.checksum - 1) % 256
      bytes := 1 }

/-- Lines 304-356, `case SREC_ADDRESS`. -/
def stepAddress (verbosity : Int) (s : Machine) (c : Int) : Machine :=
  let s0 : Machine :=
    { s with out := trace verbosity s.out [Out.echo c], nibble_value := hexvalue c }
  if s0.nibble_value ≥ 0 then
    if s0.nibble = HI then
      { s0 with nibble := LO, byte_value := s0.nibble_value }
    else if s0.nibble = LO then
      let bv := wrap32 (wrap32 (s0.byte_value * 16) + s0.nibble_value)
      let s1 : Machine :=
        { s0 with
          nibble := HI
          byte_value := bv
          checksum := wrap32 (s0.checksum + bv)
          value := wrap32 (wrap32 (s0.value * 256) + bv)
          bytes := wrap32 (s0.bytes - 1) }
      if s1.bytes = 0 then addressDone verbosity s1 else s1
    else fail s0
  else fail s0

/-- Lines 379-394: the write of one data byte, for record types 1, 2 and 3. -/
def writeData (rom_size : Int) (s : Machine) : Machine :=
  if s.type = 1 ∨ s.type = 2 ∨ s.type = 3 then
    let s1 : Machine :=
      if s.address < rom_size then
        { s with
          bin := fwriteByte s.bin (fseekSet s.pos s.address) (toByte s.byte_value)
          pos := fseekSet s.pos s.address + 1
          writes := s.writes ++ [(s.address, toByte s.byte_value)] }
      else s
    let s2 : Machine := { s1 with address := wrap32 (s1.address + 1) }
    if s2.min_rom_size < s2.address then
      { s2 with min_rom_size := s2.address }
    else s2
  else s

/-- Lines 358-414, `case SREC_DATA`. -/
def stepData (rom_size verbosity : Int) (s : Machine) (c : Int) : Machine :=
  let s0 : Machine :=
    { s with out := trace verbosity s.out [Out.echo c], nibble_value := hexvalue c }
  if s0.nibble_value ≥ 0 then
    if s0.nibble = HI then
      { s0 with nibble := LO, byte_value := s0.nibble_value }
    else if s0.nibble = LO then
      let bv := wrap32 (wrap32 (s0.byte_value * 16) + s0.nibble_value)
      let s1 : Machine :=
        { s0 with
          nibble := HI
          byte_value := bv
          checksum := wrap32 (s0.checksum + bv)
          out := trace verbosity s0.out [Out.data bv] }
      let s2 := writeData rom_size s1
      let s3 : Machine := { s2 with bytes := wrap32 (s2.bytes - 1) }
      if s3.bytes = 0 then
        { s3 with
          state := SREC_CHKSUM
          checksum := (-s3.checksum - 1) % 256
          bytes := 1 }
      else s3
    else fail s0
  else fail s0

/-- Lines 416-456, `case SREC_CHKSUM`. -/
def stepChksum (verbosity : Int) (s : Machine) (c : Int) : Machine :=
  let s0 : Machine :=
    { s with out := trace verbosity s.out [Out.echo c], nibble_value := hexvalue c }
  if s0.nibble_value ≥ 0 then
    if s0.nibble = HI then
      { s0 with nibble := LO, byte_value := s0.nibble_value }
    else if s0.nibble = LO then
      let bv := wrap32 (wrap32 (s0.byte_value * 16) + s0.nibble_value)
      let s1 : Machine :=
        { s0 with
          nibble := HI
          byte_value := bv
          value := wrap32 (wrap32 (s0.value * 256) + bv)
          out := trace verbosity s0.out [Out.chk bv] }
      let s2 : Machine :=
        if verbosity > 0 ∧ s1.checksum ≠ s1.byte_value then
          { s1 with out := s1.out ++ [Out.chkFailed] }
        else s1
      let s3 : Machine := { s2 with bytes := wrap32 (s2.bytes - 1) }
      if s3.bytes = 0 then
        { s3 with state := SREC_ENDOFLINE, bytes := 1 }
      else s3
    else fail s0
  else fail s0

/-- Lines 458-468, `case SREC_ENDOFLINE`. -/
def stepEndOfLine (verbosity : Int) (s : Machine) (c : Int) : Machine :=
  if c = 10 then
    { s with
      out := trace verbosity s.out [Out.endOfLine s.checksum]
      state := SREC_NEWLINE
      records := wrap32 (s.records + 1) }
  else s

/-- Lines 187-475: one iteration of the `while` loop, on the character `c`. -/
def step (rom_size verbosity : Int) (s : Machine) (c : Int) : Machine :=
  if s.state = SREC_NEWLINE then stepNewline s c
  else if s.state = SREC_RECORDTYPE then stepRecordType verbosity s c
  else if s.state = SREC_BYTECOUNT then stepByteCount verbosity s c
  else if s.state = SREC_ADDRESS then stepAddress verbosity s c
  else if s.state = SREC_DATA then stepData rom_size verbosity s c
  else if s.state = SREC_CHKSUM then stepChksum verbosity s c
  else if s.state = SREC_ENDOFLINE then stepEndOfLine verbosity s c
  else { s with out := trace verbosity s.out [Out.undefinedState], exited := true }

/-- Line 185: the loop goes on while `processing` is set (and the program has not
exited) and a character is left. -/
def decodeLoop (rom_size verbosity : Int) : Machine → List Nat → Machine
  | s, [] => s
  | s, c :: cs =>
    if s.processing ≠ 0 ∧ s.exited = false then
      decodeLoop rom_size verbosity (step rom_size verbosity s (c : Int)) cs
    else s

/-- Lines 166-183: what is set before each file is read (the file is taken to
open). -/
def resetForFile (s : Machine) : Machine :=
  { s with
    processing := TRUE
    state := SREC_NEWLINE
    nibble := HI
    bytes := 0
    records := 0
    error := 0 }

/-- Lines 164-480: the body of the per-file loop for one file. -/
def processFile (rom_size verbosity : Int) (s : Machine) (file : List Nat) : Machine :=
  let s1 := decodeLoop rom_size verbosity (resetForFile s) file
  if s1.exited then s1
  else if verbosity ≠ 0 then { s1 with out := s1.out ++ [Out.records s1.records] }
  else s1

/-- Lines 164-480: the files in command-line order; nothing runs after `exit`. -/
def processFiles (rom_size verbosity : Int) : Machine → List (List Nat) → Machine
  | s, [] => s
  | s, f :: fs =>
    if s.exited then s
    else processFiles rom_size verbosity (processFile rom_size verbosity s f) fs

/-- Lines 118-120: the values `main` gives its settings before the command line
is scanned. -/
def defaultBlank : Int := 255
def defaultRomSize : Int := 256 * 1024
def defaultVerbosity : Int := 1

/-- Lines 149-152 and 120: the binary file after the blank fill, `min_rom_size`
at 0; `u` supplies the indeterminate values of the variables `main` has not yet
assigned. -/
def blankImage (rom_size : Int) (blank : Int) (u : Machine) : Machine :=
  { u with
    bin := List.replicate rom_size.toNat (toByte blank)
    pos := rom_size.toNat
    min_rom_size := 0
    out := []
    writes := []
    exited := false }

/-- The whole conversion: blank image, then every file in order. -/
def convert (rom_size verbosity blank : Int) (u : Machine) (files : List (List Nat)) :
    Machine :=
  processFiles rom_size verbosity (blankImage rom_size blank u) files

/-- The characters of a text as `getc` returns them. -/
def chars (t : String) : List Nat := t.toList.map Char.toNat

/-- A machine whose every variable is 0, for closed examples. -/
def zeroMachine : Machine :=
  { bin := [], pos := 0, state := 0, processing := 0, error := 0, type := 0,
    nibble := 0, bytes := 0, records := 0, checksum := 0, byte_value := 0,
    nibble_value := 0, byte_count := 0, address := 0, value := 0, addr_bytes := 0,
    data_bytes := 0, min_rom_size := 0, out := [], writes := [], exited := false }


/-- The value an address field leaves in `value` (lines 321-322): every byte is
shifted in with `int` arithmetic. -/
def shiftIn (v : Int) : List Nat → Int
  | [] => v
  | b :: bs => shiftIn (wrap32 (wrap32 (v * 256) + (b : Int))) bs

/-! ## Record texts and character classes, as the specification words them -/

/-- The hexadecimal digits, in either case. -/
def isHexDigit (c : Int) : Prop :=
  (48 ≤ c ∧ c ≤ 57) ∨ (65 ≤ c ∧ c ≤ 70) ∨ (97 ≤ c ∧ c ≤ 102)

instance (c : Int) : Decidable (isHexDigit c) := by
  unfold isHexDigit; infer_instance

/-- The 4-bit value the specification gives a character: `'0'..'9'` are 0..9,
`'A'..'F'` and `'a'..'f'` are 10..15, anything else is "not hex" (-1). -/
def specHexValue (c : Int) : Int :=
  if 48 ≤ c ∧ c ≤ 57 then c - 48
  else if 65 ≤ c ∧ c ≤ 70 then c - 55
  else if 97 ≤ c ∧ c ≤ 102 then c - 87
  else -1

/-- The upper-case hexadecimal digit of a value below 16. -/
def hexDigit (n : Nat) : Nat := if n < 10 then 48 + n else 55 + n

/-- A byte as two upper-case hexadecimal digits, high nibble first. -/
def hexByte (b : Nat) : List Nat := [hexDigit (b / 16), hexDigit (b % 16)]

/-- A sequence of bytes as hexadecimal text. -/
def hexBytes : List Nat → List Nat
  | [] => []
  | b :: bs => hexByte b ++ hexBytes bs

/-- The `w` low bytes of `a`, most significant first. -/
def beBytes : Nat → Nat → List Nat
  | 0, _ => []
  | w + 1, a => beBytes w (a / 256) ++ [a % 256]

/-- The address width the specification gives each record type. -/
def specAddrWidth (t : Nat) : Nat :=
  if t = 1 ∨ t = 9 then 2
  else if t = 2 ∨ t = 8 then 3
  else if t = 3 ∨ t = 7 then 4
  else 0

/-- The text of a record of type `t` with address `a`, data `d` and checksum
byte `k`: `S`, the type digit, the byte count, the address, the data, the
checksum, all in upper-case hexadecimal, then a newline. -/
def recordText (t a : Nat) (d : List Nat) (k : Nat) : List Nat :=
  [83, 48 + t] ++ hexByte (specAddrWidth t + d.length + 1)
    ++ hexBytes (beBytes (specAddrWidth t) a) ++ hexBytes d ++ hexByte k ++ [10]

/-- The checksum the specification gives a record: the one's complement of the
low byte of the sum of the byte count, the address bytes and the data bytes. -/
def specChecksum (t a : Nat) (d : List Nat) : Nat :=
  255 - ((specAddrWidth t + d.length + 1) + (beBytes (specAddrWidth t) a).sum + d.sum) % 256

/-- The loop is still reading: `processing` is set and the program has not
exited. -/
def running (s : Machine) : Prop := s.processing ≠ 0 ∧ s.exited = false

instance (s : Machine) : Decidable (running s) := by
  unfold running; infer_instance

/-- A character that is a fatal decode error in the state `s`: at the start of a
line anything but `S`, `s` and the four blanks; after `S` anything but a
supported type digit; in a byte-count, address, data or checksum field anything
but a hexadecimal digit. -/
def fatalChar (s : Machine) (c : Int) : Prop :=
  (s.state = SREC_NEWLINE ∧ ¬ (c = 83 ∨ c = 115) ∧ ¬ (c = 10 ∨ c = 13 ∨ c = 32 ∨ c = 9)) ∨
  (s.state = SREC_RECORDTYPE ∧
    ¬ (c = 48 ∨ c = 49 ∨ c = 50 ∨ c = 51 ∨ c = 53 ∨ c = 55 ∨ c = 56 ∨ c = 57)) ∨
  ((s.state = SREC_BYTECOUNT ∨ s.state = SREC_ADDRESS ∨ s.state = SREC_DATA ∨
      s.state = SREC_CHKSUM) ∧ ¬ isHexDigit c)

instance (s : Machine) (c : Int) : Decidable (fatalChar s c) := by
  unfold fatalChar; infer_instance

/-- What of a machine is seen from outside the decoding loop. -/
def sameVisible (a b : Machine) : Prop :=
  a.bin = b.bin ∧ a.pos = b.pos ∧ a.min_rom_size = b.min_rom_size ∧
  a.records = b.records ∧ a.error = b.error ∧ a.processing = b.processing ∧
  a.state = b.state ∧ a.exited = b.exited ∧ a.writes = b.writes

/-- Two machines that agree on what is visible and, while the loop runs, on every
working variable that the current state can still read before assigning it. -/
def sameLive (a b : Machine) : Prop :=
  sameVisible a b ∧
  (running a →
    ((2 ≤ a.state ∧ a.state ≤ 5) →
      a.nibble = b.nibble ∧ a.bytes = b.bytes ∧ (a.nibble ≠ HI → a.byte_value = b.byte_value)) ∧
    ((2 ≤ a.state ∧ a.state ≤ 6) → a.checksum = b.checksum) ∧
    (a.state = 2 → a.type = b.type ∧ addrWidth a.type ≠ none) ∧
    (a.state = 3 → a.type = b.type ∧ a.value = b.value ∧ a.data_bytes = b.data_bytes) ∧
    (a.state = 4 → a.type = b.type ∧
      ((a.type = 1 ∨ a.type = 2 ∨ a.type = 3) → a.address = b.address)))

/-- What the decoder leaves alone outside the data field of a record: the binary
file, the high-water mark and the flags of the loop. -/
def keeps (s s' : Machine) : Prop :=
  s'.bin = s.bin ∧ s'.pos = s.pos ∧ s'.writes = s.writes ∧
  s'.min_rom_size = s.min_rom_size ∧ s'.error = s.error ∧
  s'.processing = s.processing ∧ s'.exited = s.exited ∧ s'.records = s.records

/-- The byte that the last call of a list of calls on the binary file puts at
offset `a`, if any call of the list asks for that offset. -/
def lastWrite (a : Nat) : List (Int × Nat) → Option Nat
  | [] => none
  | w :: ws =>
    match lastWrite a ws with
    | some x => some x
    | none => if w.1 = (a : Int) then some w.2 else none

/-! ## Closed inputs used below -/

/-- The image of 16 bytes of scenario A as the specification expects it. -/
def scenarioAExpected : List Nat :=
  [255, 255, 255, 255, 170, 187, 204, 255, 255, 255, 255, 255, 255, 255, 255, 255]

/-- The image of 16 bytes that decoding scenario A produces. -/
def scenarioAImage : List Nat :=
  [255, 255, 255, 255, 170, 187, 204, 91, 255, 255, 255, 255, 255, 255, 255, 255]

/-- The first input file of the overlay example: `0x11` at address 2. -/
def overlayFile1 : List Nat := chars "S104000211E8\n"

/-- The second input file of the overlay example: `0x22` at address 2, `0x33` at
address 1, then a type 3 record that puts `0x44` at address `0x80000000`. -/
def overlayFile2 : List Nat :=
  chars "S104000222D7\nS104000133C7\nS306800000004435\n"

/-- A file start that decodes one record and stops inside the byte count of a
second one. -/
def abortedStart : List Nat := chars "S1060004AABBCCC4\nS10"

/-- What follows the offending character in the abort example. -/
def abortedRest : List Nat := chars "7\nS1060004DDEEFF2B\n"

/-- A record up to its checksum field, and two files read one after the other in
the examples below: the first stops in the middle of a record. -/
def advisoryStart : List Nat := chars "S1060004AABBCC"

def unfinishedFile : List Nat := chars "S104000211E8\nS2080000"

def secondFile : List Nat := chars "S0030000FC\nS1060004AABBCCC4\nS9030000FC\n"

/-- A machine that holds the image, high-water mark and output that
`unfinishedFile` leaves on a blank image of 16 bytes, and other values in the
working variables of the decoder. -/
def strangerMachine : Machine :=
  { bin := [255, 255, 17, 255, 255, 255, 255, 255, 255, 255, 255, 255, 255, 255, 255, 255],
    pos := 3, state := 4, processing := 0, error := 1, type := 3, nibble := 0, bytes := 77,
    records := 5, checksum := 9, byte_value := 200, nibble_value := 3, byte_count := 40,
    address := 6, value := 1000, addr_bytes := 4, data_bytes := 35, min_rom_size := 3,
    out := [Out.records 1], writes := [(2, 17)], exited := false }

/-- The state variable holds one of the seven values of lines 82-88. -/
def definedState (s : Machine) : Prop :=
  s.state = SREC_NEWLINE ∨ s.state = SREC_RECORDTYPE ∨ s.state = SREC_BYTECOUNT ∨
  s.state = SREC_ADDRESS ∨ s.state = SREC_DATA ∨ s.state = SREC_CHKSUM ∨
  s.state = SREC_ENDOFLINE

instance (s : Machine) : Decidable (definedState s) := by
  unfold definedState; infer_instance

/-- The binary file, its position, the calls made on it and the high-water mark
are those of `s`. -/
def sameFile (s s' : Machine) : Prop :=
  s'.bin = s.bin ∧ s'.pos = s.pos ∧ s'.writes = s.writes ∧ s'.min_rom_size = s.min_rom_size

instance (s s' : Machine) : Decidable (sameFile s s') := by
  unfold sameFile; infer_instance

/-- The unsigned big-endian value of a sequence of bytes, as the specification
words it: the sum of `b_i * 256 ^ (w - 1 - i)`. -/
def beValue : List Nat → Nat
  | [] => 0
  | b :: bs => b * 256 ^ bs.length + beValue bs

/-- A type 3 record with the one data byte `0xAA` at address `0xF0000000`. -/
def highRecordFile : List Nat := chars "S306F0000000AA5F\n"

/-- A type 3 record with the one data byte `0xAA` at address `0xFFFFFFFF`. -/
def topRecordFile : List Nat := chars "S306FFFFFFFFAA53\n"

/-- A file whose only line names the record type 4, and the file listed after
it in the example of the unsupported type. -/
def unsupportedTypeFile : List Nat := chars "S4060004DDEEFF2B\n"

def fileAfterUnsupported : List Nat := chars "S1060004AABBCCC4\n"

/-! ## The command line -/

/-- The settings that `main` takes from the command line (lines 100-105). -/
structure Settings where
  blank : Int
  verbosity : Int
  rom_size : Int
  s_position : Int
  deriving DecidableEq

/-- Lines 117-119: the settings before the scan. `s_position` has no initial
value in the source; `u` stands for what it holds. -/
def initialSettings (u : Int) : Settings :=
  { blank := defaultBlank, verbosity := defaultVerbosity, rom_size := defaultRomSize,
    s_position := u }

/-- Lines 124-137: the body of the scan for `argv[i] = a` and `argv[i+1] = b`.
`atoi` is the one of the C library; `blank` is an `unsigned char`. -/
def scanPair (atoi : String → Int) (i : Int) (a b : String) (st : Settings) : Settings :=
  let st1 : Settings := if a = "-d" then { st with blank := (toByte (atoi b) : Int) } else st
  let st2 : Settings := if a = "-v" then { st1 with verbosity := atoi b } else st1
  let st3 : Settings := if a = "-B" then { st2 with rom_size := atoi b } else st2
  let st4 : Settings :=
    if a = "-K" then { st3 with rom_size := wrap32 (1024 * atoi b) } else st3
  let st5 : Settings :=
    if a = "-M" then { st4 with rom_size := wrap32 (1024 * 1024 * atoi b) } else st4
  let st6 : Settings :=
    if a = "-G" then { st5 with rom_size := wrap32 (1024 * 1024 * 1024 * atoi b) } else st5
  if a = "-s" then { st6 with s_position := wrap32 (i + 1) } else st6

/-- Lines 122-138: `for (i = 1; i < argc-1; i++)` over the arguments from
`argv[i]` on. -/
def scanFrom (atoi : String → Int) : Int → List String → Settings → Settings
  | i, a :: b :: rest, st => scanFrom atoi (wrap32 (i + 1)) (b :: rest) (scanPair atoi i a b st)
  | _, _, st => st

/-- Lines 116-138: the settings after the scan of the command line `argv`. -/
def scanArgs (atoi : String → Int) (u : Int) (argv : List String) : Settings :=
  scanFrom atoi 1 (argv.drop 1) (initialSettings u)

/-! ## Files of well-formed records, as the specification words them -/

/-- A record line without its newline: the start character, the type digit and
the hexadecimal digits that follow it. -/
structure RecordLine where
  start : Nat
  type : Nat
  hex : List Nat
  deriving DecidableEq

/-- The byte count that the first two digits of a record denote. -/
def byteCountOf : List Nat → Nat
  | c1 :: c2 :: _ => (16 * specHexValue (c1 : Int) + specHexValue (c2 : Int)).toNat
  | _ => 0

/-- A well-formed record: `S` or `s`, a supported type digit, hexadecimal digits
in either case, two for the byte count and two for each byte it counts, which
are the address, the data and the checksum; a record without an address field
has at least one data byte. -/
def wellFormedLine (r : RecordLine) : Prop :=
  (r.start = 83 ∨ r.start = 115) ∧
  (r.type = 0 ∨ r.type = 1 ∨ r.type = 2 ∨ r.type = 3 ∨ r.type = 5 ∨ r.type = 7 ∨
    r.type = 8 ∨ r.type = 9) ∧
  (∀ c ∈ r.hex, isHexDigit (c : Int)) ∧
  r.hex.length = 2 + 2 * byteCountOf r.hex ∧
  specAddrWidth r.type + 1 ≤ byteCountOf r.hex ∧
  (specAddrWidth r.type ≠ 0 ∨ 2 ≤ byteCountOf r.hex)

instance (r : RecordLine) : Decidable (wellFormedLine r) := by
  unfold wellFormedLine; infer_instance

/-- The text of a file of records, each closed by a newline. -/
def plainFile : List RecordLine → List Nat
  | [] => []
  | r :: rs => r.start :: (48 + r.type) :: r.hex ++ [10] ++ plainFile rs

/-- The characters still to be read before the end-of-line state, for a machine
inside the address, data or checksum field. -/
def fieldsLeft (s : Machine) : Int :=
  (if s.state = 3 then 2 * s.bytes + 2 * s.data_bytes + 2
   else if s.state = 4 then 2 * s.bytes + 2
   else if s.state = 5 then 2
   else 0) - (if s.nibble = LO ∧ 3 ≤ s.state ∧ s.state ≤ 5 then 1 else 0)

/-- A running machine past the byte count of a record whose counters are
positive. -/
def inFields (s : Machine) : Prop :=
  running s ∧ (s.nibble = HI ∨ s.nibble = LO) ∧ (3 ≤ s.state ∧ s.state ≤ 6) ∧
  (s.state = 3 → 1 ≤ s.bytes ∧ s.bytes ≤ 4 ∧ 0 ≤ s.data_bytes ∧ s.data_bytes ≤ 255) ∧
  (s.state = 4 → 1 ≤ s.bytes ∧ s.bytes ≤ 255) ∧
  (s.state = 5 → s.bytes = 1)

/-- What may be put around a record: characters before its start character, the
start character itself, and characters between its checksum digits and its
newline. -/
structure Padding where
  lead : List Nat
  start : Nat
  junk : List Nat
  deriving DecidableEq

/-- The padding that the specification calls insignificant: blanks
(space, tab, carriage return, newline) before the record, `S` or `s` to start
it, anything but a newline after its checksum. -/
def allowedPadding (p : Padding) : Prop :=
  (∀ c ∈ p.lead, c = 32 ∨ c = 9 ∨ c = 13 ∨ c = 10) ∧ (p.start = 83 ∨ p.start = 115) ∧
  10 ∉ p.junk

instance (p : Padding) : Decidable (allowedPadding p) := by
  unfold allowedPadding; infer_instance

/-- The text of a file of records with the padding given for each of them. -/
def paddedFile : List (RecordLine × Padding) → List Nat
  | [] => []
  | x :: xs =>
    x.2.lead ++ x.2.start :: (48 + x.1.type) :: x.1.hex ++ x.2.junk ++ [10] ++ paddedFile xs

/-- Three well-formed records, the second with lower-case digits and started by
`s`. -/
def threeRecords : List RecordLine :=
  [{ start := 83, type := 0, hex := chars "0600004844521B" },
   { start := 115, type := 1, hex := chars "0a0000aabbccddeeff0f00" },
   { start := 83, type := 9, hex := chars "030000FC" }]

/-- One record with blanks before it, started by `s`, with a remark before its
newline. -/
def paddedRecords : List (RecordLine × Padding) :=
  [({ start := 83, type := 1, hex := chars "060004AABBCCC4" },
    { lead := chars " \r\n\t", start := 115, junk := chars " ; remark" })]

/-! ## The shape of a record, with counters the source does not keep -/

/-- A machine with two counters: the address bytes and the data bytes that the
record being read has consumed so far. -/
structure Counted where
  m : Machine
  addrSeen : Nat
  dataSeen : Nat
  deriving DecidableEq

/-- One iteration of the loop with the counters: they are cleared when the type
digit is read, and a byte is consumed where the low digit of an address byte
(lines 316-343) or of a data byte (lines 370-402) is accepted. -/
def countStep (rom_size v : Int) (x : Counted) (c : Int) : Counted :=
  { m := step rom_size v x.m c
    addrSeen :=
      if x.m.state = SREC_RECORDTYPE then 0
      else if x.m.state = SREC_ADDRESS ∧ x.m.nibble = LO ∧ hexvalue c ≥ 0 then x.addrSeen + 1
      else x.addrSeen
    dataSeen :=
      if x.m.state = SREC_RECORDTYPE then 0
      else if x.m.state = SREC_DATA ∧ x.m.nibble = LO ∧ hexvalue c ≥ 0 then x.dataSeen + 1
      else x.dataSeen }

/-- The decoding loop with the counters. -/
def countLoop (rom_size v : Int) : Counted → List Nat → Counted
  | x, [] => x
  | x, c :: cs =>
    if x.m.processing ≠ 0 ∧ x.m.exited = false then
      countLoop rom_size v (countStep rom_size v x (c : Int)) cs
    else x

/-- What the counters and the variables of the record satisfy after `n`
characters of a file. -/
def shapeInv (x : Counted) (n : Nat) : Prop :=
  x.dataSeen ≤ n ∧
  (x.m.state = 2 → addrWidth x.m.type ≠ none ∧ x.addrSeen = 0 ∧ x.dataSeen = 0 ∧
    x.m.bytes = 1 ∧ (x.m.nibble ≠ HI → 0 ≤ x.m.byte_value ∧ x.m.byte_value ≤ 15)) ∧
  (x.m.state = 3 → addrWidth x.m.type = some x.m.addr_bytes ∧
    (0 ≤ x.m.byte_count ∧ x.m.byte_count ≤ 255) ∧
    x.m.data_bytes = x.m.byte_count - x.m.addr_bytes - 1 ∧
    x.m.bytes + (x.addrSeen : Int) = x.m.addr_bytes ∧ 1 ≤ x.m.bytes ∧ x.dataSeen = 0) ∧
  (x.m.state = 4 → addrWidth x.m.type = some (x.addrSeen : Int) ∧
    (0 ≤ x.m.byte_count ∧ x.m.byte_count ≤ 255) ∧
    (-2147483648 ≤ x.m.bytes ∧ x.m.bytes < 2147483648) ∧
    (x.m.bytes + (x.dataSeen : Int) - (x.m.byte_count - (x.addrSeen : Int) - 1))
      % 4294967296 = 0) ∧
  ((x.m.state = 5 ∨ x.m.state = 6) → addrWidth x.m.type = some (x.addrSeen : Int) ∧
    x.m.byte_count = (x.addrSeen : Int) + (x.dataSeen : Int) + 1)

/-- The decoding of a file with the counters, from the reset at its top. -/
def countFile (rom_size v : Int) (m : Machine) (cs : List Nat) : Counted :=
  countLoop rom_size v { m := resetForFile m, addrSeen := 0, dataSeen := 0 } cs

/-! ## Records whose byte count is too small -/

/-- The start of a record of type `t` up to its byte count `n`: `S`, the type
digit and the two digits of the byte count. -/
def recordHead (t n : Nat) : List Nat := 83 :: (48 + t) :: hexByte n

/-- A record whose data length is negative, or zero without an address field,
after `n` further characters: either the address field is still being read, or
the decoder is in the data state with a remaining-bytes counter that is not
positive. -/
def stuck (s : Machine) (n : Nat) : Prop :=
  (s.state = 3 ∧ 1 ≤ s.bytes ∧ s.bytes ≤ 4 ∧ s.data_bytes < 0 ∧ -5 ≤ s.data_bytes) ∨
  (s.state = 4 ∧ s.bytes ≤ 0 ∧ -5 - (n : Int) ≤ s.bytes)

/-- The record `S101FE`, whose byte count 1 is below the address width 2 of its
type plus 1, with its newline. -/
def shortRecordFile : List Nat := chars "S101FE\n"

/-! ## The records of a file, with counters the source does not keep -/

/-- A decoder with the counters of the record shape and two more: the checksum
bytes that the record being read has consumed, and the records that a newline
has closed after all their fields were read. -/
structure Tally where
  x : Counted
  chkSeen : Nat
  closed : Nat
  deriving DecidableEq

/-- Every field of the record being read has been read: as many address bytes
as the width of its type, as many data bytes as its byte count leaves beside the
address and the checksum, and the checksum byte. -/
def recordComplete (y : Tally) : Prop :=
  addrWidth y.x.m.type = some (y.x.addrSeen : Int) ∧
  y.x.m.byte_count = (y.x.addrSeen : Int) + (y.x.dataSeen : Int) + 1 ∧
  y.chkSeen = 1

instance (y : Tally) : Decidable (recordComplete y) := by
  unfold recordComplete; infer_instance

/-- One iteration of the loop with the counters. A checksum byte is consumed
where its low digit is accepted (lines 428-445); a newline ends the line, and it
closes a record when every field of the record has been read. -/
def tallyStep (rom_size v : Int) (y : Tally) (c : Int) : Tally :=
  { x := countStep rom_size v y.x c
    chkSeen :=
      if c = 10 then 0
      else if y.x.m.state = SREC_RECORDTYPE then 0
      else if y.x.m.state = SREC_CHKSUM ∧ y.x.m.nibble = LO ∧ hexvalue c ≥ 0 then
        y.chkSeen + 1
      else y.chkSeen
    closed := if c = 10 ∧ recordComplete y then y.closed + 1 else y.closed }

/-- The decoding loop with the counters. -/
def tallyLoop (rom_size v : Int) : Tally → List Nat → Tally
  | y, [] => y
  | y, c :: cs =>
    if y.x.m.processing ≠ 0 ∧ y.x.m.exited = false then
      tallyLoop rom_size v (tallyStep rom_size v y (c : Int)) cs
    else y

/-- The decoding of a file with the counters, from the reset at its top. -/
def tallyFile (rom_size v : Int) (m : Machine) (cs : List Nat) : Tally :=
  tallyLoop rom_size v
    { x := { m := resetForFile m, addrSeen := 0, dataSeen := 0 }, chkSeen := 0, closed := 0 } cs

/-- What the counters of closed records satisfy after `n` characters of a file:
the checksum byte has been read exactly in the end-of-line state, and the
record counter of the source is the number of records closed. -/
def tallyInv (y : Tally) (n : Nat) : Prop :=
  shapeInv y.x n ∧ (0 ≤ y.x.m.state ∧ y.x.m.state ≤ 6) ∧
  (y.x.m.state = 6 → y.chkSeen = 1) ∧ (y.x.m.state ≠ 6 → y.chkSeen = 0) ∧
  (y.x.m.state = 5 → y.x.m.bytes = 1) ∧
  y.x.m.records = (y.closed : Int) ∧ y.closed ≤ n

/-- A record whose line ends after the first digit of its checksum. -/
def halfChecksumFile : List Nat := chars "S1060004AABBCCC\n"

/-! ## Closed evaluations -/

/-- C8: the hex nibble decoder does not give the lower-case digits their value:
`hexvalue 'a'` is 5 where the 4-bit value of `a` is 10 (and `'f'` gives 10, not
15), because the lower-case branch subtracts `'f'` instead of `'a'`. -/
theorem hexvalue_lower_case_off :
    hexvalue 97 = 5 ∧ specHexValue 97 = 10 ∧ hexvalue 102 = 10 ∧ specHexValue 102 = 15 := by
  decide

/-- C7, as stated, fails: after decoding `S1070004AABBCC5B` on a blank image of
16 bytes `0xFF` the image is not "AA BB CC at offsets 4, 5, 6 and `0xFF`
elsewhere": offset 7 holds `0x5B`. -/
theorem scenarioA_counterexample :
    (convert 16 1 255 zeroMachine [chars "S1070004AABBCC5B\n"]).bin ≠ scenarioAExpected ∧
    (convert 16 1 255 zeroMachine [chars "S1070004AABBCC5B"]).bin ≠ scenarioAExpected ∧
    (convert 16 1 255 zeroMachine [chars "S1070004AABBCC5B\n"]).bin.get? 7 = some 91 := by
  decide

/-- C3 at its failing input: on a fresh image of 16 bytes, a type 3 record with
address `0x80000000` and the one data byte `0xAA` is not dropped: the address is
negative as an `int`, passes `address < rom_size`, and the byte is written where
the file position stands (the file grows to 17 bytes); `min_rom_size` stays 0. -/
theorem beyond_rom_high_address_written :
    (convert 16 1 255 zeroMachine [chars "S30680000000AACF\n"]).bin
      = List.replicate 16 255 ++ [170] ∧
    (convert 16 1 255 zeroMachine [chars "S30680000000AACF\n"]).writes
      = [(-2147483648, 170)] ∧
    (convert 16 1 255 zeroMachine [chars "S30680000000AACF\n"]).min_rom_size = 0 := by
  decide

/-- C4 at its failing input: the type 0 record `S0030000fc` carries the checksum
`0xFC`, which is the one's complement of `03 + 00 + 00`, and at verbosity 1 the
checksum warning is printed all the same, the byte read from `fc` being 167. -/
theorem lower_case_checksum_reported :
    Out.chkFailed ∈ (convert 16 1 255 zeroMachine [chars "S0030000fc\n"]).out ∧
    (convert 16 1 255 zeroMachine [chars "S0030000fc\n"]).byte_value = 167 ∧
    specChecksum 0 0 [0, 0] = 252 ∧
    16 * specHexValue 102 + specHexValue 99 = 252 := by
  decide

/-- C6 at its failing input: the rendered type 0 record without data, `S001FE`
and a newline, does not decode to one record: its checksum digits are taken as
a data byte, the newline is a fatal error and no record is counted. -/
theorem empty_header_record_not_decoded :
    recordText 0 0 [] (specChecksum 0 0 []) = chars "S001FE\n" ∧
    (convert 16 1 255 zeroMachine [recordText 0 0 [] (specChecksum 0 0 [])]).error = 1 ∧
    (convert 16 1 255 zeroMachine [recordText 0 0 [] (specChecksum 0 0 [])]).records = 0 ∧
    (convert 16 1 255 zeroMachine [recordText 0 0 [] (specChecksum 0 0 [])]).state
      = SREC_DATA := by
  decide

/-- C2 at its failing input: the second file writes `0x22` to address 2, then
`0x33` to address 1, then `0x44` to address `0x80000000`; no later record of it
targets address 2, and the final image holds `0x44` at offset 2. -/
theorem overlay_clobbered_by_high_address :
    (convert 16 1 255 zeroMachine [overlayFile1, overlayFile2]).writes
      = [(2, 17), (2, 34), (1, 51), (-2147483648, 68)] ∧
    (convert 16 1 255 zeroMachine [overlayFile1, overlayFile2]).bin.get? 2 = some 68 ∧
    Out.chkFailed ∉ (convert 16 1 255 zeroMachine [overlayFile1, overlayFile2]).out := by
  decide

/-- The characters of the record of scenario A. -/
theorem scenarioA_chars : chars "S1070004AABBCC5B\n" =
    [83, 49, 48, 55, 48, 48, 48, 52, 65, 65, 66, 66, 67, 67, 53, 66, 10] := by decide

/-- The same record without its newline. -/
theorem scenarioA_chars_open : chars "S1070004AABBCC5B" =
    [83, 49, 48, 55, 48, 48, 48, 52, 65, 65, 66, 66, 67, 67, 53, 66] := by decide

set_option maxHeartbeats 1000000 in
/-- C7, amended: for every verbosity and whatever the unassigned variables hold,
decoding the single record `S1070004AABBCC5B` (with or without its newline) on a
blank image of 16 bytes `0xFF` leaves AA, BB, CC, 5B at offsets 4 to 7 and
`0xFF` at every other offset, and prints no checksum warning; the byte count 07
makes `5B` a fourth data byte, so with the newline the file ends in a fatal
error with no record counted. -/
theorem scenarioA_amended (v : Int) (u : Machine) :
    (convert 16 v 255 u [chars "S1070004AABBCC5B\n"]).bin = scenarioAImage ∧
    Out.chkFailed ∉ (convert 16 v 255 u [chars "S1070004AABBCC5B\n"]).out ∧
    (convert 16 v 255 u [chars "S1070004AABBCC5B\n"]).error = TRUE ∧
    (convert 16 v 255 u [chars "S1070004AABBCC5B\n"]).records = 0 ∧
    (convert 16 v 255 u [chars "S1070004AABBCC5B"]).bin = scenarioAImage ∧
    Out.chkFailed ∉ (convert 16 v 255 u [chars "S1070004AABBCC5B"]).out := by
  rw [scenarioA_chars, scenarioA_chars_open]
  by_cases h1 : v > 1 <;> by_cases h0 : v = 0 <;>
  simp [convert, processFiles, processFile, blankImage, resetForFile, decodeLoop, step,
    stepNewline, stepRecordType, stepByteCount, byteCountDone, addrWidth, stepAddress,
    addressDone, stepData, writeData, stepChksum, stepEndOfLine, fail, hexvalue, wrap32,
    fseekSet, fwriteByte, toByte, TRUE, FALSE, HI, LO, SREC_NEWLINE, SREC_RECORDTYPE,
    SREC_BYTECOUNT, SREC_ADDRESS, SREC_DATA, SREC_CHKSUM, SREC_ENDOFLINE, scenarioAImage,
    trace, h1, h0]

/-! ## The loop -/

theorem decodeLoop_nil (rom_size v : Int) (s : Machine) :
    decodeLoop rom_size v s [] = s := rfl

theorem decodeLoop_cons_running {rom_size v : Int} {s : Machine} (h : running s) (c : Nat)
    (cs : List Nat) :
    decodeLoop rom_size v s (c :: cs) = decodeLoop rom_size v (step rom_size v s c) cs := by
  unfold running at h
  simp [decodeLoop, h]

theorem decodeLoop_stopped {rom_size v : Int} {s : Machine} (h : ¬ running s) (cs : List Nat) :
    decodeLoop rom_size v s cs = s := by
  cases cs with
  | nil => rfl
  | cons c cs =>
    unfold running at h
    simp only [decodeLoop]
    rw [if_neg h]

theorem decodeLoop_append (rom_size v : Int) (s : Machine) (p q : List Nat) :
    decodeLoop rom_size v s (p ++ q)
      = decodeLoop rom_size v (decodeLoop rom_size v s p) q := by
  induction p generalizing s with
  | nil => rfl
  | cons c p ih =>
    by_cases h : running s
    · rw [List.cons_append, decodeLoop_cons_running h, decodeLoop_cons_running h, ih]
    · rw [decodeLoop_stopped h, decodeLoop_stopped h, decodeLoop_stopped h]

/-! ## A fatal character ends the file -/

/-- The nibble decoder refuses exactly the characters that are no hexadecimal
digit. -/
theorem hexvalue_neg_iff (c : Int) : hexvalue c < 0 ↔ ¬ isHexDigit c := by
  unfold hexvalue isHexDigit
  split_ifs <;> omega

theorem hexvalue_nonneg_iff (c : Int) : 0 ≤ hexvalue c ↔ isHexDigit c := by
  have := hexvalue_neg_iff c
  constructor
  · intro h; by_contra hc; have := this.mpr hc; omega
  · intro h; by_contra hc; exact (this.mp (by omega)) h

/-- A fatal character stops the loop and touches nothing but `processing`,
`error`, `nibble_value` and what is printed. -/
theorem step_fatal (rom_size v : Int) {s : Machine} {c : Int} (h : fatalChar s c) :
    ∃ o nv, step rom_size v s c
      = { s with processing := FALSE, error := TRUE, out := o, nibble_value := nv } := by
  have hx := hexvalue_neg_iff c
  unfold fatalChar at h
  rcases h with ⟨hs, h1, h2⟩ | ⟨hs, h1⟩ | ⟨hs, h1⟩
  · have h1' : ¬ (c = 115 ∨ c = 83) := by tauto
    refine ⟨s.out, s.nibble_value, ?_⟩
    simp [step, hs, stepNewline, h1', h2, fail]
  · refine ⟨s.out, s.nibble_value, ?_⟩
    simp [step, hs, stepRecordType, h1, fail, SREC_RECORDTYPE, SREC_NEWLINE]
  · have hneg : ¬ (hexvalue c ≥ 0) := by have := hx.mpr h1; omega
    refine ⟨trace v s.out [Out.echo c], hexvalue c, ?_⟩
    rcases hs with hs | hs | hs | hs <;>
    simp [step, hs, stepByteCount, stepAddress, stepData, stepChksum, hneg, fail,
      SREC_RECORDTYPE, SREC_NEWLINE, SREC_BYTECOUNT, SREC_ADDRESS, SREC_DATA, SREC_CHKSUM]

/-- C9: a fatal decode error aborts the rest of the file. If decoding `p` leaves
the loop reading and `c` is a fatal character in the state reached after `p`,
then for every suffix `s` the file `p ++ c :: s` leaves the image (contents,
position and calls made on it), the high-water mark and the record count that
`p` alone leaves, with `error` set. -/
theorem fatal_error_aborts_file (rom_size v : Int) (m : Machine) (p s : List Nat) (c : Nat)
    (hp : running (decodeLoop rom_size v (resetForFile m) p))
    (hc : fatalChar (decodeLoop rom_size v (resetForFile m) p) c) :
    (processFile rom_size v m (p ++ c :: s)).bin = (processFile rom_size v m p).bin ∧
    (processFile rom_size v m (p ++ c :: s)).pos = (processFile rom_size v m p).pos ∧
    (processFile rom_size v m (p ++ c :: s)).writes = (processFile rom_size v m p).writes ∧
    (processFile rom_size v m (p ++ c :: s)).min_rom_size
      = (processFile rom_size v m p).min_rom_size ∧
    (processFile rom_size v m (p ++ c :: s)).records = (processFile rom_size v m p).records ∧
    (processFile rom_size v m (p ++ c :: s)).error = TRUE := by
  obtain ⟨o, nv, hstep⟩ := step_fatal rom_size v hc
  have hrun : decodeLoop rom_size v (resetForFile m) (p ++ c :: s)
      = step rom_size v (decodeLoop rom_size v (resetForFile m) p) c := by
    rw [decodeLoop_append, decodeLoop_cons_running hp, decodeLoop_stopped]
    rw [hstep]; simp [running, FALSE]
  have hex := hp.2
  simp only [processFile, hrun, hstep, hex]
  simp
  split <;> simp

/-- The abort theorem at a file that decodes one record, starts a second one and
meets `G` in its byte count. -/
theorem fatal_error_aborts_file_witness :
    running (decodeLoop 16 1 (resetForFile (blankImage 16 255 zeroMachine)) abortedStart) ∧
    fatalChar (decodeLoop 16 1 (resetForFile (blankImage 16 255 zeroMachine)) abortedStart)
      ((71 : Nat) : Int) ∧
    ((processFile 16 1 (blankImage 16 255 zeroMachine) (abortedStart ++ 71 :: abortedRest)).bin
        = (processFile 16 1 (blankImage 16 255 zeroMachine) abortedStart).bin ∧
      (processFile 16 1 (blankImage 16 255 zeroMachine) (abortedStart ++ 71 :: abortedRest)).pos
        = (processFile 16 1 (blankImage 16 255 zeroMachine) abortedStart).pos ∧
      (processFile 16 1 (blankImage 16 255 zeroMachine) (abortedStart ++ 71 :: abortedRest)).writes
        = (processFile 16 1 (blankImage 16 255 zeroMachine) abortedStart).writes ∧
      (processFile 16 1 (blankImage 16 255 zeroMachine)
          (abortedStart ++ 71 :: abortedRest)).min_rom_size
        = (processFile 16 1 (blankImage 16 255 zeroMachine) abortedStart).min_rom_size ∧
      (processFile 16 1 (blankImage 16 255 zeroMachine) (abortedStart ++ 71 :: abortedRest)).records
        = (processFile 16 1 (blankImage 16 255 zeroMachine) abortedStart).records ∧
      (processFile 16 1 (blankImage 16 255 zeroMachine) (abortedStart ++ 71 :: abortedRest)).error
        = TRUE) :=
  ⟨by decide, by decide,
    fatal_error_aborts_file 16 1 (blankImage 16 255 zeroMachine) abortedStart abortedRest 71
      (by decide) (by decide)⟩


/-! ## The state dispatch -/

theorem step_newline {s : Machine} (h : s.state = 0) (rom_size v c : Int) :
    step rom_size v s c = stepNewline s c := by
  simp [step, h, SREC_NEWLINE]

theorem step_recordType {s : Machine} (h : s.state = 1) (rom_size v c : Int) :
    step rom_size v s c = stepRecordType v s c := by
  simp [step, h, SREC_NEWLINE, SREC_RECORDTYPE]

theorem step_byteCount {s : Machine} (h : s.state = 2) (rom_size v c : Int) :
    step rom_size v s c = stepByteCount v s c := by
  simp [step, h, SREC_NEWLINE, SREC_RECORDTYPE, SREC_BYTECOUNT]

theorem step_address {s : Machine} (h : s.state = 3) (rom_size v c : Int) :
    step rom_size v s c = stepAddress v s c := by
  simp [step, h, SREC_NEWLINE, SREC_RECORDTYPE, SREC_BYTECOUNT, SREC_ADDRESS]

theorem step_data {s : Machine} (h : s.state = 4) (rom_size v c : Int) :
    step rom_size v s c = stepData rom_size v s c := by
  simp [step, h, SREC_NEWLINE, SREC_RECORDTYPE, SREC_BYTECOUNT, SREC_ADDRESS, SREC_DATA]

theorem step_chksum {s : Machine} (h : s.state = 5) (rom_size v c : Int) :
    step rom_size v s c = stepChksum v s c := by
  simp [step, h, SREC_NEWLINE, SREC_RECORDTYPE, SREC_BYTECOUNT, SREC_ADDRESS, SREC_DATA,
    SREC_CHKSUM]

theorem step_endOfLine {s : Machine} (h : s.state = 6) (rom_size v c : Int) :
    step rom_size v s c = stepEndOfLine v s c := by
  simp [step, h, SREC_NEWLINE, SREC_RECORDTYPE, SREC_BYTECOUNT, SREC_ADDRESS, SREC_DATA,
    SREC_CHKSUM, SREC_ENDOFLINE]

theorem step_undefined {s : Machine} (h : ¬ (0 ≤ s.state ∧ s.state ≤ 6)) (rom_size v c : Int) :
    step rom_size v s c
      = { s with out := trace v s.out [Out.undefinedState], exited := true } := by
  have e0 : ¬ s.state = 0 := by omega
  have e1 : ¬ s.state = 1 := by omega
  have e2 : ¬ s.state = 2 := by omega
  have e3 : ¬ s.state = 3 := by omega
  have e4 : ¬ s.state = 4 := by omega
  have e5 : ¬ s.state = 5 := by omega
  have e6 : ¬ s.state = 6 := by omega
  simp [step, e0, e1, e2, e3, e4, e5, e6, SREC_NEWLINE, SREC_RECORDTYPE, SREC_BYTECOUNT,
    SREC_ADDRESS, SREC_DATA, SREC_CHKSUM, SREC_ENDOFLINE]

/-! ## Agreement on the live variables is kept by every step -/

theorem sameLive_stopped {a b : Machine} (h : sameVisible a b) (hr : ¬ running a) :
    sameLive a b := ⟨h, fun hr' => absurd hr' hr⟩

theorem sameLive_fail {a b : Machine} (h : sameVisible a b) : sameLive (fail a) (fail b) := by
  obtain ⟨h1, h2, h3, h4, h5, h6, h7, h8, h9⟩ := h
  apply sameLive_stopped
  · exact ⟨h1, h2, h3, h4, rfl, rfl, h7, h8, h9⟩
  · simp [running, fail, FALSE]

theorem sameLive_step_newline {a b : Machine} (h : sameLive a b) 
    (hs : a.state = 0) (rom_size v c : Int) :
    sameLive (step rom_size v a c) (step rom_size v b c) := by
  obtain ⟨hv, hl⟩ := h
  have hv' := hv
  obtain ⟨h1, h2, h3, h4, h5, h6, h7, h8, h9⟩ := hv'
  have hsb : b.state = 0 := by rw [← h7]; exact hs
  rw [step_newline hs, step_newline hsb]
  unfold stepNewline
  split_ifs
  · exact ⟨hv, hl⟩
  · exact ⟨⟨h1, h2, h3, h4, h5, h6, rfl, h8, h9⟩, fun _ => by simp [SREC_RECORDTYPE]⟩
  · exact sameLive_fail hv

theorem sameLive_step_recordType {a b : Machine} (h : sameLive a b)
    (hs : a.state = 1) (rom_size v c : Int) :
    sameLive (step rom_size v a c) (step rom_size v b c) := by
  obtain ⟨hv, hl⟩ := h
  have hv' := hv
  obtain ⟨h1, h2, h3, h4, h5, h6, h7, h8, h9⟩ := hv'
  have hsb : b.state = 1 := by rw [← h7]; exact hs
  rw [step_recordType hs, step_recordType hsb]
  unfold stepRecordType
  split_ifs with hc
  · refine ⟨⟨h1, h2, h3, h4, h5, h6, rfl, h8, h9⟩, fun _ => ?_⟩
    have hw : addrWidth (c - 48) ≠ none := by
      rcases hc with hc | hc | hc | hc | hc | hc | hc | hc <;> subst hc <;> decide
    simp [SREC_BYTECOUNT, hw]
  · exact sameLive_fail hv

theorem sameLive_step_endOfLine {a b : Machine} (h : sameLive a b) (hr : running a)
    (hs : a.state = 6) (rom_size v c : Int) :
    sameLive (step rom_size v a c) (step rom_size v b c) := by
  obtain ⟨hv, hl⟩ := h
  have hv' := hv
  obtain ⟨h1, h2, h3, h4, h5, h6, h7, h8, h9⟩ := hv'
  have hsb : b.state = 6 := by rw [← h7]; exact hs
  have hl := hl hr
  rw [step_endOfLine hs, step_endOfLine hsb]
  unfold stepEndOfLine
  split_ifs
  · refine ⟨⟨h1, h2, h3, by simp [h4], h5, h6, rfl, h8, h9⟩, fun _ => ?_⟩
    simp [SREC_NEWLINE]
  · exact ⟨hv, fun _ => hl⟩

theorem sameLive_step_undefined {a b : Machine} (h : sameLive a b) 
    (hs : ¬ (0 ≤ a.state ∧ a.state ≤ 6)) (rom_size v c : Int) :
    sameLive (step rom_size v a c) (step rom_size v b c) := by
  obtain ⟨⟨h1, h2, h3, h4, h5, h6, h7, h8, h9⟩, hl⟩ := h
  have hsb : ¬ (0 ≤ b.state ∧ b.state ≤ 6) := by rw [← h7]; exact hs
  rw [step_undefined hs, step_undefined hsb]
  apply sameLive_stopped
  · exact ⟨h1, h2, h3, h4, h5, h6, h7, rfl, h9⟩
  · simp [running]

theorem sameLive_step_chksum {a b : Machine} (h : sameLive a b) (hr : running a)
    (hs : a.state = 5) (rom_size v c : Int) :
    sameLive (step rom_size v a c) (step rom_size v b c) := by
  obtain ⟨hv, hl⟩ := h
  have hv' := hv
  obtain ⟨h1, h2, h3, h4, h5, h6, h7, h8, h9⟩ := hv'
  have hsb : b.state = 5 := by rw [← h7]; exact hs
  obtain ⟨hA, hck, -, -, -⟩ := hl hr
  obtain ⟨hn, hb, hbv⟩ := hA (by omega)
  have hck := hck (by omega)
  have hfa : sameVisible { a with out := trace v a.out [Out.echo c], nibble_value := hexvalue c }
      { b with out := trace v b.out [Out.echo c], nibble_value := hexvalue c } := hv
  rw [step_chksum hs, step_chksum hsb]
  simp only [stepChksum]
  by_cases hx : hexvalue c ≥ 0
  · simp only [hx, if_true]
    by_cases hnh : a.nibble = HI
    · have hnb : b.nibble = HI := by rw [← hn]; exact hnh
      simp only [hnh, hnb, if_true]
      refine ⟨hv, fun _ => ?_⟩
      simp [hs, hb, hck, LO, HI]
    · have hnb : ¬ b.nibble = HI := by rw [← hn]; exact hnh
      have hbv := hbv hnh
      simp only [hnh, hnb, if_false]
      by_cases hnl : a.nibble = LO
      · have hnlb : b.nibble = LO := by rw [← hn]; exact hnl
        simp only [hnl, hnlb, if_true, ← hbv, ← hck, ← hb]
        split_ifs <;>
        first
          | exact ⟨⟨h1, h2, h3, h4, h5, h6, rfl, h8, h9⟩, fun _ => by simp [hs, hck, hb, SREC_ENDOFLINE]⟩
          | exact ⟨hv, fun _ => by simp [hs, hck, hb]⟩
      · have hnlb : ¬ b.nibble = LO := by rw [← hn]; exact hnl
        simp only [hnl, hnlb, if_false]
        exact sameLive_fail hfa
  · simp only [hx, if_false]
    exact sameLive_fail hfa

theorem sameLive_step_data {a b : Machine} (h : sameLive a b) (hr : running a)
    (hs : a.state = 4) (rom_size v c : Int) :
    sameLive (step rom_size v a c) (step rom_size v b c) := by
  obtain ⟨hv, hl⟩ := h
  have hv' := hv
  obtain ⟨h1, h2, h3, h4, h5, h6, h7, h8, h9⟩ := hv'
  have hsb : b.state = 4 := by rw [← h7]; exact hs
  obtain ⟨hA, hck, -, -, hD⟩ := hl hr
  obtain ⟨hn, hb, hbv⟩ := hA (by omega)
  have hck := hck (by omega)
  obtain ⟨hty, had⟩ := hD hs
  have had' : b.type = 1 ∨ b.type = 2 ∨ b.type = 3 → a.address = b.address := by
    rw [← hty]; exact had
  have hfa : sameVisible { a with out := trace v a.out [Out.echo c], nibble_value := hexvalue c }
      { b with out := trace v b.out [Out.echo c], nibble_value := hexvalue c } := hv
  rw [step_data hs, step_data hsb]
  simp only [stepData]
  by_cases hx : hexvalue c ≥ 0
  · simp only [hx, if_true]
    by_cases hnh : a.nibble = HI
    · have hnb : b.nibble = HI := by rw [← hn]; exact hnh
      simp only [hnh, hnb, if_true]
      refine ⟨hv, fun _ => ?_⟩
      simp [hs, hb, hck, LO, HI, hty]
      exact had'
    · have hnb : ¬ b.nibble = HI := by rw [← hn]; exact hnh
      have hbv := hbv hnh
      simp only [hnh, hnb, if_false]
      by_cases hnl : a.nibble = LO
      · have hnlb : b.nibble = LO := by rw [← hn]; exact hnl
        simp only [hnl, hnlb, if_true, ← hbv, ← hck, ← hb]
        by_cases ht : a.type = 1 ∨ a.type = 2 ∨ a.type = 3
        · have htb : b.type = 1 ∨ b.type = 2 ∨ b.type = 3 := by rw [← hty]; exact ht
          have had := had ht
          simp only [writeData, ht, htb, if_true, ← had, ← h1, ← h2, ← h3, ← h9, ← hb]
          split_ifs <;>
          first
            | exact ⟨⟨rfl, rfl, rfl, h4, h5, h6, rfl, h8, rfl⟩,
                fun _ => by simp [hs, hck, hb, hty, SREC_CHKSUM]⟩
            | exact ⟨⟨rfl, rfl, rfl, h4, h5, h6, h7, h8, rfl⟩,
                fun _ => by simp [hs, hck, hb, hty, SREC_CHKSUM]⟩
        · have htb : ¬ (b.type = 1 ∨ b.type = 2 ∨ b.type = 3) := by rw [← hty]; exact ht
          simp only [writeData, ht, htb, if_false, ← hb]
          split_ifs <;>
          first
            | exact ⟨⟨h1, h2, h3, h4, h5, h6, rfl, h8, h9⟩,
                fun _ => by simp [hs, hck, hb, hty, SREC_CHKSUM]⟩
            | exact ⟨hv, fun _ => by simp [hs, hck, hb, hty, htb]⟩
      · have hnlb : ¬ b.nibble = LO := by rw [← hn]; exact hnl
        simp only [hnl, hnlb, if_false]
        exact sameLive_fail hfa
  · simp only [hx, if_false]
    exact sameLive_fail hfa

theorem sameLive_step_address {a b : Machine} (h : sameLive a b) (hr : running a)
    (hs : a.state = 3) (rom_size v c : Int) :
    sameLive (step rom_size v a c) (step rom_size v b c) := by
  obtain ⟨hv, hl⟩ := h
  have hv' := hv
  obtain ⟨h1, h2, h3, h4, h5, h6, h7, h8, h9⟩ := hv'
  have hsb : b.state = 3 := by rw [← h7]; exact hs
  obtain ⟨hA, hck, -, hD, -⟩ := hl hr
  obtain ⟨hn, hb, hbv⟩ := hA (by omega)
  have hck := hck (by omega)
  obtain ⟨hty, hval, hdb⟩ := hD hs
  have hfa : sameVisible { a with out := trace v a.out [Out.echo c], nibble_value := hexvalue c }
      { b with out := trace v b.out [Out.echo c], nibble_value := hexvalue c } := hv
  rw [step_address hs, step_address hsb]
  simp only [stepAddress]
  by_cases hx : hexvalue c ≥ 0
  · simp only [hx, if_true]
    by_cases hnh : a.nibble = HI
    · have hnb : b.nibble = HI := by rw [← hn]; exact hnh
      simp only [hnh, hnb, if_true]
      refine ⟨hv, fun _ => ?_⟩
      simp [hs, hb, hck, LO, HI, hty, hval, hdb]
    · have hnb : ¬ b.nibble = HI := by rw [← hn]; exact hnh
      have hbv := hbv hnh
      simp only [hnh, hnb, if_false]
      by_cases hnl : a.nibble = LO
      · have hnlb : b.nibble = LO := by rw [← hn]; exact hnl
        simp only [hnl, hnlb, if_true, ← hbv, ← hck, ← hb, ← hval, ← hdb, addressDone]
        split_ifs <;>
        first
          | exact ⟨⟨h1, h2, h3, h4, h5, h6, rfl, h8, h9⟩,
              fun _ => by simp [hs, hck, hb, hty, SREC_CHKSUM, SREC_DATA]⟩
          | exact ⟨hv, fun _ => by simp [hs, hck, hb, hty]⟩
      · have hnlb : ¬ b.nibble = LO := by rw [← hn]; exact hnl
        simp only [hnl, hnlb, if_false]
        exact sameLive_fail hfa
  · simp only [hx, if_false]
    exact sameLive_fail hfa

theorem addrWidth_zero_type {t w : Int} (h : addrWidth t = some w) (hw : ¬ w ≠ 0) :
    ¬ (t = 1 ∨ t = 2 ∨ t = 3) := by
  unfold addrWidth at h
  split_ifs at h <;> simp at h <;> omega

theorem sameLive_step_byteCount {a b : Machine} (h : sameLive a b) (hr : running a)
    (hs : a.state = 2) (rom_size v c : Int) :
    sameLive (step rom_size v a c) (step rom_size v b c) := by
  obtain ⟨hv, hl⟩ := h
  have hv' := hv
  obtain ⟨h1, h2, h3, h4, h5, h6, h7, h8, h9⟩ := hv'
  have hsb : b.state = 2 := by rw [← h7]; exact hs
  obtain ⟨hA, hck, hD, -, -⟩ := hl hr
  obtain ⟨hn, hb, hbv⟩ := hA (by omega)
  have hck := hck (by omega)
  obtain ⟨hty, hw⟩ := hD hs
  have hfa : sameVisible { a with out := trace v a.out [Out.echo c], nibble_value := hexvalue c }
      { b with out := trace v b.out [Out.echo c], nibble_value := hexvalue c } := hv
  rw [step_byteCount hs, step_byteCount hsb]
  simp only [stepByteCount]
  by_cases hx : hexvalue c ≥ 0
  · simp only [hx, if_true]
    by_cases hnh : a.nibble = HI
    · have hnb : b.nibble = HI := by rw [← hn]; exact hnh
      simp only [hnh, hnb, if_true]
      refine ⟨hv, fun _ => ?_⟩
      simp [hs, hb, hck, LO, HI, hty, hw]
      rw [← hty]; exact hw
    · have hnb : ¬ b.nibble = HI := by rw [← hn]; exact hnh
      have hbv := hbv hnh
      simp only [hnh, hnb, if_false]
      by_cases hnl : a.nibble = LO
      · have hnlb : b.nibble = LO := by rw [← hn]; exact hnl
        simp only [hnl, hnlb, if_true, ← hbv, ← hck, ← hb, ← hty]
        by_cases hbz : wrap32 (a.bytes - 1) ≠ 0
        · rw [if_pos hbz, if_pos hbz]
          refine ⟨hv, fun _ => ?_⟩
          simp [hs, hck, hb, hty]
          rw [← hty]; exact hw
        · rw [if_neg hbz, if_neg hbz]
          simp only [byteCountDone]
          cases hwa : addrWidth a.type with
          | none => exact absurd hwa hw
          | some w =>
            have hz := addrWidth_zero_type hwa
            simp only []
            split_ifs with hwz
            · exact ⟨⟨h1, h2, h3, h4, h5, h6, rfl, h8, h9⟩,
                fun _ => by simp [hs, hck, hb, hty, SREC_ADDRESS]⟩
            · have hz := hz hwz
              rw [hty] at hz
              exact ⟨⟨h1, h2, h3, h4, h5, h6, rfl, h8, h9⟩,
                fun _ => by simp [hs, hck, hb, hty, SREC_DATA, hz]⟩
      · have hnlb : ¬ b.nibble = LO := by rw [← hn]; exact hnl
        simp only [hnl, hnlb, if_false]
        exact sameLive_fail hfa
  · simp only [hx, if_false]
    exact sameLive_fail hfa

theorem sameLive_step {a b : Machine} (h : sameLive a b) (hr : running a)
    (rom_size v c : Int) :
    sameLive (step rom_size v a c) (step rom_size v b c) := by
  by_cases h0 : a.state = 0
  · exact sameLive_step_newline h h0 rom_size v c
  by_cases h1 : a.state = 1
  · exact sameLive_step_recordType h h1 rom_size v c
  by_cases h2 : a.state = 2
  · exact sameLive_step_byteCount h hr h2 rom_size v c
  by_cases h3 : a.state = 3
  · exact sameLive_step_address h hr h3 rom_size v c
  by_cases h4 : a.state = 4
  · exact sameLive_step_data h hr h4 rom_size v c
  by_cases h5 : a.state = 5
  · exact sameLive_step_chksum h hr h5 rom_size v c
  by_cases h6 : a.state = 6
  · exact sameLive_step_endOfLine h hr h6 rom_size v c
  · exact sameLive_step_undefined h (by omega) rom_size v c

theorem sameLive_running {a b : Machine} (h : sameLive a b) : running a ↔ running b := by
  obtain ⟨⟨h1, h2, h3, h4, h5, h6, h7, h8, h9⟩, -⟩ := h
  unfold running
  rw [h6, h8]

theorem sameLive_decodeLoop (rom_size v : Int) (cs : List Nat) :
    ∀ {a b : Machine}, sameLive a b →
      sameLive (decodeLoop rom_size v a cs) (decodeLoop rom_size v b cs) := by
  induction cs with
  | nil => intro a b h; exact h
  | cons c cs ih =>
    intro a b h
    by_cases hr : running a
    · rw [decodeLoop_cons_running hr, decodeLoop_cons_running ((sameLive_running h).mp hr)]
      exact ih (sameLive_step h hr rom_size v c)
    · rw [decodeLoop_stopped hr, decodeLoop_stopped (fun hb => hr ((sameLive_running h).mpr hb))]
      exact h


/-! ## What the write of a data byte leaves alone -/

@[simp]
theorem writeData_out (rom_size : Int) (s : Machine) :
    (writeData rom_size s).out = s.out := by
  simp only [writeData]; split_ifs <;> rfl

@[simp]
theorem writeData_bytes (rom_size : Int) (s : Machine) :
    (writeData rom_size s).bytes = s.bytes := by
  simp only [writeData]; split_ifs <;> rfl

@[simp]
theorem writeData_state (rom_size : Int) (s : Machine) :
    (writeData rom_size s).state = s.state := by
  simp only [writeData]; split_ifs <;> rfl

@[simp]
theorem writeData_nibble (rom_size : Int) (s : Machine) :
    (writeData rom_size s).nibble = s.nibble := by
  simp only [writeData]; split_ifs <;> rfl

@[simp]
theorem writeData_type (rom_size : Int) (s : Machine) :
    (writeData rom_size s).type = s.type := by
  simp only [writeData]; split_ifs <;> rfl

@[simp]
theorem writeData_checksum (rom_size : Int) (s : Machine) :
    (writeData rom_size s).checksum = s.checksum := by
  simp only [writeData]; split_ifs <;> rfl

@[simp]
theorem writeData_processing (rom_size : Int) (s : Machine) :
    (writeData rom_size s).processing = s.processing := by
  simp only [writeData]; split_ifs <;> rfl

@[simp]
theorem writeData_exited (rom_size : Int) (s : Machine) :
    (writeData rom_size s).exited = s.exited := by
  simp only [writeData]; split_ifs <;> rfl

@[simp]
theorem writeData_records (rom_size : Int) (s : Machine) :
    (writeData rom_size s).records = s.records := by
  simp only [writeData]; split_ifs <;> rfl

@[simp]
theorem writeData_error (rom_size : Int) (s : Machine) :
    (writeData rom_size s).error = s.error := by
  simp only [writeData]; split_ifs <;> rfl

theorem sameLive_out_plain {a b : Machine} (h : sameLive a b) (hr : running a)
    (ho : a.out = b.out) (hs : ¬ (2 ≤ a.state ∧ a.state ≤ 5)) (rom_size v c : Int) :
    (step rom_size v a c).out = (step rom_size v b c).out := by
  obtain ⟨hv, hl⟩ := h
  obtain ⟨h1, h2, h3, h4, h5, h6, h7, h8, h9⟩ := hv
  obtain ⟨hA, hck, hB, hC, hD⟩ := hl hr
  by_cases s0 : a.state = 0
  · rw [step_newline s0, step_newline (h7 ▸ s0)]
    unfold stepNewline fail
    split_ifs <;> exact ho
  by_cases s1 : a.state = 1
  · rw [step_recordType s1, step_recordType (h7 ▸ s1)]
    unfold stepRecordType fail
    split_ifs
    · simp only [ho]
    · exact ho
  by_cases s6 : a.state = 6
  · rw [step_endOfLine s6, step_endOfLine (h7 ▸ s6)]
    have hck := hck (by omega)
    unfold stepEndOfLine
    split_ifs
    · simp only [ho, hck]
    · exact ho
  · have su : ¬ (0 ≤ a.state ∧ a.state ≤ 6) := by omega
    rw [step_undefined su, step_undefined (h7 ▸ su)]
    simp only [ho]

theorem sameLive_out_byteCount {a b : Machine} (h : sameLive a b) (hr : running a)
    (ho : a.out = b.out) (hs : a.state = 2) (rom_size v c : Int) :
    (step rom_size v a c).out = (step rom_size v b c).out := by
  obtain ⟨hv, hl⟩ := h
  obtain ⟨h1, h2, h3, h4, h5, h6, h7, h8, h9⟩ := hv
  obtain ⟨hA, hck, hB, hC, hD⟩ := hl hr
  obtain ⟨hn, hb, hbv⟩ := hA (by omega)
  have hck := hck (by omega)
  rw [step_byteCount hs, step_byteCount (h7 ▸ hs)]
  by_cases hx : hexvalue c ≥ 0
  · by_cases hnh : a.nibble = HI
    · have hnb : b.nibble = HI := by rw [← hn]; exact hnh
      simp [stepByteCount, hx, hnh, hnb, ho]
    · have hnb : ¬ b.nibble = HI := by rw [← hn]; exact hnh
      have hbv := hbv hnh
      by_cases hnl : a.nibble = LO
      · have hnlb : b.nibble = LO := by rw [← hn]; exact hnl
        obtain ⟨hty, hw⟩ := hB hs
        simp only [stepByteCount, hx, hnh, hnb, hnl, hnlb, if_true, if_false, ← ho, ← hbv,
          ← hb, ← hck, ← hty, byteCountDone]
        cases hwa : addrWidth a.type with
        | none => exact absurd hwa hw
        | some w => split_ifs <;> rfl
      · have hnlb : ¬ b.nibble = LO := by rw [← hn]; exact hnl
        simp [stepByteCount, hx, hnh, hnb, hnl, hnlb, ho, fail]
  · simp [stepByteCount, hx, ho, fail]

theorem sameLive_out_address {a b : Machine} (h : sameLive a b) (hr : running a)
    (ho : a.out = b.out) (hs : a.state = 3) (rom_size v c : Int) :
    (step rom_size v a c).out = (step rom_size v b c).out := by
  obtain ⟨hv, hl⟩ := h
  obtain ⟨h1, h2, h3, h4, h5, h6, h7, h8, h9⟩ := hv
  obtain ⟨hA, hck, hB, hC, hD⟩ := hl hr
  obtain ⟨hn, hb, hbv⟩ := hA (by omega)
  have hck := hck (by omega)
  rw [step_address hs, step_address (h7 ▸ hs)]
  by_cases hx : hexvalue c ≥ 0
  · by_cases hnh : a.nibble = HI
    · have hnb : b.nibble = HI := by rw [← hn]; exact hnh
      simp [stepAddress, hx, hnh, hnb, ho]
    · have hnb : ¬ b.nibble = HI := by rw [← hn]; exact hnh
      have hbv := hbv hnh
      by_cases hnl : a.nibble = LO
      · have hnlb : b.nibble = LO := by rw [← hn]; exact hnl
        obtain ⟨hty, hval, hdb⟩ := hC hs
        simp only [stepAddress, hx, hnh, hnb, hnl, hnlb, if_true, if_false, ← ho, ← hbv,
          ← hb, ← hck, ← hty, ← hval, ← hdb, addressDone]
        split_ifs <;> rfl
      · have hnlb : ¬ b.nibble = LO := by rw [← hn]; exact hnl
        simp [stepAddress, hx, hnh, hnb, hnl, hnlb, ho, fail]
  · simp [stepAddress, hx, ho, fail]

theorem sameLive_out_data {a b : Machine} (h : sameLive a b) (hr : running a)
    (ho : a.out = b.out) (hs : a.state = 4) (rom_size v c : Int) :
    (step rom_size v a c).out = (step rom_size v b c).out := by
  obtain ⟨hv, hl⟩ := h
  obtain ⟨h1, h2, h3, h4, h5, h6, h7, h8, h9⟩ := hv
  obtain ⟨hA, hck, hB, hC, hD⟩ := hl hr
  obtain ⟨hn, hb, hbv⟩ := hA (by omega)
  have hck := hck (by omega)
  rw [step_data hs, step_data (h7 ▸ hs)]
  by_cases hx : hexvalue c ≥ 0
  · by_cases hnh : a.nibble = HI
    · have hnb : b.nibble = HI := by rw [← hn]; exact hnh
      simp [stepData, hx, hnh, hnb, ho]
    · have hnb : ¬ b.nibble = HI := by rw [← hn]; exact hnh
      have hbv := hbv hnh
      by_cases hnl : a.nibble = LO
      · have hnlb : b.nibble = LO := by rw [← hn]; exact hnl
        simp only [stepData, hx, hnh, hnb, hnl, hnlb, if_true, if_false, ← ho, ← hbv,
          ← hb, ← hck, writeData_bytes]
        split_ifs <;> simp only [writeData_out]
      · have hnlb : ¬ b.nibble = LO := by rw [← hn]; exact hnl
        simp [stepData, hx, hnh, hnb, hnl, hnlb, ho, fail]
  · simp [stepData, hx, ho, fail]

theorem sameLive_out_chksum {a b : Machine} (h : sameLive a b) (hr : running a)
    (ho : a.out = b.out) (hs : a.state = 5) (rom_size v c : Int) :
    (step rom_size v a c).out = (step rom_size v b c).out := by
  obtain ⟨hv, hl⟩ := h
  obtain ⟨h1, h2, h3, h4, h5, h6, h7, h8, h9⟩ := hv
  obtain ⟨hA, hck, hB, hC, hD⟩ := hl hr
  obtain ⟨hn, hb, hbv⟩ := hA (by omega)
  have hck := hck (by omega)
  rw [step_chksum hs, step_chksum (h7 ▸ hs)]
  by_cases hx : hexvalue c ≥ 0
  · by_cases hnh : a.nibble = HI
    · have hnb : b.nibble = HI := by rw [← hn]; exact hnh
      simp [stepChksum, hx, hnh, hnb, ho]
    · have hnb : ¬ b.nibble = HI := by rw [← hn]; exact hnh
      have hbv := hbv hnh
      by_cases hnl : a.nibble = LO
      · have hnlb : b.nibble = LO := by rw [← hn]; exact hnl
        simp only [stepChksum, hx, hnh, hnb, hnl, hnlb, if_true, if_false, ← ho, ← hbv,
          ← hb, ← hck]
        split_ifs <;> rfl
      · have hnlb : ¬ b.nibble = LO := by rw [← hn]; exact hnl
        simp [stepChksum, hx, hnh, hnb, hnl, hnlb, ho, fail]
  · simp [stepChksum, hx, ho, fail]

/-- What a step prints is the same on two machines that agree on the live
variables. -/
theorem sameLive_step_out {a b : Machine} (h : sameLive a b) (hr : running a)
    (ho : a.out = b.out) (rom_size v c : Int) :
    (step rom_size v a c).out = (step rom_size v b c).out := by
  by_cases h2 : a.state = 2
  · exact sameLive_out_byteCount h hr ho h2 rom_size v c
  by_cases h3 : a.state = 3
  · exact sameLive_out_address h hr ho h3 rom_size v c
  by_cases h4 : a.state = 4
  · exact sameLive_out_data h hr ho h4 rom_size v c
  by_cases h5 : a.state = 5
  · exact sameLive_out_chksum h hr ho h5 rom_size v c
  · exact sameLive_out_plain h hr ho (by omega) rom_size v c

/-! ## The state stays one of the seven defined ones -/

theorem step_state_range {s : Machine} (h : 0 ≤ s.state ∧ s.state ≤ 6) (rom_size v c : Int) :
    (0 ≤ (step rom_size v s c).state ∧ (step rom_size v s c).state ≤ 6) ∧
      (step rom_size v s c).exited = s.exited := by
  by_cases s0 : s.state = 0
  · rw [step_newline s0]; unfold stepNewline fail
    split_ifs <;> simp [SREC_RECORDTYPE, s0]
  by_cases s1 : s.state = 1
  · rw [step_recordType s1]; unfold stepRecordType fail
    split_ifs <;> simp [SREC_BYTECOUNT, s1]
  by_cases s2 : s.state = 2
  · rw [step_byteCount s2]; simp only [stepByteCount, byteCountDone, fail]
    split_ifs <;> (try split) <;> simp [SREC_ADDRESS, SREC_DATA, s2, fail]
  by_cases s3 : s.state = 3
  · rw [step_address s3]; simp only [stepAddress, addressDone, fail]
    split_ifs <;> simp [SREC_CHKSUM, SREC_DATA, s3]
  by_cases s4 : s.state = 4
  · rw [step_data s4]; simp only [stepData, fail]
    split_ifs <;> simp [SREC_CHKSUM, s4]
  by_cases s5 : s.state = 5
  · rw [step_chksum s5]; simp only [stepChksum, fail]
    split_ifs <;> simp [SREC_ENDOFLINE, s5]
  · have s6 : s.state = 6 := by omega
    rw [step_endOfLine s6]; simp only [stepEndOfLine]
    split_ifs <;> simp [SREC_NEWLINE, s6]

theorem decodeLoop_state_range (rom_size v : Int) (cs : List Nat) :
    ∀ {s : Machine}, (0 ≤ s.state ∧ s.state ≤ 6) →
      (0 ≤ (decodeLoop rom_size v s cs).state ∧ (decodeLoop rom_size v s cs).state ≤ 6) ∧
        (decodeLoop rom_size v s cs).exited = s.exited := by
  induction cs with
  | nil => intro s h; exact ⟨h, rfl⟩
  | cons c cs ih =>
    intro s h
    by_cases hr : running s
    · rw [decodeLoop_cons_running hr]
      have h1 := step_state_range h rom_size v c
      have h2 := ih h1.1
      exact ⟨h2.1, h2.2.trans h1.2⟩
    · rw [decodeLoop_stopped hr]; exact ⟨h, rfl⟩

/-- A file never makes the program exit. -/
theorem processFile_exited (rom_size v : Int) (m : Machine) (file : List Nat) :
    (processFile rom_size v m file).exited = m.exited := by
  have h := (decodeLoop_state_range rom_size v file
    (s := resetForFile m) (by simp [resetForFile, SREC_NEWLINE])).2
  simp only [processFile]
  split_ifs <;> simpa [resetForFile] using h

/-! ## The checksum digits are advisory -/

/-- Apart from what it prints, a file leaves what its decoding loop leaves. -/
theorem processFile_sameVisible (rom_size v : Int) (m : Machine) (file : List Nat) :
    sameVisible (processFile rom_size v m file)
      (decodeLoop rom_size v (resetForFile m) file) := by
  simp only [processFile]
  split_ifs <;> exact ⟨rfl, rfl, rfl, rfl, rfl, rfl, rfl, rfl, rfl⟩

theorem sameVisible_symm {a b : Machine} (h : sameVisible a b) : sameVisible b a := by
  obtain ⟨h1, h2, h3, h4, h5, h6, h7, h8, h9⟩ := h
  exact ⟨h1.symm, h2.symm, h3.symm, h4.symm, h5.symm, h6.symm, h7.symm, h8.symm, h9.symm⟩

theorem sameVisible_trans {a b c : Machine} (h : sameVisible a b) (h' : sameVisible b c) :
    sameVisible a c := by
  obtain ⟨h1, h2, h3, h4, h5, h6, h7, h8, h9⟩ := h
  obtain ⟨k1, k2, k3, k4, k5, k6, k7, k8, k9⟩ := h'
  exact ⟨h1.trans k1, h2.trans k2, h3.trans k3, h4.trans k4, h5.trans k5, h6.trans k6,
    h7.trans k7, h8.trans k8, h9.trans k9⟩

/-- The two digits of a checksum field only reach `byte_value`, `value`,
`nibble_value` and what is printed. -/
theorem chksum_digits_sameLive {s : Machine} (hs : s.state = 5) (hn : s.nibble = HI)
    (rom_size v : Int) {c1 c2 d1 d2 : Int} (hc1 : isHexDigit c1) (hc2 : isHexDigit c2)
    (hd1 : isHexDigit d1) (hd2 : isHexDigit d2) :
    sameLive (step rom_size v (step rom_size v s c1) c2)
      (step rom_size v (step rom_size v s d1) d2) := by
  have x1 : hexvalue c1 ≥ 0 := (hexvalue_nonneg_iff c1).mpr hc1
  have x2 : hexvalue c2 ≥ 0 := (hexvalue_nonneg_iff c2).mpr hc2
  have y1 : hexvalue d1 ≥ 0 := (hexvalue_nonneg_iff d1).mpr hd1
  have y2 : hexvalue d2 ≥ 0 := (hexvalue_nonneg_iff d2).mpr hd2
  have e1 : ∀ c, hexvalue c ≥ 0 → step rom_size v s c
      = { s with out := trace v s.out [Out.echo c], nibble_value := hexvalue c,
                 nibble := LO, byte_value := hexvalue c } := by
    intro c hc
    rw [step_chksum hs]
    simp only [stepChksum, hc, hn, if_true]
  rw [e1 c1 x1, e1 d1 y1, step_chksum (by exact hs), step_chksum (by exact hs)]
  simp only [stepChksum, x2, y2, if_true, LO, HI]
  norm_num
  split_ifs <;>
    exact ⟨⟨rfl, rfl, rfl, rfl, rfl, rfl, rfl, rfl, rfl⟩,
      fun _ => by simp [hs, HI, SREC_ENDOFLINE]⟩

/-- C5: the checksum is advisory. If decoding `pre` leaves the decoder at the
first digit of a checksum field, then putting any two hexadecimal digits in the
place of the two checksum digits changes neither the image (contents, position,
calls made on it), nor the high-water mark, nor the record count, nor the
fatal-error outcome of the file. -/
theorem checksum_digits_advisory (rom_size v : Int) (m : Machine) (pre post : List Nat)
    (c1 c2 d1 d2 : Nat)
    (hs : (decodeLoop rom_size v (resetForFile m) pre).state = SREC_CHKSUM)
    (hn : (decodeLoop rom_size v (resetForFile m) pre).nibble = HI)
    (hc1 : isHexDigit c1) (hc2 : isHexDigit c2) (hd1 : isHexDigit d1) (hd2 : isHexDigit d2) :
    (processFile rom_size v m (pre ++ c1 :: c2 :: post)).bin
      = (processFile rom_size v m (pre ++ d1 :: d2 :: post)).bin ∧
    (processFile rom_size v m (pre ++ c1 :: c2 :: post)).pos
      = (processFile rom_size v m (pre ++ d1 :: d2 :: post)).pos ∧
    (processFile rom_size v m (pre ++ c1 :: c2 :: post)).min_rom_size
      = (processFile rom_size v m (pre ++ d1 :: d2 :: post)).min_rom_size ∧
    (processFile rom_size v m (pre ++ c1 :: c2 :: post)).records
      = (processFile rom_size v m (pre ++ d1 :: d2 :: post)).records ∧
    (processFile rom_size v m (pre ++ c1 :: c2 :: post)).error
      = (processFile rom_size v m (pre ++ d1 :: d2 :: post)).error ∧
    (processFile rom_size v m (pre ++ c1 :: c2 :: post)).processing
      = (processFile rom_size v m (pre ++ d1 :: d2 :: post)).processing ∧
    (processFile rom_size v m (pre ++ c1 :: c2 :: post)).writes
      = (processFile rom_size v m (pre ++ d1 :: d2 :: post)).writes := by
  have key : sameVisible (decodeLoop rom_size v (resetForFile m) (pre ++ c1 :: c2 :: post))
      (decodeLoop rom_size v (resetForFile m) (pre ++ d1 :: d2 :: post)) := by
    rw [decodeLoop_append, decodeLoop_append]
    generalize decodeLoop rom_size v (resetForFile m) pre = s at hs hn
    by_cases hr : running s
    · have hx1 : hexvalue c1 ≥ 0 := (hexvalue_nonneg_iff c1).mpr hc1
      have hy1 : hexvalue d1 ≥ 0 := (hexvalue_nonneg_iff d1).mpr hd1
      have hs5 : s.state = 5 := hs
      have r1 : ∀ c : Int, hexvalue c ≥ 0 → running (step rom_size v s c) := by
        intro c hc
        rw [step_chksum hs5]
        simp only [stepChksum, hc, hn, if_true]
        exact hr
      rw [decodeLoop_cons_running hr, decodeLoop_cons_running hr,
        decodeLoop_cons_running (r1 c1 hx1), decodeLoop_cons_running (r1 d1 hy1)]
      exact (sameLive_decodeLoop rom_size v post
        (chksum_digits_sameLive hs5 hn rom_size v hc1 hc2 hd1 hd2)).1
    · rw [decodeLoop_stopped hr, decodeLoop_stopped hr]
      exact ⟨rfl, rfl, rfl, rfl, rfl, rfl, rfl, rfl, rfl⟩
  obtain ⟨h1, h2, h3, h4, h5, h6, h7, h8, h9⟩ :=
    sameVisible_trans (sameVisible_trans (processFile_sameVisible rom_size v m _) key)
      (sameVisible_symm (processFile_sameVisible rom_size v m _))
  exact ⟨h1, h2, h3, h4, h5, h6, h9⟩

/-- The advisory theorem at the record `S1060004AABBCC` followed by the checksum
digits `C4` or `00`. -/
theorem checksum_digits_advisory_witness :
    (decodeLoop 16 1 (resetForFile (blankImage 16 255 zeroMachine)) advisoryStart).state
      = SREC_CHKSUM ∧
    (decodeLoop 16 1 (resetForFile (blankImage 16 255 zeroMachine)) advisoryStart).nibble = HI ∧
    ((processFile 16 1 (blankImage 16 255 zeroMachine) (advisoryStart ++ 67 :: 52 :: [10])).bin
        = (processFile 16 1 (blankImage 16 255 zeroMachine)
            (advisoryStart ++ 48 :: 48 :: [10])).bin ∧
      (processFile 16 1 (blankImage 16 255 zeroMachine) (advisoryStart ++ 67 :: 52 :: [10])).pos
        = (processFile 16 1 (blankImage 16 255 zeroMachine)
            (advisoryStart ++ 48 :: 48 :: [10])).pos ∧
      (processFile 16 1 (blankImage 16 255 zeroMachine)
          (advisoryStart ++ 67 :: 52 :: [10])).min_rom_size
        = (processFile 16 1 (blankImage 16 255 zeroMachine)
            (advisoryStart ++ 48 :: 48 :: [10])).min_rom_size ∧
      (processFile 16 1 (blankImage 16 255 zeroMachine)
          (advisoryStart ++ 67 :: 52 :: [10])).records
        = (processFile 16 1 (blankImage 16 255 zeroMachine)
            (advisoryStart ++ 48 :: 48 :: [10])).records ∧
      (processFile 16 1 (blankImage 16 255 zeroMachine) (advisoryStart ++ 67 :: 52 :: [10])).error
        = (processFile 16 1 (blankImage 16 255 zeroMachine)
            (advisoryStart ++ 48 :: 48 :: [10])).error ∧
      (processFile 16 1 (blankImage 16 255 zeroMachine)
          (advisoryStart ++ 67 :: 52 :: [10])).processing
        = (processFile 16 1 (blankImage 16 255 zeroMachine)
            (advisoryStart ++ 48 :: 48 :: [10])).processing ∧
      (processFile 16 1 (blankImage 16 255 zeroMachine)
          (advisoryStart ++ 67 :: 52 :: [10])).writes
        = (processFile 16 1 (blankImage 16 255 zeroMachine)
            (advisoryStart ++ 48 :: 48 :: [10])).writes) :=
  ⟨by decide, by decide,
    checksum_digits_advisory 16 1 (blankImage 16 255 zeroMachine) advisoryStart [10] 67 52 48 48
      (by decide) (by decide) (by decide) (by decide) (by decide) (by decide)⟩

/-! ## Every file starts from a fresh decoder -/

theorem sameLive_decodeLoop_out (rom_size v : Int) (cs : List Nat) :
    ∀ {a b : Machine}, sameLive a b → a.out = b.out →
      (decodeLoop rom_size v a cs).out = (decodeLoop rom_size v b cs).out := by
  induction cs with
  | nil => intro a b _ ho; exact ho
  | cons c cs ih =>
    intro a b h ho
    by_cases hr : running a
    · rw [decodeLoop_cons_running hr, decodeLoop_cons_running ((sameLive_running h).mp hr)]
      exact ih (sameLive_step h hr rom_size v c) (sameLive_step_out h hr ho rom_size v c)
    · rw [decodeLoop_stopped hr, decodeLoop_stopped (fun hb => hr ((sameLive_running h).mpr hb))]
      exact ho

/-- After the per-file reset nothing of the working variables is live. -/
theorem sameLive_reset {a b : Machine} (hbin : a.bin = b.bin) (hpos : a.pos = b.pos)
    (hhwm : a.min_rom_size = b.min_rom_size) (hw : a.writes = b.writes)
    (hex : a.exited = b.exited) : sameLive (resetForFile a) (resetForFile b) := by
  refine ⟨⟨hbin, hpos, hhwm, rfl, rfl, rfl, rfl, hex, hw⟩, fun _ => ?_⟩
  simp [resetForFile, SREC_NEWLINE]

theorem processFile_fresh (rom_size v : Int) {a b : Machine} (file : List Nat)
    (hbin : a.bin = b.bin) (hpos : a.pos = b.pos) (hhwm : a.min_rom_size = b.min_rom_size)
    (hw : a.writes = b.writes) (hex : a.exited = b.exited) (ho : a.out = b.out) :
    sameVisible (processFile rom_size v a file) (processFile rom_size v b file) ∧
      (processFile rom_size v a file).out = (processFile rom_size v b file).out := by
  have hl := sameLive_reset hbin hpos hhwm hw hex
  have h1 := sameLive_decodeLoop rom_size v file hl
  have h2 := sameLive_decodeLoop_out rom_size v file hl (by simpa [resetForFile] using ho)
  refine ⟨sameVisible_trans (sameVisible_trans (processFile_sameVisible rom_size v a _) h1.1)
      (sameVisible_symm (processFile_sameVisible rom_size v b _)), ?_⟩
  obtain ⟨-, -, -, k4, -, -, -, k8, -⟩ := h1.1
  simp only [processFile, h2, k4, k8]
  split_ifs <;> first | exact h2 | rfl

/-- C10: each file is decoded with a fresh decoder. For files `F1`, `F2` read in
that order, what decoding `F2` does to the image (contents, position, calls made
on it) and to the high-water mark, what it prints, its record count and its
error flag are those of decoding `F2` alone on any machine `m2` that holds the
image, the high-water mark and the output that `F1` left, whatever `m2` holds in
the decoder's working variables and however `F1` ended. -/
theorem fresh_decoder_per_file (rom_size v : Int) (m m2 : Machine) (F1 F2 : List Nat)
    (hm : m.exited = false) (hex : m2.exited = false)
    (hbin : m2.bin = (processFile rom_size v m F1).bin)
    (hpos : m2.pos = (processFile rom_size v m F1).pos)
    (hhwm : m2.min_rom_size = (processFile rom_size v m F1).min_rom_size)
    (hw : m2.writes = (processFile rom_size v m F1).writes)
    (ho : m2.out = (processFile rom_size v m F1).out) :
    (processFiles rom_size v m [F1, F2]).bin = (processFile rom_size v m2 F2).bin ∧
    (processFiles rom_size v m [F1, F2]).pos = (processFile rom_size v m2 F2).pos ∧
    (processFiles rom_size v m [F1, F2]).writes = (processFile rom_size v m2 F2).writes ∧
    (processFiles rom_size v m [F1, F2]).min_rom_size
      = (processFile rom_size v m2 F2).min_rom_size ∧
    (processFiles rom_size v m [F1, F2]).out = (processFile rom_size v m2 F2).out ∧
    (processFiles rom_size v m [F1, F2]).records = (processFile rom_size v m2 F2).records ∧
    (processFiles rom_size v m [F1, F2]).error = (processFile rom_size v m2 F2).error := by
  have he1 : (processFile rom_size v m F1).exited = false := by
    rw [processFile_exited]; exact hm
  have hrun : processFiles rom_size v m [F1, F2]
      = processFile rom_size v (processFile rom_size v m F1) F2 := by
    simp [processFiles, hm, he1]
  rw [hrun]
  obtain ⟨⟨h1, h2, h3, h4, h5, h6, h7, h8, h9⟩, h10⟩ :=
    processFile_fresh rom_size v F2 hbin.symm hpos.symm hhwm.symm hw.symm (he1.trans hex.symm)
      ho.symm
  exact ⟨h1, h2, h9, h3, h10, h4, h5⟩

/-- The fresh-decoder theorem at a first file that stops inside a record and a
machine with other working variables. -/
theorem fresh_decoder_per_file_witness :
    (blankImage 16 255 zeroMachine).exited = false ∧ strangerMachine.exited = false ∧
    strangerMachine.bin = (processFile 16 1 (blankImage 16 255 zeroMachine) unfinishedFile).bin ∧
    strangerMachine.pos = (processFile 16 1 (blankImage 16 255 zeroMachine) unfinishedFile).pos ∧
    strangerMachine.min_rom_size
      = (processFile 16 1 (blankImage 16 255 zeroMachine) unfinishedFile).min_rom_size ∧
    strangerMachine.writes
      = (processFile 16 1 (blankImage 16 255 zeroMachine) unfinishedFile).writes ∧
    strangerMachine.out = (processFile 16 1 (blankImage 16 255 zeroMachine) unfinishedFile).out ∧
    ((processFiles 16 1 (blankImage 16 255 zeroMachine) [unfinishedFile, secondFile]).bin
        = (processFile 16 1 strangerMachine secondFile).bin ∧
      (processFiles 16 1 (blankImage 16 255 zeroMachine) [unfinishedFile, secondFile]).pos
        = (processFile 16 1 strangerMachine secondFile).pos ∧
      (processFiles 16 1 (blankImage 16 255 zeroMachine) [unfinishedFile, secondFile]).writes
        = (processFile 16 1 strangerMachine secondFile).writes ∧
      (processFiles 16 1 (blankImage 16 255 zeroMachine)
          [unfinishedFile, secondFile]).min_rom_size
        = (processFile 16 1 strangerMachine secondFile).min_rom_size ∧
      (processFiles 16 1 (blankImage 16 255 zeroMachine) [unfinishedFile, secondFile]).out
        = (processFile 16 1 strangerMachine secondFile).out ∧
      (processFiles 16 1 (blankImage 16 255 zeroMachine) [unfinishedFile, secondFile]).records
        = (processFile 16 1 strangerMachine secondFile).records ∧
      (processFiles 16 1 (blankImage 16 255 zeroMachine) [unfinishedFile, secondFile]).error
        = (processFile 16 1 strangerMachine secondFile).error) :=
  ⟨by decide, by decide, by decide, by decide, by decide, by decide, by decide,
    fresh_decoder_per_file 16 1 (blankImage 16 255 zeroMachine) strangerMachine unfinishedFile
      secondFile (by decide) (by decide) (by decide) (by decide) (by decide) (by decide)
      (by decide)⟩


/-! ## Decoding a byte written as two upper-case digits -/

theorem wrap32_of_range {x : Int} (h : -2147483648 ≤ x ∧ x < 2147483648) : wrap32 x = x := by
  unfold wrap32; omega

theorem hexvalue_hexDigit {n : Nat} (h : n < 16) : hexvalue ((hexDigit n : Nat) : Int) = n := by
  unfold hexDigit hexvalue
  split_ifs <;> push_cast <;> omega

theorem hexvalue_hi {b : Nat} (h : b < 256) :
    hexvalue ((hexDigit (b / 16) : Nat) : Int) = ((b / 16 : Nat) : Int) :=
  hexvalue_hexDigit (by omega)

theorem hexvalue_lo (b : Nat) :
    hexvalue ((hexDigit (b % 16) : Nat) : Int) = ((b % 16 : Nat) : Int) :=
  hexvalue_hexDigit (by omega)

theorem byte_of_nibbles {b : Nat} (h : b < 256) :
    wrap32 (wrap32 (((b / 16 : Nat) : Int) * 16) + ((b % 16 : Nat) : Int)) = (b : Int) := by
  have h1 : wrap32 (((b / 16 : Nat) : Int) * 16) = ((b / 16 : Nat) : Int) * 16 :=
    wrap32_of_range (by omega)
  rw [h1, wrap32_of_range (by omega)]
  omega

/-- The high digit of a byte, in any of the four hexadecimal fields. -/
theorem step_high (rom_size v : Int) {s : Machine} {c : Int}
    (hs : 2 ≤ s.state ∧ s.state ≤ 5) (hn : s.nibble = HI) (hc : hexvalue c ≥ 0) :
    step rom_size v s c
      = { s with
          out := trace v s.out [Out.echo c]
          nibble_value := hexvalue c
          nibble := LO
          byte_value := hexvalue c } := by
  obtain ⟨h2, h5⟩ := hs
  by_cases s2 : s.state = 2
  · rw [step_byteCount s2]; simp only [stepByteCount, hc, hn, if_true]
  by_cases s3 : s.state = 3
  · rw [step_address s3]; simp only [stepAddress, hc, hn, if_true]
  by_cases s4 : s.state = 4
  · rw [step_data s4]; simp only [stepData, hc, hn, if_true]
  · have s5 : s.state = 5 := by omega
    rw [step_chksum s5]; simp only [stepChksum, hc, hn, if_true]

/-- The low digit of a data byte. -/
theorem step_data_low {rom_size v : Int} {s : Machine} {c : Int}
    (hs : s.state = 4) (hn : s.nibble = LO) (hc : hexvalue c ≥ 0) :
    step rom_size v s c
      = (let s2 := writeData rom_size
            { s with
              out := trace v (trace v s.out [Out.echo c])
                [Out.data (wrap32 (wrap32 (s.byte_value * 16) + hexvalue c))]
              nibble_value := hexvalue c
              nibble := HI
              byte_value := wrap32 (wrap32 (s.byte_value * 16) + hexvalue c)
              checksum := wrap32 (s.checksum + wrap32 (wrap32 (s.byte_value * 16) + hexvalue c)) }
         if wrap32 (s.bytes - 1) = 0 then
           { s2 with bytes := 1, state := SREC_CHKSUM, checksum := (-s2.checksum - 1) % 256 }
         else { s2 with bytes := wrap32 (s.bytes - 1) }) := by
  rw [step_data hs]
  have hnh : ¬ s.nibble = HI := by rw [hn]; decide
  simp only [stepData, hc, if_true, if_neg hnh, if_pos hn, writeData_bytes, writeData_checksum]

/-- The low digit of the byte count, for a record type that has a width. -/
theorem step_byteCount_low {rom_size v : Int} {s : Machine} {c w : Int}
    (hs : s.state = 2) (hn : s.nibble = LO) (hc : hexvalue c ≥ 0) (hb : s.bytes = 1)
    (hw : addrWidth s.type = some w) :
    step rom_size v s c
      = { s with
          out := trace v (trace v s.out [Out.echo c])
            [Out.byteCount (wrap32 (wrap32 (s.byte_value * 16) + hexvalue c))]
          nibble_value := hexvalue c
          nibble := HI
          byte_value := wrap32 (wrap32 (s.byte_value * 16) + hexvalue c)
          checksum := wrap32 (s.checksum + wrap32 (wrap32 (s.byte_value * 16) + hexvalue c))
          byte_count := wrap32 (wrap32 (s.byte_value * 16) + hexvalue c)
          addr_bytes := w
          data_bytes := wrap32 (wrap32 (wrap32 (wrap32 (s.byte_value * 16) + hexvalue c) - w) - 1)
          value := 0
          state := if w ≠ 0 then SREC_ADDRESS else SREC_DATA
          bytes := if w ≠ 0 then w
            else wrap32 (wrap32 (wrap32 (wrap32 (s.byte_value * 16) + hexvalue c) - w) - 1) } := by
  rw [step_byteCount hs]
  have hnh : ¬ s.nibble = HI := by rw [hn]; decide
  have hz : wrap32 (s.bytes - 1) = 0 := by rw [hb]; decide
  simp only [stepByteCount, hc, if_true, if_neg hnh, if_pos hn, hz, byteCountDone, hw]
  split_ifs <;> simp_all

/-- The low digit of an address byte. -/
theorem step_address_low {rom_size v : Int} {s : Machine} {c : Int}
    (hs : s.state = 3) (hn : s.nibble = LO) (hc : hexvalue c ≥ 0) :
    step rom_size v s c
      = (let s1 : Machine :=
            { s with
              out := trace v s.out [Out.echo c]
              nibble_value := hexvalue c
              nibble := HI
              byte_value := wrap32 (wrap32 (s.byte_value * 16) + hexvalue c)
              checksum := wrap32 (s.checksum + wrap32 (wrap32 (s.byte_value * 16) + hexvalue c))
              value := wrap32 (wrap32 (s.value * 256)
                + wrap32 (wrap32 (s.byte_value * 16) + hexvalue c))
              bytes := wrap32 (s.bytes - 1) }
         if wrap32 (s.bytes - 1) = 0 then addressDone v s1 else s1) := by
  rw [step_address hs]
  have hnh : ¬ s.nibble = HI := by rw [hn]; decide
  simp only [stepAddress, hc, if_true, if_neg hnh, if_pos hn]

/-- The low digit of the checksum byte. -/
theorem step_chksum_low {rom_size v : Int} {s : Machine} {c : Int}
    (hs : s.state = 5) (hn : s.nibble = LO) (hc : hexvalue c ≥ 0) (hb : s.bytes = 1) :
    step rom_size v s c
      = { s with
          out :=
            if v > 0 ∧ s.checksum ≠ wrap32 (wrap32 (s.byte_value * 16) + hexvalue c) then
              trace v (trace v s.out [Out.echo c])
                [Out.chk (wrap32 (wrap32 (s.byte_value * 16) + hexvalue c))] ++ [Out.chkFailed]
            else
              trace v (trace v s.out [Out.echo c])
                [Out.chk (wrap32 (wrap32 (s.byte_value * 16) + hexvalue c))]
          nibble_value := hexvalue c
          nibble := HI
          byte_value := wrap32 (wrap32 (s.byte_value * 16) + hexvalue c)
          value := wrap32 (wrap32 (s.value * 256)
            + wrap32 (wrap32 (s.byte_value * 16) + hexvalue c))
          state := SREC_ENDOFLINE
          bytes := 1 } := by
  rw [step_chksum hs]
  have hnh : ¬ s.nibble = HI := by rw [hn]; decide
  have hz : wrap32 (s.bytes - 1) = 0 := by rw [hb]; decide
  simp only [stepChksum, hc, if_true, if_neg hnh, if_pos hn]
  split_ifs <;> simp_all

/-! ## Decoding a record field by field -/

theorem keeps_refl (s : Machine) : keeps s s := ⟨rfl, rfl, rfl, rfl, rfl, rfl, rfl, rfl⟩

theorem keeps_trans {a b c : Machine} (h : keeps a b) (h' : keeps b c) : keeps a c := by
  obtain ⟨h1, h2, h3, h4, h5, h6, h7, h8⟩ := h
  obtain ⟨k1, k2, k3, k4, k5, k6, k7, k8⟩ := h'
  exact ⟨k1.trans h1, k2.trans h2, k3.trans h3, k4.trans h4, k5.trans h5, k6.trans h6,
    k7.trans h7, k8.trans h8⟩

theorem keeps_running {a b : Machine} (h : keeps a b) (hr : running a) : running b := by
  obtain ⟨-, -, -, -, -, h6, h7, -⟩ := h
  unfold running at *
  rw [h6, h7]; exact hr

/-- Two digits of a hexadecimal field are both read when the loop is running. -/
theorem decodeLoop_hexByte {rom_size v : Int} {s : Machine} (hs : 2 ≤ s.state ∧ s.state ≤ 5)
    (hn : s.nibble = HI) (hr : running s) {b : Nat} (hb : b < 256) (rest : List Nat) :
    decodeLoop rom_size v s (hexByte b ++ rest)
      = decodeLoop rom_size v
          (step rom_size v
            { s with
              out := trace v s.out [Out.echo ((hexDigit (b / 16) : Nat) : Int)]
              nibble_value := ((b / 16 : Nat) : Int)
              nibble := LO
              byte_value := ((b / 16 : Nat) : Int) }
            ((hexDigit (b % 16) : Nat) : Int)) rest := by
  have x1 := hexvalue_hi hb
  have e := step_high rom_size v hs hn
    (c := ((hexDigit (b / 16) : Nat) : Int)) (by omega)
  rw [x1] at e
  have hr1 : running (step rom_size v s ((hexDigit (b / 16) : Nat) : Int)) := by
    rw [e]; exact hr
  simp only [hexByte, List.cons_append, List.nil_append]
  rw [decodeLoop_cons_running hr, decodeLoop_cons_running hr1, e]

/-- The `S` and the type digit of a record. -/
theorem decode_header (rom_size v : Int) {s : Machine} (hs : s.state = 0) (hr : running s)
    {t : Nat} (ht : t = 0 ∨ t = 1 ∨ t = 2 ∨ t = 3 ∨ t = 5 ∨ t = 7 ∨ t = 8 ∨ t = 9)
    (rest : List Nat) :
    ∃ s', decodeLoop rom_size v s (83 :: (48 + t) :: rest) = decodeLoop rom_size v s' rest ∧
      s'.state = 2 ∧ s'.nibble = HI ∧ s'.bytes = 1 ∧ s'.type = t ∧ s'.value = 0 ∧
      s'.checksum = 0 ∧ keeps s s' ∧
      s'.out = trace v s.out [Out.recordType t] := by
  have e1 : step rom_size v s ((83 : Nat) : Int) = { s with state := SREC_RECORDTYPE } := by
    rw [step_newline hs]; simp [stepNewline]
  have hr1 : running (step rom_size v s ((83 : Nat) : Int)) := by rw [e1]; exact hr
  have hc : ((48 + t : Nat) : Int) = 48 ∨ ((48 + t : Nat) : Int) = 49 ∨
      ((48 + t : Nat) : Int) = 50 ∨ ((48 + t : Nat) : Int) = 51 ∨ ((48 + t : Nat) : Int) = 53 ∨
      ((48 + t : Nat) : Int) = 55 ∨ ((48 + t : Nat) : Int) = 56 ∨ ((48 + t : Nat) : Int) = 57 := by
    omega
  have e2 : step rom_size v { s with state := SREC_RECORDTYPE } ((48 + t : Nat) : Int)
      = { s with
          type := t
          out := trace v s.out [Out.recordType t]
          state := SREC_BYTECOUNT
          nibble := HI
          bytes := 1
          value := 0
          checksum := 0 } := by
    rw [step_recordType (by rfl)]
    simp only [stepRecordType, hc, if_true]
    have : ((48 + t : Nat) : Int) - 48 = (t : Int) := by omega
    rw [this]
  refine ⟨step rom_size v { s with state := SREC_RECORDTYPE } ((48 + t : Nat) : Int), ?_, ?_⟩
  · rw [decodeLoop_cons_running hr, decodeLoop_cons_running hr1, e1]
  · rw [e2]
    exact ⟨rfl, rfl, rfl, rfl, rfl, rfl, keeps_refl s, rfl⟩

theorem hexBytes_append (xs ys : List Nat) : hexBytes (xs ++ ys) = hexBytes xs ++ hexBytes ys := by
  induction xs with
  | nil => rfl
  | cons x xs ih => simp [hexBytes, ih]

theorem hexBytes_single (x : Nat) : hexBytes [x] = hexByte x := by
  simp [hexBytes]

/-- An address byte that is not the last one of its field. -/
theorem decode_address_byte (rom_size v : Int) {s : Machine} (hs : s.state = 3)
    (hn : s.nibble = HI) (hr : running s) {b r : Nat} (hb : b < 256)
    (hbytes : s.bytes = ((r + 2 : Nat) : Int)) (hr31 : r + 2 < 2147483648)
    (hv0 : 0 ≤ s.value) (hv : s.value * 256 + b < 2147483648) (rest : List Nat) :
    ∃ s', decodeLoop rom_size v s (hexByte b ++ rest) = decodeLoop rom_size v s' rest ∧
      s'.state = 3 ∧ s'.nibble = HI ∧ s'.bytes = ((r + 1 : Nat) : Int) ∧
      s'.value = s.value * 256 + b ∧ s'.type = s.type ∧ s'.data_bytes = s.data_bytes ∧
      keeps s s' := by
  have x2 := hexvalue_lo b
  refine ⟨_, decodeLoop_hexByte (by omega) hn hr hb rest, ?_⟩
  rw [step_address_low (by exact hs) rfl (by omega)]
  have hnz : ¬ wrap32 (s.bytes - 1) = 0 := by
    rw [hbytes, wrap32_of_range (by omega)]; omega
  simp only [x2, byte_of_nibbles hb]
  rw [if_neg hnz]
  refine ⟨hs, rfl, ?_, ?_, rfl, rfl, keeps_refl s⟩
  · show wrap32 (s.bytes - 1) = _
    rw [hbytes, wrap32_of_range (by omega)]; omega
  · show wrap32 (wrap32 (s.value * 256) + b) = _
    rw [wrap32_of_range (x := s.value * 256) (by omega), wrap32_of_range (by omega)]

/-- The bytes of an address field before its last one. -/
theorem decode_address_part (rom_size v : Int) (w : Nat) :
    ∀ (a r : Nat) (rest : List Nat) {s : Machine}, s.state = 3 → s.nibble = HI → running s →
      s.bytes = ((w + r + 1 : Nat) : Int) → w + r + 1 < 2147483648 → a < 256 ^ w →
      0 ≤ s.value → s.value * 256 ^ w + a < 2147483648 →
      ∃ s', decodeLoop rom_size v s (hexBytes (beBytes w a) ++ rest)
          = decodeLoop rom_size v s' rest ∧
        s'.state = 3 ∧ s'.nibble = HI ∧ s'.bytes = ((r + 1 : Nat) : Int) ∧
        s'.value = s.value * 256 ^ w + a ∧ s'.type = s.type ∧
        s'.data_bytes = s.data_bytes ∧ keeps s s' := by
  induction w with
  | zero =>
    intro a r rest s hs hn hr hb _ ha _ _
    have ha0 : a = 0 := by simpa using ha
    refine ⟨s, by simp [beBytes, hexBytes], hs, hn, ?_, ?_, rfl, rfl, keeps_refl s⟩
    · rw [hb]; congr 1; omega
    · simp [ha0]
  | succ w ih =>
    intro a r rest s hs hn hr hb hb31 ha hv0 hv
    have hpw : (0 : Int) ≤ 256 ^ w := by positivity
    have hX : 0 ≤ s.value * 256 ^ w := mul_nonneg hv0 hpw
    have hpow : s.value * 256 ^ (w + 1) = s.value * 256 ^ w * 256 := by ring
    have ha' : a / 256 < 256 ^ w := by
      rw [pow_succ] at ha
      exact Nat.div_lt_of_lt_mul (by rw [Nat.mul_comm]; exact ha)
    rw [hpow] at hv
    obtain ⟨s1, e1, h1s, h1n, h1b, h1v, h1t, h1d, h1k⟩ :=
      ih (a / 256) (r + 1) (hexByte (a % 256) ++ rest) hs hn hr
        (by rw [hb]; congr 1; omega) (by omega) ha' hv0 (by omega)
    obtain ⟨s2, e2, h2s, h2n, h2b, h2v, h2t, h2d, h2k⟩ :=
      decode_address_byte rom_size v h1s h1n (keeps_running h1k hr)
        (b := a % 256) (r := r) (by omega) (by rw [h1b]) (by omega)
        (by rw [h1v]; omega) (by rw [h1v]; omega) rest
    refine ⟨s2, ?_, h2s, h2n, h2b, ?_, h2t.trans h1t, h2d.trans h1d, keeps_trans h1k h2k⟩
    · simp only [beBytes, hexBytes_append, hexBytes_single, List.append_assoc]
      rw [e1, e2]
    · rw [h2v, h1v, hpow]; omega

/-- The last byte of the address field of a record that has data. -/
theorem decode_address_last (rom_size v : Int) {s : Machine} (hs : s.state = 3)
    (hn : s.nibble = HI) (hr : running s) {b : Nat} (hb : b < 256) (hbytes : s.bytes = 1)
    (hv0 : 0 ≤ s.value) (hv : s.value * 256 + b < 2147483648) (hd : s.data_bytes ≠ 0)
    (rest : List Nat) :
    ∃ s', decodeLoop rom_size v s (hexByte b ++ rest) = decodeLoop rom_size v s' rest ∧
      s'.state = 4 ∧ s'.nibble = HI ∧ s'.bytes = s.data_bytes ∧
      s'.address = s.value * 256 + b ∧ s'.type = s.type ∧ keeps s s' := by
  have x2 := hexvalue_lo b
  refine ⟨_, decodeLoop_hexByte (by omega) hn hr hb rest, ?_⟩
  rw [step_address_low (by exact hs) rfl (by omega)]
  have hz : wrap32 (s.bytes - 1) = 0 := by rw [hbytes]; decide
  simp only [x2, byte_of_nibbles hb]
  rw [if_pos hz]
  simp only [addressDone]
  rw [if_pos hd]
  refine ⟨rfl, rfl, rfl, ?_, rfl, keeps_refl s⟩
  show wrap32 (wrap32 (s.value * 256) + b) = _
  rw [wrap32_of_range (x := s.value * 256) (by omega), wrap32_of_range (by omega)]

/-- The whole address field of a record that has data: `w + 1` bytes, most
significant first, leave the address in `address`. -/
theorem decode_address (rom_size v : Int) {s : Machine} (w a : Nat) (hs : s.state = 3)
    (hn : s.nibble = HI) (hr : running s) (hbytes : s.bytes = ((w + 1 : Nat) : Int))
    (hw : w + 1 < 2147483648) (ha : a < 256 ^ (w + 1)) (ha31 : a < 2147483648)
    (hv : s.value = 0) (hd : s.data_bytes ≠ 0) (rest : List Nat) :
    ∃ s', decodeLoop rom_size v s (hexBytes (beBytes (w + 1) a) ++ rest)
        = decodeLoop rom_size v s' rest ∧
      s'.state = 4 ∧ s'.nibble = HI ∧ s'.bytes = s.data_bytes ∧ s'.address = a ∧
      s'.type = s.type ∧ keeps s s' := by
  have ha' : a / 256 < 256 ^ w := by
    rw [pow_succ] at ha
    exact Nat.div_lt_of_lt_mul (by rw [Nat.mul_comm]; exact ha)
  obtain ⟨s1, e1, h1s, h1n, h1b, h1v, h1t, h1d, h1k⟩ :=
    decode_address_part rom_size v w (a / 256) 0
      (hexByte (a % 256) ++ rest) hs hn hr (by rw [hbytes]) (by omega) ha'
      (by rw [hv]) (by rw [hv]; omega)
  rw [hv] at h1v
  have h1v' : s1.value = ((a / 256 : Nat) : Int) := by rw [h1v]; simp
  obtain ⟨s2, e2, h2s, h2n, h2b, h2a, h2t, h2k⟩ :=
    decode_address_last rom_size v h1s h1n (keeps_running h1k hr)
      (b := a % 256) (by omega) (by rw [h1b]; rfl) (by rw [h1v']; omega)
      (by rw [h1v']; omega) (by rw [h1d]; exact hd) rest
  refine ⟨s2, ?_, h2s, h2n, h2b.trans h1d, ?_, h2t.trans h1t, keeps_trans h1k h2k⟩
  · simp only [beBytes, hexBytes_append, hexBytes_single, List.append_assoc]
    rw [e1, e2]
  · rw [h2a, h1v']; omega

theorem toByte_of_lt {b : Nat} (h : b < 256) : toByte (b : Int) = b := by
  unfold toByte
  omega

/-- The write of a data byte whose address is inside the image. -/
theorem writeData_in_range {rom_size : Int} {s : Machine} {A : Nat}
    (ht : s.type = 1 ∨ s.type = 2 ∨ s.type = 3) (ha : s.address = (A : Int))
    (hrom : (A : Int) < rom_size) (hlen : A < s.bin.length) (h31 : A + 1 < 2147483648) :
    writeData rom_size s
      = { s with
          bin := s.bin.set A (toByte s.byte_value)
          pos := A + 1
          writes := s.writes ++ [((A : Int), toByte s.byte_value)]
          address := (A : Int) + 1
          min_rom_size := if s.min_rom_size < (A : Int) + 1 then (A : Int) + 1
            else s.min_rom_size } := by
  have hlt : s.address < rom_size := by rw [ha]; exact hrom
  have hseek : fseekSet s.pos s.address = A := by
    unfold fseekSet; rw [ha]; simp
  have hw : wrap32 ((A : Int) + 1) = (A : Int) + 1 := wrap32_of_range (by omega)
  simp only [writeData, if_pos ht, if_pos hlt, hseek, fwriteByte, if_pos hlen]
  rw [ha, hw]
  split_ifs <;> rfl

/-- The checksum byte of a record: whatever it is, the decoder goes on to the end
of the line. -/
theorem decode_chksum (rom_size v : Int) {s : Machine} (hs : s.state = 5)
    (hn : s.nibble = HI) (hr : running s) (hbytes : s.bytes = 1) {k : Nat} (hk : k < 256)
    (rest : List Nat) :
    ∃ s', decodeLoop rom_size v s (hexByte k ++ rest) = decodeLoop rom_size v s' rest ∧
      s'.state = 6 ∧ s'.checksum = s.checksum ∧ s'.type = s.type ∧ keeps s s' ∧
      (Out.chkFailed ∈ s'.out ↔ Out.chkFailed ∈ s.out ∨ (v > 0 ∧ s.checksum ≠ (k : Int))) := by
  have x2 := hexvalue_lo k
  refine ⟨_, decodeLoop_hexByte (by omega) hn hr hk rest, ?_⟩
  rw [step_chksum_low (by exact hs) rfl (by omega) (by exact hbytes)]
  refine ⟨rfl, rfl, rfl, keeps_refl s, ?_⟩
  simp only [x2, byte_of_nibbles hk, trace]
  split_ifs <;> simp_all

/-- The newline that closes a record. -/
theorem decode_newline (rom_size v : Int) {s : Machine} (hs : s.state = 6) (hr : running s)
    (rest : List Nat) :
    ∃ s', decodeLoop rom_size v s (10 :: rest) = decodeLoop rom_size v s' rest ∧
      s'.state = 0 ∧ s'.records = wrap32 (s.records + 1) ∧ s'.bin = s.bin ∧ s'.pos = s.pos ∧
      s'.writes = s.writes ∧ s'.min_rom_size = s.min_rom_size ∧ s'.error = s.error ∧
      s'.type = s.type ∧ running s' ∧
      (Out.chkFailed ∈ s'.out ↔ Out.chkFailed ∈ s.out) := by
  refine ⟨step rom_size v s ((10 : Nat) : Int), decodeLoop_cons_running hr 10 rest, ?_⟩
  have e : stepEndOfLine v s ((10 : Nat) : Int)
      = { s with
          out := trace v s.out [Out.endOfLine s.checksum]
          state := SREC_NEWLINE
          records := wrap32 (s.records + 1) } := by
    simp [stepEndOfLine]
  rw [step_endOfLine hs, e]
  refine ⟨rfl, rfl, rfl, rfl, rfl, rfl, rfl, rfl, hr, ?_⟩
  simp only [trace]
  split_ifs <;> simp

/-- The nibble decoder agrees with the specification on the digits, on the
upper-case letters and on every character that is no hexadecimal digit; on
`'a'..'f'` it is 5 short. -/
theorem hexvalue_against_spec (c : Int) :
    ((48 ≤ c ∧ c ≤ 57) ∨ (65 ≤ c ∧ c ≤ 70) ∨ ¬ isHexDigit c → hexvalue c = specHexValue c) ∧
    (97 ≤ c ∧ c ≤ 102 → hexvalue c = specHexValue c - 5) := by
  unfold hexvalue specHexValue isHexDigit
  constructor
  · intro h; split_ifs <;> omega
  · intro h; split_ifs <;> omega

/-- The write of a data byte whose address is at or beyond `rom_size`, as long as
`address + 1` is still an `int`: the file is not touched and `min_rom_size`
becomes the larger of its value and `address + 1`. -/
theorem writeData_beyond_rom {rom_size : Int} {s : Machine}
    (ht : s.type = 1 ∨ s.type = 2 ∨ s.type = 3) (hge : rom_size ≤ s.address)
    (h31 : s.address + 1 < 2147483648) (hlo : -2147483648 ≤ s.address + 1) :
    (writeData rom_size s).bin = s.bin ∧ (writeData rom_size s).pos = s.pos ∧
    (writeData rom_size s).writes = s.writes ∧
    (writeData rom_size s).address = s.address + 1 ∧
    (writeData rom_size s).min_rom_size = max s.min_rom_size (s.address + 1) := by
  have hnlt : ¬ s.address < rom_size := by omega
  have hw : wrap32 (s.address + 1) = s.address + 1 := wrap32_of_range ⟨hlo, h31⟩
  simp only [writeData, if_pos ht, if_neg hnlt, hw]
  split_ifs with h
  · exact ⟨rfl, rfl, rfl, rfl, by simp only []; omega⟩
  · exact ⟨rfl, rfl, rfl, rfl, by simp only []; omega⟩

/-- Scenario D on an image of 16 bytes: a record whose address is `rom_size`
itself, with one data byte, leaves the image alone and brings `min_rom_size` to
`rom_size + 1`. -/
theorem boundary_record_dropped :
    (convert 16 1 255 zeroMachine [recordText 1 16 [170] (specChecksum 1 16 [170])]).bin
      = List.replicate 16 255 ∧
    (convert 16 1 255 zeroMachine [recordText 1 16 [170] (specChecksum 1 16 [170])]).writes
      = [] ∧
    (convert 16 1 255 zeroMachine
      [recordText 1 16 [170] (specChecksum 1 16 [170])]).min_rom_size = 17 ∧
    (convert 16 1 255 zeroMachine [recordText 1 16 [170] (specChecksum 1 16 [170])]).records
      = 1 := by
  decide

/-- The characters of scenario A with byte count 06 and checksum C4. -/
theorem scenarioA_chars_fixed : chars "S1060004AABBCCC4\n" =
    [83, 49, 48, 54, 48, 48, 48, 52, 65, 65, 66, 66, 67, 67, 67, 52, 10] := by decide

set_option maxHeartbeats 1000000 in
/-- Scenario A with the byte count and checksum that three data bytes ask for
(`S1060004AABBCCC4`): for every verbosity the image holds AA, BB, CC at offsets
4, 5, 6 and `0xFF` elsewhere, no checksum warning is printed, and one record is
counted without error. -/
theorem scenarioA_well_formed (v : Int) (u : Machine) :
    (convert 16 v 255 u [chars "S1060004AABBCCC4\n"]).bin = scenarioAExpected ∧
    Out.chkFailed ∉ (convert 16 v 255 u [chars "S1060004AABBCCC4\n"]).out ∧
    (convert 16 v 255 u [chars "S1060004AABBCCC4\n"]).error = 0 ∧
    (convert 16 v 255 u [chars "S1060004AABBCCC4\n"]).records = 1 := by
  rw [scenarioA_chars_fixed]
  by_cases h1 : v > 1 <;> by_cases h0 : v = 0 <;> by_cases h2 : 0 < v <;>
  simp [convert, processFiles, processFile, blankImage, resetForFile, decodeLoop, step,
    stepNewline, stepRecordType, stepByteCount, byteCountDone, addrWidth, stepAddress,
    addressDone, stepData, writeData, stepChksum, stepEndOfLine, fail, hexvalue, wrap32,
    fseekSet, fwriteByte, toByte, TRUE, FALSE, HI, LO, SREC_NEWLINE, SREC_RECORDTYPE,
    SREC_BYTECOUNT, SREC_ADDRESS, SREC_DATA, SREC_CHKSUM, SREC_ENDOFLINE, scenarioAExpected,
    trace, h1, h0, h2]

/-! ## Overlay: the image is the replay of the calls made on it -/

/-- One character either leaves the binary file alone or makes one call on it,
for an address below `rom_size`. -/
theorem step_file_effect (rom_size v : Int) (s : Machine) (c : Int) :
    ((step rom_size v s c).bin = s.bin ∧ (step rom_size v s c).writes = s.writes) ∨
    ∃ A b, (step rom_size v s c).writes = s.writes ++ [(A, b)] ∧ A < rom_size ∧
      (step rom_size v s c).bin = fwriteByte s.bin (fseekSet s.pos A) b := by
  by_cases s4 : s.state = 4
  · rw [step_data s4]
    simp only [stepData]
    split_ifs with h1 h2 h3 h4
    · left; exact ⟨rfl, rfl⟩
    all_goals first
      | (left; exact ⟨rfl, rfl⟩)
      | skip
    all_goals
      simp only [writeData]
      split_ifs
      all_goals first
        | (left; exact ⟨rfl, rfl⟩)
        | (right; exact ⟨_, _, rfl, by assumption, rfl⟩)
  · left
    by_cases s0 : s.state = 0
    · rw [step_newline s0]; unfold stepNewline fail; split_ifs <;> exact ⟨rfl, rfl⟩
    by_cases s1 : s.state = 1
    · rw [step_recordType s1]; unfold stepRecordType fail; split_ifs <;> exact ⟨rfl, rfl⟩
    by_cases s2 : s.state = 2
    · rw [step_byteCount s2]; simp only [stepByteCount, byteCountDone, fail]
      split_ifs <;> (try split) <;> exact ⟨rfl, rfl⟩
    by_cases s3 : s.state = 3
    · rw [step_address s3]; simp only [stepAddress, addressDone, fail]
      split_ifs <;> exact ⟨rfl, rfl⟩
    by_cases s5 : s.state = 5
    · rw [step_chksum s5]; simp only [stepChksum, fail]
      split_ifs <;> exact ⟨rfl, rfl⟩
    by_cases s6 : s.state = 6
    · rw [step_endOfLine s6]; simp only [stepEndOfLine]
      split_ifs <;> exact ⟨rfl, rfl⟩
    · rw [step_undefined (by omega)]; exact ⟨rfl, rfl⟩

theorem fwriteByte_length (bin : List Nat) (p b : Nat) :
    bin.length ≤ (fwriteByte bin p b).length := by
  unfold fwriteByte
  split_ifs <;> simp

theorem decodeLoop_bin_length (rom_size v : Int) (cs : List Nat) :
    ∀ s : Machine, s.bin.length ≤ (decodeLoop rom_size v s cs).bin.length := by
  induction cs with
  | nil => intro s; exact Nat.le_refl _
  | cons c cs ih =>
    intro s
    by_cases hr : running s
    · rw [decodeLoop_cons_running hr]
      refine Nat.le_trans ?_ (ih _)
      rcases step_file_effect rom_size v s c with ⟨h, -⟩ | ⟨A, b, -, -, h⟩
      · rw [h]
      · rw [h]; exact fwriteByte_length _ _ _
    · rw [decodeLoop_stopped hr]

/-- The image after any run of the loop is the image before it with, at every
offset, the last byte the run asked to put there, as long as no call of the run
asked for a negative offset. -/
theorem decodeLoop_overlay (rom_size v : Int) (cs : List Nat) :
    ∀ s : Machine, rom_size ≤ (s.bin.length : Int) →
      ∃ ws, (decodeLoop rom_size v s cs).writes = s.writes ++ ws ∧
        ((∀ w ∈ ws, 0 ≤ w.1) →
          ∀ a, (decodeLoop rom_size v s cs).bin[a]?
            = (match lastWrite a ws with
               | some b => some b
               | none => s.bin[a]?)) := by
  induction cs with
  | nil =>
    intro s _
    exact ⟨[], by simp [decodeLoop], fun _ a => by simp [decodeLoop, lastWrite]⟩
  | cons c cs ih =>
    intro s hlen
    by_cases hr : running s
    · rw [decodeLoop_cons_running hr]
      rcases step_file_effect rom_size v s c with ⟨hb, hw⟩ | ⟨A, b, hw, hA, hb⟩
      · obtain ⟨ws, e1, e2⟩ := ih (step rom_size v s c) (by rw [hb]; exact hlen)
        refine ⟨ws, by rw [e1, hw], fun hnn a => ?_⟩
        rw [e2 hnn a, hb]
      · have hlen1 : rom_size ≤ ((step rom_size v s c).bin.length : Int) := by
          rw [hb]
          have := fwriteByte_length s.bin (fseekSet s.pos A) b
          omega
        obtain ⟨ws, e1, e2⟩ := ih (step rom_size v s c) hlen1
        refine ⟨(A, b) :: ws, by rw [e1, hw]; simp, fun hnn a => ?_⟩
        have hA0 : 0 ≤ A := hnn (A, b) (List.mem_cons_self _ _)
        have hnn' : ∀ w ∈ ws, 0 ≤ w.1 := fun w hw => hnn w (List.mem_cons_of_mem _ hw)
        have hseek : fseekSet s.pos A = A.toNat := by
          unfold fseekSet; rw [if_neg (by omega)]
        have hlt : A.toNat < s.bin.length := by omega
        have hset : (step rom_size v s c).bin = s.bin.set A.toNat b := by
          rw [hb, hseek]; unfold fwriteByte; rw [if_pos hlt]
        rw [e2 hnn' a]
        simp only [lastWrite]
        cases hl : lastWrite a ws with
        | some x => rfl
        | none =>
          simp only []
          by_cases haA : A = (a : Int)
          · have : A.toNat = a := by omega
            rw [if_pos haA, hset, this]
            exact List.getElem?_set_self (by omega)
          · have : A.toNat ≠ a := by omega
            rw [if_neg haA, hset, List.getElem?_set_ne this]
    · rw [decodeLoop_stopped hr]
      exact ⟨[], by simp, fun _ a => by simp [lastWrite]⟩

/-- Overlay for two files read in order: at every offset the final image holds
the last byte the second file asked to put there and, where the second file
asked for nothing, the byte the first file left, provided the second file asked
for no negative offset. -/
theorem overlay_second_file (rom_size v : Int) (m : Machine) (F1 F2 : List Nat)
    (hm : m.exited = false) (hlen : rom_size ≤ (m.bin.length : Int)) :
    ∃ ws, (processFiles rom_size v m [F1, F2]).writes
        = (processFile rom_size v m F1).writes ++ ws ∧
      ((∀ w ∈ ws, 0 ≤ w.1) →
        ∀ a, (processFiles rom_size v m [F1, F2]).bin[a]?
          = (match lastWrite a ws with
             | some b => some b
             | none => (processFile rom_size v m F1).bin[a]?)) := by
  have he1 : (processFile rom_size v m F1).exited = false := by
    rw [processFile_exited]; exact hm
  have hrun : processFiles rom_size v m [F1, F2]
      = processFile rom_size v (processFile rom_size v m F1) F2 := by
    simp [processFiles, hm, he1]
  obtain ⟨k1, -, -, -, -, -, -, -, k9⟩ :=
    processFile_sameVisible rom_size v (processFile rom_size v m F1) F2
  obtain ⟨j1, -, -, -, -, -, -, -, -⟩ := processFile_sameVisible rom_size v m F1
  have hlen1 : rom_size ≤ ((resetForFile (processFile rom_size v m F1)).bin.length : Int) := by
    show rom_size ≤ ((processFile rom_size v m F1).bin.length : Int)
    rw [j1]
    have := decodeLoop_bin_length rom_size v F1 (resetForFile m)
    have h0 : (resetForFile m).bin.length = m.bin.length := rfl
    omega
  obtain ⟨ws, e1, e2⟩ :=
    decodeLoop_overlay rom_size v F2 (resetForFile (processFile rom_size v m F1)) hlen1
  refine ⟨ws, ?_, fun hnn a => ?_⟩
  · rw [hrun, k9, e1]; rfl
  · rw [hrun, k1, e2 hnn a]; rfl

/-! ## The control side of a record, for every record type -/

theorem mem_trace_iff (v : Int) (e : Out) (o es : List Out) :
    e ∈ trace v o es ↔ e ∈ o ∨ (v > 1 ∧ e ∈ es) := by
  unfold trace
  split_ifs with h <;> simp [h]

/-- The byte count of a record of any supported type. -/
theorem decode_byteCount_any (rom_size v : Int) {s : Machine} (hs : s.state = 2)
    (hn : s.nibble = HI) (hr : running s) (hb : s.bytes = 1) {n w : Nat} (hbc : n < 256)
    (hw : addrWidth s.type = some (w : Int)) (hw4 : w ≤ 4) (rest : List Nat) :
    ∃ s', decodeLoop rom_size v s (hexByte n ++ rest) = decodeLoop rom_size v s' rest ∧
      s'.state = (if w ≠ 0 then 3 else 4) ∧ s'.nibble = HI ∧
      s'.bytes = (if w ≠ 0 then (w : Int) else (n : Int) - 1) ∧ s'.type = s.type ∧
      s'.value = 0 ∧ s'.data_bytes = (n : Int) - w - 1 ∧
      s'.checksum = wrap32 (s.checksum + n) ∧ keeps s s' ∧
      (Out.chkFailed ∈ s'.out ↔ Out.chkFailed ∈ s.out) := by
  have x2 := hexvalue_lo n
  refine ⟨_, decodeLoop_hexByte (by omega) hn hr hbc rest, ?_⟩
  rw [step_byteCount_low (w := (w : Int)) (by exact hs) rfl (by omega) (by exact hb)
    (by exact hw)]
  have hd : wrap32 (wrap32 ((n : Int) - w) - 1) = (n : Int) - w - 1 := by
    rw [wrap32_of_range (x := (n : Int) - w) (by omega), wrap32_of_range (by omega)]
  by_cases hwz : w = 0
  · have h0 : ¬ ((w : Int) ≠ 0) := by omega
    rw [if_neg h0, if_neg h0, if_neg (by omega), if_neg (by omega)]
    refine ⟨rfl, rfl, ?_, rfl, rfl, ?_, ?_, keeps_refl s, ?_⟩
    · simp only [x2, byte_of_nibbles hbc]; rw [hd]; omega
    · simp only [x2, byte_of_nibbles hbc]; rw [hd]
    · simp only [x2, byte_of_nibbles hbc]
    · simp [mem_trace_iff]
  · have h0 : (w : Int) ≠ 0 := by omega
    rw [if_pos h0, if_pos h0, if_pos hwz, if_pos hwz]
    refine ⟨rfl, rfl, rfl, rfl, rfl, ?_, ?_, keeps_refl s, ?_⟩
    · simp only [x2, byte_of_nibbles hbc]; rw [hd]
    · simp only [x2, byte_of_nibbles hbc]
    · simp [mem_trace_iff]

/-- The machine after the two digits of an address byte. -/
theorem decodeLoop_address_byte (rom_size v : Int) {s : Machine} (hs : s.state = 3)
    (hn : s.nibble = HI) (hr : running s) {b : Nat} (hb : b < 256) (rest : List Nat) :
    decodeLoop rom_size v s (hexByte b ++ rest)
      = decodeLoop rom_size v
          (let s1 : Machine :=
            { s with
              out := trace v (trace v s.out [Out.echo ((hexDigit (b / 16) : Nat) : Int)])
                [Out.echo ((hexDigit (b % 16) : Nat) : Int)]
              nibble_value := ((b % 16 : Nat) : Int)
              nibble := HI
              byte_value := b
              checksum := wrap32 (s.checksum + b)
              value := wrap32 (wrap32 (s.value * 256) + b)
              bytes := wrap32 (s.bytes - 1) }
           if wrap32 (s.bytes - 1) = 0 then addressDone v s1 else s1) rest := by
  have x2 := hexvalue_lo b
  rw [decodeLoop_hexByte (by omega) hn hr hb rest,
    step_address_low (by exact hs) rfl (by omega)]
  simp only [x2, byte_of_nibbles hb]

/-- The address field of a record of any type: the control variables, the
checksum and what is printed. -/
theorem decode_address_ctl (rom_size v : Int) (bs : List Nat) :
    ∀ (rest : List Nat) {s : Machine}, bs ≠ [] → (∀ x ∈ bs, x < 256) → s.state = 3 →
      s.nibble = HI → running s → s.bytes = ((bs.length : Nat) : Int) →
      bs.length < 2147483648 → 0 ≤ s.checksum → s.checksum + bs.sum < 2147483648 →
      ∃ s', decodeLoop rom_size v s (hexBytes bs ++ rest) = decodeLoop rom_size v s' rest ∧
        s'.nibble = HI ∧ s'.type = s.type ∧ keeps s s' ∧
        (Out.chkFailed ∈ s'.out ↔ Out.chkFailed ∈ s.out) ∧
        s'.address = shiftIn s.value bs ∧ s'.data_bytes = s.data_bytes ∧
        (s.data_bytes ≠ 0 → s'.state = 4 ∧ s'.bytes = s.data_bytes ∧
          s'.checksum = s.checksum + bs.sum) ∧
        (s.data_bytes = 0 → s'.state = 5 ∧ s'.bytes = 1 ∧
          s'.checksum = (-(s.checksum + bs.sum) - 1) % 256) := by
  induction bs with
  | nil => intro rest s hne; exact absurd rfl hne
  | cons b bs ih =>
    intro rest s _ hlt hs hn hr hbytes hlen hc0 hc
    have hb : b < 256 := hlt b (List.mem_cons_self _ _)
    have hlt' : ∀ x ∈ bs, x < 256 := fun x hx => hlt x (List.mem_cons_of_mem _ hx)
    simp only [List.length_cons, List.sum_cons] at hbytes hlen hc
    have e1 := decodeLoop_address_byte rom_size v hs hn hr hb (hexBytes bs ++ rest)
    have hwc : wrap32 (s.checksum + b) = s.checksum + b := wrap32_of_range (by omega)
    have hwb : wrap32 (s.bytes - 1) = ((bs.length : Nat) : Int) := by
      rw [hbytes, wrap32_of_range (by omega)]; omega
    simp only [hwc, hwb] at e1
    by_cases hnil : bs = []
    · subst hnil
      simp only [List.length_nil, Nat.cast_zero, if_true, addressDone, hexBytes,
        List.nil_append] at e1
      simp only [hexBytes, List.append_nil]
      by_cases hd : s.data_bytes ≠ 0
      · rw [if_pos hd] at e1
        rw [e1]
        refine ⟨_, rfl, rfl, rfl, keeps_refl s, ?_, rfl, rfl,
          fun _ => ⟨rfl, rfl, by simp⟩, fun h => absurd h hd⟩
        simp [mem_trace_iff]
      · rw [if_neg hd] at e1
        rw [e1]
        refine ⟨_, rfl, rfl, rfl, keeps_refl s, ?_, rfl, rfl,
          fun h => absurd h hd, fun _ => ⟨rfl, rfl, by simp⟩⟩
        simp [mem_trace_iff]
    · have hlpos : ¬ ((bs.length : Nat) : Int) = 0 := by
        have : bs.length ≠ 0 := fun h => hnil (List.length_eq_zero.mp h)
        omega
      rw [if_neg hlpos] at e1
      obtain ⟨s2, e2, h2n, h2t, h2k, h2m, h2a, h2d, h2nz, h2z⟩ :=
        ih rest hnil hlt'
          (s := { s with
              out := trace v (trace v s.out [Out.echo ((hexDigit (b / 16) : Nat) : Int)])
                [Out.echo ((hexDigit (b % 16) : Nat) : Int)]
              nibble_value := ((b % 16 : Nat) : Int)
              nibble := HI
              byte_value := b
              checksum := s.checksum + b
              value := wrap32 (wrap32 (s.value * 256) + b)
              bytes := ((bs.length : Nat) : Int) })
          hs rfl hr rfl (by omega) (by show 0 ≤ s.checksum + b; omega)
          (by show s.checksum + b + bs.sum < 2147483648; omega)
      refine ⟨s2, ?_, h2n, h2t, h2k, ?_, h2a, h2d, ?_, ?_⟩
      · simp only [hexBytes, List.append_assoc]
        rw [e1, e2]
      · rw [h2m]; simp [mem_trace_iff]
      · intro hd
        obtain ⟨a1, a2, a3⟩ := h2nz hd
        refine ⟨a1, a2, ?_⟩
        rw [a3]; simp only [List.sum_cons]; push_cast; ring
      · intro hd
        obtain ⟨a1, a2, a3⟩ := h2z hd
        refine ⟨a1, a2, ?_⟩
        rw [a3]; simp only [List.sum_cons]; push_cast
        congr 2; ring

theorem writeData_other {rom_size : Int} {s : Machine}
    (ht : ¬ (s.type = 1 ∨ s.type = 2 ∨ s.type = 3)) : writeData rom_size s = s := by
  simp only [writeData, if_neg ht]

/-- A data byte of a record of any type: the control variables, the checksum and
what is printed. -/
theorem decode_data_byte_ctl (rom_size v : Int) {s : Machine} {b k : Nat} (hs : s.state = 4)
    (hn : s.nibble = HI) (hr : running s) (hb : b < 256)
    (hbytes : s.bytes = ((k + 1 : Nat) : Int)) (hk : k + 1 < 2147483648)
    (hc0 : 0 ≤ s.checksum) (hc : s.checksum + b < 2147483648) (rest : List Nat) :
    ∃ s', decodeLoop rom_size v s (hexByte b ++ rest) = decodeLoop rom_size v s' rest ∧
      s'.nibble = HI ∧ running s' ∧ s'.type = s.type ∧ s'.records = s.records ∧
      s'.error = s.error ∧ (Out.chkFailed ∈ s'.out ↔ Out.chkFailed ∈ s.out) ∧
      (k = 0 → s'.state = 5 ∧ s'.bytes = 1 ∧ s'.checksum = (-(s.checksum + b) - 1) % 256) ∧
      (k ≠ 0 → s'.state = 4 ∧ s'.bytes = (k : Int) ∧ s'.checksum = s.checksum + b) ∧
      (¬ (s.type = 1 ∨ s.type = 2 ∨ s.type = 3) →
        s'.bin = s.bin ∧ s'.pos = s.pos ∧ s'.writes = s.writes ∧
        s'.min_rom_size = s.min_rom_size) := by
  have x2 := hexvalue_lo b
  refine ⟨_, decodeLoop_hexByte (by omega) hn hr hb rest, ?_⟩
  rw [step_data_low (by exact hs) rfl (by omega)]
  simp only [x2, byte_of_nibbles hb]
  have hwb : wrap32 (s.bytes - 1) = (k : Int) := by
    rw [hbytes, wrap32_of_range (by omega)]; omega
  have hwc : wrap32 (s.checksum + b) = s.checksum + b := wrap32_of_range (by omega)
  rw [hwb, hwc]
  unfold running at hr ⊢
  by_cases hk0 : k = 0
  · have : ((k : Nat) : Int) = 0 := by omega
    rw [if_pos this]
    refine ⟨by simp, by simpa using hr, by simp, by simp, by simp, by simp [mem_trace_iff],
      fun _ => ⟨rfl, rfl, by simp⟩, fun h => absurd hk0 h, fun ht => ?_⟩
    rw [writeData_other (by exact ht)]
    exact ⟨rfl, rfl, rfl, rfl⟩
  · have : ¬ ((k : Nat) : Int) = 0 := by omega
    rw [if_neg this]
    refine ⟨by simp, by simpa using hr, by simp, by simp, by simp, by simp [mem_trace_iff],
      fun h => absurd h hk0, fun _ => ⟨by simpa using hs, rfl, by simp⟩, fun ht => ?_⟩
    rw [writeData_other (by exact ht)]
    exact ⟨rfl, rfl, rfl, rfl⟩

/-- The data field of a record of any type: the control variables, the checksum
and what is printed; a record of another type than 1, 2 and 3 leaves the binary
file and the high-water mark alone. -/
theorem decode_data_ctl (rom_size v : Int) (d : List Nat) :
    ∀ (rest : List Nat) {s : Machine}, d ≠ [] → (∀ x ∈ d, x < 256) → s.state = 4 →
      s.nibble = HI → running s → s.bytes = ((d.length : Nat) : Int) →
      d.length < 2147483648 → 0 ≤ s.checksum → s.checksum + d.sum < 2147483648 →
      ∃ s', decodeLoop rom_size v s (hexBytes d ++ rest) = decodeLoop rom_size v s' rest ∧
        s'.state = 5 ∧ s'.nibble = HI ∧ s'.bytes = 1 ∧ running s' ∧ s'.type = s.type ∧
        s'.records = s.records ∧ s'.error = s.error ∧
        s'.checksum = (-(s.checksum + d.sum) - 1) % 256 ∧
        (Out.chkFailed ∈ s'.out ↔ Out.chkFailed ∈ s.out) ∧
        (¬ (s.type = 1 ∨ s.type = 2 ∨ s.type = 3) →
          s'.bin = s.bin ∧ s'.pos = s.pos ∧ s'.writes = s.writes ∧
          s'.min_rom_size = s.min_rom_size) := by
  induction d with
  | nil => intro rest s hne; exact absurd rfl hne
  | cons b d ih =>
    intro rest s _ hlt hs hn hr hbytes hlen hc0 hc
    have hb : b < 256 := hlt b (List.mem_cons_self _ _)
    have hlt' : ∀ x ∈ d, x < 256 := fun x hx => hlt x (List.mem_cons_of_mem _ hx)
    simp only [List.length_cons, List.sum_cons] at hbytes hlen hc
    obtain ⟨s1, e1, h1n, h1r, h1t, h1rec, h1err, h1m, h1z, h1nz, h1o⟩ :=
      decode_data_byte_ctl rom_size v (b := b) (k := d.length) hs hn hr hb hbytes (by omega)
        hc0 (by omega) (hexBytes d ++ rest)
    by_cases hnil : d = []
    · subst hnil
      obtain ⟨a1, a2, a3⟩ := h1z rfl
      refine ⟨s1, by simpa [hexBytes] using e1, a1, h1n, a2, h1r, h1t, h1rec, h1err, ?_, h1m,
        h1o⟩
      rw [a3]; simp
    · have hlpos : d.length ≠ 0 := fun h => hnil (List.length_eq_zero.mp h)
      obtain ⟨a1, a2, a3⟩ := h1nz hlpos
      obtain ⟨s2, e2, h2s, h2n, h2b, h2r, h2t, h2rec, h2err, h2c, h2m, h2o⟩ :=
        ih rest hnil hlt' a1 h1n h1r a2 (by omega) (by rw [a3]; omega) (by rw [a3]; omega)
      refine ⟨s2, ?_, h2s, h2n, h2b, h2r, h2t.trans h1t, h2rec.trans h1rec,
        h2err.trans h1err, ?_, h2m.trans h1m, fun ht => ?_⟩
      · simp only [hexBytes, List.append_assoc]
        rw [e1, e2]
      · rw [h2c, a3]; simp only [List.sum_cons]; push_cast; congr 2; ring
      · obtain ⟨b1, b2, b3, b4⟩ := h1o ht
        obtain ⟨c1, c2, c3, c4⟩ := h2o (by rw [h1t]; exact ht)
        exact ⟨c1.trans b1, c2.trans b2, c3.trans b3, c4.trans b4⟩

theorem sum_le_of_lt (l : List Nat) (h : ∀ x ∈ l, x < 256) : l.sum ≤ 255 * l.length := by
  induction l with
  | nil => simp
  | cons x l ih =>
    have hx : x < 256 := h x (List.mem_cons_self _ _)
    have := ih (fun y hy => h y (List.mem_cons_of_mem _ hy))
    simp only [List.sum_cons, List.length_cons]
    omega

theorem beBytes_length (w a : Nat) : (beBytes w a).length = w := by
  induction w generalizing a with
  | zero => rfl
  | succ w ih => simp [beBytes, ih]

theorem beBytes_lt (w a : Nat) : ∀ x ∈ beBytes w a, x < 256 := by
  induction w generalizing a with
  | zero => intro x hx; simp [beBytes] at hx
  | succ w ih =>
    intro x hx
    simp only [beBytes, List.mem_append, List.mem_singleton] at hx
    rcases hx with hx | hx
    · exact ih _ x hx
    · omega

theorem addrWidth_supported {t : Nat}
    (ht : t = 0 ∨ t = 1 ∨ t = 2 ∨ t = 3 ∨ t = 5 ∨ t = 7 ∨ t = 8 ∨ t = 9) :
    addrWidth (t : Int) = some ((specAddrWidth t : Nat) : Int) ∧ specAddrWidth t ≤ 4 := by
  rcases ht with h | h | h | h | h | h | h | h <;> subst h <;> decide

/-- The checksum the decoder expects is the one of the specification. -/
theorem expected_checksum (x : Nat) : (-((x : Int)) - 1) % 256 = ((255 - x % 256 : Nat) : Int) := by
  omega

/-- A well-formed record of any supported type, read from the start of a line:
the decoder is back at the start of a line with one more record counted and no
error, the checksum warning is printed exactly when the verbosity is above 0 and
the checksum byte is not the one's complement of the low byte of the sum of the
byte count, the address bytes and the data bytes, and a record of another type
than 1, 2 and 3 leaves the binary file and the high-water mark alone. -/
theorem decode_record_ctl (rom_size v : Int) {s : Machine} (t a k : Nat) (d rest : List Nat)
    (ht : t = 0 ∨ t = 1 ∨ t = 2 ∨ t = 3 ∨ t = 5 ∨ t = 7 ∨ t = 8 ∨ t = 9)
    (hstate : s.state = 0) (hrun : running s) (hd : ∀ x ∈ d, x < 256)
    (hshape : specAddrWidth t ≠ 0 ∨ d ≠ []) (hbc : specAddrWidth t + d.length + 1 ≤ 255)
    (hk : k < 256) :
    ∃ s', decodeLoop rom_size v s (recordText t a d k ++ rest) = decodeLoop rom_size v s' rest ∧
      s'.state = 0 ∧ running s' ∧ s'.type = (t : Int) ∧ s'.records = wrap32 (s.records + 1) ∧
      s'.error = s.error ∧
      (Out.chkFailed ∈ s'.out ↔
        Out.chkFailed ∈ s.out ∨ (v > 0 ∧ k ≠ specChecksum t a d)) ∧
      (¬ (t = 1 ∨ t = 2 ∨ t = 3) →
        s'.bin = s.bin ∧ s'.pos = s.pos ∧ s'.writes = s.writes ∧
        s'.min_rom_size = s.min_rom_size) := by
  obtain ⟨hw, hw4⟩ := addrWidth_supported ht
  have hsd := sum_le_of_lt d hd
  have hsa := sum_le_of_lt _ (beBytes_lt (specAddrWidth t) a)
  rw [beBytes_length] at hsa
  -- the `S`, the type digit and the byte count
  obtain ⟨s1, e1, h1s, h1n, h1b, h1t, h1v, h1c, h1k, h1o⟩ :=
    decode_header rom_size v hstate hrun (t := t) ht
      (hexByte (specAddrWidth t + d.length + 1) ++ (hexBytes (beBytes (specAddrWidth t) a)
        ++ (hexBytes d ++ (hexByte k ++ (10 :: rest)))))
  have h1m : Out.chkFailed ∈ s1.out ↔ Out.chkFailed ∈ s.out := by
    rw [h1o]; simp [mem_trace_iff]
  obtain ⟨s2, e2, h2s, h2n, h2b, h2t, h2v, h2d, h2c, h2k, h2m⟩ :=
    decode_byteCount_any rom_size v h1s h1n (keeps_running h1k hrun) h1b
      (n := specAddrWidth t + d.length + 1) (w := specAddrWidth t) (by omega)
      (by rw [h1t]; exact hw) hw4
      (hexBytes (beBytes (specAddrWidth t) a) ++ (hexBytes d ++ (hexByte k ++ (10 :: rest))))
  have h2c' : s2.checksum = ((specAddrWidth t + d.length + 1 : Nat) : Int) := by
    rw [h2c, h1c, wrap32_of_range (by omega)]; simp
  have h2d' : s2.data_bytes = ((d.length : Nat) : Int) := by rw [h2d]; push_cast; omega
  have hk2 := keeps_trans h1k h2k
  have hr2 := keeps_running hk2 hrun
  have ht2 : s2.type = (t : Int) := h2t.trans h1t
  -- up to the checksum field
  have key : ∃ s4, decodeLoop rom_size v s2
        (hexBytes (beBytes (specAddrWidth t) a) ++ (hexBytes d ++ (hexByte k ++ (10 :: rest))))
        = decodeLoop rom_size v s4 (hexByte k ++ (10 :: rest)) ∧
      s4.state = 5 ∧ s4.nibble = HI ∧ s4.bytes = 1 ∧ running s4 ∧ s4.type = (t : Int) ∧
      s4.records = s.records ∧ s4.error = s.error ∧
      s4.checksum = ((specChecksum t a d : Nat) : Int) ∧
      (Out.chkFailed ∈ s4.out ↔ Out.chkFailed ∈ s.out) ∧
      (¬ (t = 1 ∨ t = 2 ∨ t = 3) →
        s4.bin = s.bin ∧ s4.pos = s.pos ∧ s4.writes = s.writes ∧
        s4.min_rom_size = s.min_rom_size) := by
    have hspec : ∀ x : Int,
        x = ((specAddrWidth t + d.length + 1 + (beBytes (specAddrWidth t) a).sum + d.sum : Nat)
          : Int) → (-x - 1) % 256 = ((specChecksum t a d : Nat) : Int) := by
      intro x hx
      rw [hx, expected_checksum]
      rfl
    by_cases hw0 : specAddrWidth t = 0
    · -- no address field: the data follow the byte count
      have hdne : d ≠ [] := by
        rcases hshape with h | h
        · exact absurd hw0 h
        · exact h
      rw [if_neg (by omega)] at h2s h2b
      have hbe : beBytes (specAddrWidth t) a = [] := by rw [hw0]; rfl
      obtain ⟨s4, e4, h4s, h4n, h4b, h4r, h4t, h4rec, h4err, h4c, h4m, h4o⟩ :=
        decode_data_ctl rom_size v d (hexByte k ++ (10 :: rest)) hdne hd h2s h2n hr2
          (by rw [h2b]; push_cast; omega) (by omega) (by rw [h2c']; omega)
          (by rw [h2c']; omega)
      refine ⟨s4, ?_, h4s, h4n, h4b, h4r, h4t.trans ht2, h4rec.trans hk2.2.2.2.2.2.2.2,
        h4err.trans hk2.2.2.2.2.1, ?_, h4m.trans (h2m.trans h1m), fun hnd => ?_⟩
      · rw [hbe]; simpa [hexBytes] using e4
      · rw [h4c, h2c']
        apply hspec
        rw [hbe]; push_cast; simp
      · obtain ⟨b1, b2, b3, b4⟩ := h4o (by rw [ht2]; exact_mod_cast hnd)
        exact ⟨b1.trans hk2.1, b2.trans hk2.2.1, b3.trans hk2.2.2.1, b4.trans hk2.2.2.2.1⟩
    · rw [if_pos hw0] at h2s h2b
      have hbne : beBytes (specAddrWidth t) a ≠ [] := by
        intro h
        have := beBytes_length (specAddrWidth t) a
        rw [h] at this
        exact hw0 this.symm
      obtain ⟨s3, e3, h3n, h3t, h3k, h3m, -, h3d, h3nz, h3z⟩ :=
        decode_address_ctl rom_size v (beBytes (specAddrWidth t) a)
          (hexBytes d ++ (hexByte k ++ (10 :: rest))) hbne (beBytes_lt _ _) h2s h2n hr2
          (by rw [h2b, beBytes_length]) (by rw [beBytes_length]; omega)
          (by rw [h2c']; omega) (by rw [h2c']; omega)
      have hk3 := keeps_trans hk2 h3k
      have hr3 := keeps_running hk3 hrun
      by_cases hdne : d = []
      · -- no data: the checksum follows the address
        subst hdne
        obtain ⟨a1, a2, a3⟩ := h3z (by rw [h2d']; rfl)
        refine ⟨s3, by simpa [hexBytes] using e3, a1, h3n, a2, hr3, h3t.trans ht2,
          hk3.2.2.2.2.2.2.2, hk3.2.2.2.2.1, ?_, h3m.trans (h2m.trans h1m), fun _ => ?_⟩
        · rw [a3, h2c']
          apply hspec
          push_cast; simp
        · exact ⟨hk3.1, hk3.2.1, hk3.2.2.1, hk3.2.2.2.1⟩
      · have hdl : d.length ≠ 0 := fun h => hdne (List.length_eq_zero.mp h)
        obtain ⟨a1, a2, a3⟩ := h3nz (by rw [h2d']; omega)
        obtain ⟨s4, e4, h4s, h4n, h4b, h4r, h4t, h4rec, h4err, h4c, h4m, h4o⟩ :=
          decode_data_ctl rom_size v d (hexByte k ++ (10 :: rest)) hdne hd a1 h3n hr3
            (by rw [a2, h2d']) (by omega) (by rw [a3, h2c']; omega)
            (by rw [a3, h2c']; omega)
        refine ⟨s4, by rw [e3, e4], h4s, h4n, h4b, h4r, h4t.trans (h3t.trans ht2),
          h4rec.trans hk3.2.2.2.2.2.2.2, h4err.trans hk3.2.2.2.2.1, ?_,
          h4m.trans (h3m.trans (h2m.trans h1m)), fun hnd => ?_⟩
        · rw [h4c, a3, h2c']
          apply hspec
          push_cast; ring
        · obtain ⟨b1, b2, b3, b4⟩ :=
            h4o (by rw [h3t, ht2]; exact_mod_cast hnd)
          exact ⟨b1.trans hk3.1, b2.trans hk3.2.1, b3.trans hk3.2.2.1, b4.trans hk3.2.2.2.1⟩
  obtain ⟨s4, e4, h4s, h4n, h4b, h4r, h4t, h4rec, h4err, h4c, h4m, h4o⟩ := key
  -- the checksum and the newline
  obtain ⟨s5, e5, h5s, -, h5t, h5k, h5m⟩ :=
    decode_chksum rom_size v h4s h4n h4r h4b hk (10 :: rest)
  obtain ⟨s6, e6, h6s, h6rec, h6bin, h6pos, h6w, h6min, h6err, h6t, h6r, h6m⟩ :=
    decode_newline rom_size v h5s (keeps_running h5k h4r) rest
  refine ⟨s6, ?_, h6s, h6r, h6t.trans (h5t.trans h4t), ?_, ?_, ?_, fun hnd => ?_⟩
  · simp only [recordText, List.cons_append, List.nil_append, List.append_assoc,
      List.singleton_append]
    rw [e1, e2, e4, e5, e6]
  · rw [h6rec, h5k.2.2.2.2.2.2.2, h4rec]
  · rw [h6err, h5k.2.2.2.2.1, h4err]
  · rw [h6m, h5m, h4m, h4c]
    constructor
    · rintro (h | ⟨h1, h2⟩)
      · exact Or.inl h
      · exact Or.inr ⟨h1, fun h => h2 (by rw [h])⟩
    · rintro (h | ⟨h1, h2⟩)
      · exact Or.inl h
      · exact Or.inr ⟨h1, fun h => h2 (by exact_mod_cast h.symm)⟩
  · obtain ⟨b1, b2, b3, b4⟩ := h4o hnd
    exact ⟨(h6bin.trans h5k.1).trans b1, (h6pos.trans h5k.2.1).trans b2,
      (h6w.trans h5k.2.2.1).trans b3, (h6min.trans h5k.2.2.2.1).trans b4⟩

/-- The checksum warning of an upper-case record: for a well-formed record of
any supported type (with an address field or at least one data byte) read from
the start of a line at verbosity above 0, with no warning printed before, the
warning is printed if and only if the checksum byte differs from the one's
complement of the low byte of the sum of the byte count, the address bytes and
the data bytes. -/
theorem checksum_report_upper_case (rom_size v : Int) (s : Machine) (t a k : Nat)
    (d : List Nat) (ht : t = 0 ∨ t = 1 ∨ t = 2 ∨ t = 3 ∨ t = 5 ∨ t = 7 ∨ t = 8 ∨ t = 9)
    (hstate : s.state = 0) (hrun : running s) (hd : ∀ x ∈ d, x < 256)
    (hshape : specAddrWidth t ≠ 0 ∨ d ≠ []) (hbc : specAddrWidth t + d.length + 1 ≤ 255)
    (hk : k < 256) (hv : v > 0) (hno : Out.chkFailed ∉ s.out) :
    Out.chkFailed ∈ (decodeLoop rom_size v s (recordText t a d k)).out
      ↔ k ≠ specChecksum t a d := by
  obtain ⟨s', e, -, -, -, -, -, hm, -⟩ :=
    decode_record_ctl rom_size v t a k d [] ht hstate hrun hd hshape hbc hk
  rw [List.append_nil, decodeLoop_nil] at e
  rw [e, hm]
  constructor
  · rintro (h | ⟨-, h⟩)
    · exact absurd h hno
    · exact h
  · intro h; exact Or.inr ⟨hv, h⟩

/-- The checksum-report theorem at a type 0 record with data 00 00 and checksum
byte 00. -/
theorem checksum_report_upper_case_witness :
    Out.chkFailed ∈ (decodeLoop 16 1 (resetForFile (blankImage 16 255 zeroMachine))
        (recordText 0 0 [0, 0] 0)).out ↔ 0 ≠ specChecksum 0 0 [0, 0] :=
  checksum_report_upper_case 16 1 (resetForFile (blankImage 16 255 zeroMachine)) 0 0 0 [0, 0]
    (by decide) (by decide) (by decide) (by decide) (by decide) (by decide) (by decide)
    (by decide) (by decide)

/-! ## What every reachable state satisfies -/

/-- The nibble parity stays `HI` or `LO`, and a record type that sits in the
byte-count field is one with an address width. -/
theorem step_parity_and_type {s : Machine} (rom_size v c : Int)
    (hn : s.nibble = HI ∨ s.nibble = LO) (ht : s.state = 2 → addrWidth s.type ≠ none) :
    ((step rom_size v s c).nibble = HI ∨ (step rom_size v s c).nibble = LO) ∧
      ((step rom_size v s c).state = 2 → addrWidth (step rom_size v s c).type ≠ none) := by
  simp only [HI, LO] at hn ⊢
  by_cases s0 : s.state = 0
  · rw [step_newline s0]; unfold stepNewline fail
    split_ifs <;> simp [SREC_RECORDTYPE, s0, hn]
  by_cases s1 : s.state = 1
  · rw [step_recordType s1]; simp only [stepRecordType, fail]
    split_ifs with h
    · refine ⟨Or.inl rfl, fun _ => ?_⟩
      rcases h with h | h | h | h | h | h | h | h <;> simp [h, addrWidth]
    · exact ⟨hn, fun h2 => absurd h2 (by simp [s1])⟩
  by_cases s2 : s.state = 2
  · have ht2 := ht s2
    rw [step_byteCount s2]; simp only [stepByteCount, byteCountDone, fail]
    split_ifs <;> (try split) <;>
      simp [SREC_ADDRESS, SREC_DATA, s2, fail, hn, ht2, HI, LO]
  by_cases s3 : s.state = 3
  · rw [step_address s3]; simp only [stepAddress, addressDone, fail]
    split_ifs <;> simp [SREC_CHKSUM, SREC_DATA, s3, hn, HI, LO]
  by_cases s4 : s.state = 4
  · rw [step_data s4]; simp only [stepData, fail]
    split_ifs <;> simp [SREC_CHKSUM, s4, hn, HI, LO]
  by_cases s5 : s.state = 5
  · rw [step_chksum s5]; simp only [stepChksum, fail]
    split_ifs <;> simp [SREC_ENDOFLINE, s5, hn, HI, LO]
  by_cases s6 : s.state = 6
  · rw [step_endOfLine s6]; simp only [stepEndOfLine]
    split_ifs <;> simp [SREC_NEWLINE, s6, hn]
  · rw [step_undefined (by omega)]
    exact ⟨hn, fun h2 => absurd h2 (by simp [s2])⟩

theorem decodeLoop_parity_and_type (rom_size v : Int) (cs : List Nat) :
    ∀ {s : Machine}, (s.nibble = HI ∨ s.nibble = LO) → (s.state = 2 → addrWidth s.type ≠ none) →
      ((decodeLoop rom_size v s cs).nibble = HI ∨ (decodeLoop rom_size v s cs).nibble = LO) ∧
        ((decodeLoop rom_size v s cs).state = 2 →
          addrWidth (decodeLoop rom_size v s cs).type ≠ none) := by
  induction cs with
  | nil => intro s hn ht; exact ⟨hn, ht⟩
  | cons c cs ih =>
    intro s hn ht
    by_cases hr : running s
    · rw [decodeLoop_cons_running hr]
      have h1 := step_parity_and_type rom_size v (c : Int) hn ht
      exact ih h1.1 h1.2
    · rw [decodeLoop_stopped hr]; exact ⟨hn, ht⟩

theorem processFiles_exited (rom_size v : Int) (files : List (List Nat)) :
    ∀ m : Machine, (processFiles rom_size v m files).exited = m.exited := by
  induction files with
  | nil => intro m; rfl
  | cons f fs ih =>
    intro m
    simp only [processFiles]
    split_ifs with h
    · rfl
    · rw [ih, processFile_exited]

theorem addrWidth_defined {t : Int} (h : addrWidth t ≠ none) :
    t = 0 ∨ t = 1 ∨ t = 2 ∨ t = 3 ∨ t = 5 ∨ t = 7 ∨ t = 8 ∨ t = 9 := by
  by_contra hcon
  apply h
  simp only [not_or] at hcon
  obtain ⟨h0, h1, h2, h3, h5, h7, h8, h9⟩ := hcon
  simp [addrWidth, h0, h1, h2, h3, h5, h7, h8, h9]

/-- C20: from the reset at the top of a file (lines 179-183), whatever characters
have been read, the state is one of the seven defined ones, the nibble parity is
`HI` or `LO`, a record type that sits in the byte-count field is one of 0, 1, 2,
3, 5, 7, 8, 9 and has an address width (so the `default` branch of lines 264-277
is not taken), the next character does not take the `exit` of the
undefined-state branch, and no list of files makes the program exit. -/
theorem impossible_branches_unreachable (rom_size v : Int) (m : Machine) (cs : List Nat) :
    definedState (decodeLoop rom_size v (resetForFile m) cs) ∧
    ((decodeLoop rom_size v (resetForFile m) cs).nibble = HI ∨
      (decodeLoop rom_size v (resetForFile m) cs).nibble = LO) ∧
    ((decodeLoop rom_size v (resetForFile m) cs).state = SREC_BYTECOUNT →
      ((decodeLoop rom_size v (resetForFile m) cs).type = 0 ∨
        (decodeLoop rom_size v (resetForFile m) cs).type = 1 ∨
        (decodeLoop rom_size v (resetForFile m) cs).type = 2 ∨
        (decodeLoop rom_size v (resetForFile m) cs).type = 3 ∨
        (decodeLoop rom_size v (resetForFile m) cs).type = 5 ∨
        (decodeLoop rom_size v (resetForFile m) cs).type = 7 ∨
        (decodeLoop rom_size v (resetForFile m) cs).type = 8 ∨
        (decodeLoop rom_size v (resetForFile m) cs).type = 9) ∧
      addrWidth (decodeLoop rom_size v (resetForFile m) cs).type ≠ none) ∧
    (decodeLoop rom_size v (resetForFile m) cs).exited = m.exited ∧
    (∀ c : Int, (step rom_size v (decodeLoop rom_size v (resetForFile m) cs) c).exited
      = m.exited) ∧
    (∀ files : List (List Nat), (processFiles rom_size v m files).exited = m.exited) := by
  have h0 : 0 ≤ (resetForFile m).state ∧ (resetForFile m).state ≤ 6 := by
    simp [resetForFile, SREC_NEWLINE]
  have h1 := decodeLoop_state_range rom_size v cs h0
  have h2 := decodeLoop_parity_and_type rom_size v cs (s := resetForFile m)
    (Or.inl rfl) (by simp [resetForFile, SREC_NEWLINE])
  have h3 : (decodeLoop rom_size v (resetForFile m) cs).exited = m.exited := h1.2
  refine ⟨?_, h2.1, fun hs => ⟨addrWidth_defined (h2.2 hs), h2.2 hs⟩, h3, fun c => ?_,
    fun files => processFiles_exited rom_size v files m⟩
  · simp only [definedState, SREC_NEWLINE, SREC_RECORDTYPE, SREC_BYTECOUNT, SREC_ADDRESS,
      SREC_DATA, SREC_CHKSUM, SREC_ENDOFLINE]
    omega
  · rw [(step_state_range h1.1 rom_size v c).2, h3]

/-! ## Records that are not data records -/

/-- Outside the data field of a record of type 1, 2 or 3 a character leaves the
binary file and the high-water mark alone. -/
theorem step_sameFile (rom_size v : Int) (s : Machine) (c : Int)
    (h : s.state ≠ 4 ∨ ¬ (s.type = 1 ∨ s.type = 2 ∨ s.type = 3)) :
    sameFile s (step rom_size v s c) := by
  unfold sameFile
  by_cases s4 : s.state = 4
  · have ht : ¬ (s.type = 1 ∨ s.type = 2 ∨ s.type = 3) := by
      rcases h with h | h
      · exact absurd s4 h
      · exact h
    rw [step_data s4]
    simp only [stepData]
    split_ifs <;> simp [writeData, ht, fail]
  by_cases s0 : s.state = 0
  · rw [step_newline s0]; unfold stepNewline fail; split_ifs <;> exact ⟨rfl, rfl, rfl, rfl⟩
  by_cases s1 : s.state = 1
  · rw [step_recordType s1]; unfold stepRecordType fail
    split_ifs <;> exact ⟨rfl, rfl, rfl, rfl⟩
  by_cases s2 : s.state = 2
  · rw [step_byteCount s2]; simp only [stepByteCount, byteCountDone, fail]
    split_ifs <;> (try split) <;> exact ⟨rfl, rfl, rfl, rfl⟩
  by_cases s3 : s.state = 3
  · rw [step_address s3]; simp only [stepAddress, addressDone, fail]
    split_ifs <;> exact ⟨rfl, rfl, rfl, rfl⟩
  by_cases s5 : s.state = 5
  · rw [step_chksum s5]; simp only [stepChksum, fail]
    split_ifs <;> exact ⟨rfl, rfl, rfl, rfl⟩
  by_cases s6 : s.state = 6
  · rw [step_endOfLine s6]; simp only [stepEndOfLine]
    split_ifs <;> exact ⟨rfl, rfl, rfl, rfl⟩
  · rw [step_undefined (by omega)]
    exact ⟨rfl, rfl, rfl, rfl⟩

/-- Past the type digit a record keeps its type, and only the newline that
closes it leaves the record. -/
theorem step_in_record (rom_size v : Int) (s : Machine) (c : Int)
    (hs : 2 ≤ s.state ∧ s.state ≤ 6) (hc : c ≠ 10) :
    (2 ≤ (step rom_size v s c).state ∧ (step rom_size v s c).state ≤ 6) ∧
      (step rom_size v s c).type = s.type := by
  by_cases s2 : s.state = 2
  · rw [step_byteCount s2]; simp only [stepByteCount, byteCountDone, fail]
    split_ifs <;> (try split) <;> simp [SREC_ADDRESS, SREC_DATA, s2, fail]
  by_cases s3 : s.state = 3
  · rw [step_address s3]; simp only [stepAddress, addressDone, fail]
    split_ifs <;> simp [SREC_CHKSUM, SREC_DATA, s3]
  by_cases s4 : s.state = 4
  · rw [step_data s4]; simp only [stepData, fail]
    split_ifs <;> simp [SREC_CHKSUM, s4]
  by_cases s5 : s.state = 5
  · rw [step_chksum s5]; simp only [stepChksum, fail]
    split_ifs <;> simp [SREC_ENDOFLINE, s5]
  · have s6 : s.state = 6 := by omega
    rw [step_endOfLine s6]; simp only [stepEndOfLine]
    rw [if_neg hc]; simp [s6]

theorem sameFile_trans {a b c : Machine} (h1 : sameFile a b) (h2 : sameFile b c) :
    sameFile a c :=
  ⟨h2.1.trans h1.1, h2.2.1.trans h1.2.1, h2.2.2.1.trans h1.2.2.1, h2.2.2.2.trans h1.2.2.2⟩

/-- The rest of a line of a record that is not of type 1, 2 or 3 writes
nothing. -/
theorem decodeLoop_rest_of_line (rom_size v : Int) (body : List Nat) :
    ∀ (s : Machine), (2 ≤ s.state ∧ s.state ≤ 6) → ¬ (s.type = 1 ∨ s.type = 2 ∨ s.type = 3) →
      10 ∉ body →
      sameFile s (decodeLoop rom_size v s body) ∧
      (2 ≤ (decodeLoop rom_size v s body).state ∧ (decodeLoop rom_size v s body).state ≤ 6) ∧
      (decodeLoop rom_size v s body).type = s.type := by
  induction body with
  | nil => intro s hs ht _; exact ⟨⟨rfl, rfl, rfl, rfl⟩, hs, rfl⟩
  | cons c cs ih =>
    intro s hs ht hb
    by_cases hr : running s
    · rw [decodeLoop_cons_running hr]
      have hc : (c : Int) ≠ 10 := by
        intro h; apply hb; simp; left; exact_mod_cast h.symm
      have h1 := step_in_record rom_size v s c hs hc
      have h2 := step_sameFile rom_size v s c (Or.inr ht)
      have h3 := ih (step rom_size v s c) h1.1 (by rw [h1.2]; exact ht)
        (fun h => hb (List.mem_cons_of_mem _ h))
      exact ⟨sameFile_trans h2 h3.1, h3.2.1, h3.2.2.trans h1.2⟩
    · rw [decodeLoop_stopped hr]; exact ⟨⟨rfl, rfl, rfl, rfl⟩, hs, rfl⟩

theorem decodeLoop_single (rom_size v : Int) (s : Machine) (c : Nat) :
    decodeLoop rom_size v s [c] = if running s then step rom_size v s c else s := by
  by_cases hr : running s
  · rw [decodeLoop_cons_running hr, decodeLoop_nil, if_pos hr]
  · rw [decodeLoop_stopped hr, if_neg hr]

/-- The `S` (or `s`) and the type digit of a record: the state after them. -/
theorem decode_start (rom_size v : Int) {s : Machine} (hs : s.state = 0) (hr : running s)
    {c0 t : Nat} (hc0 : c0 = 83 ∨ c0 = 115)
    (ht : t = 0 ∨ t = 1 ∨ t = 2 ∨ t = 3 ∨ t = 5 ∨ t = 7 ∨ t = 8 ∨ t = 9) (rest : List Nat) :
    decodeLoop rom_size v s (c0 :: (48 + t) :: rest)
      = decodeLoop rom_size v
          { s with
            type := (t : Int)
            out := trace v s.out [Out.recordType (t : Int)]
            state := SREC_BYTECOUNT
            nibble := HI
            bytes := 1
            value := 0
            checksum := 0 } rest := by
  have e1 : step rom_size v s ((c0 : Nat) : Int) = { s with state := SREC_RECORDTYPE } := by
    rw [step_newline hs]
    rcases hc0 with h | h <;> subst h <;> simp [stepNewline]
  have hr1 : running (step rom_size v s ((c0 : Nat) : Int)) := by rw [e1]; exact hr
  have e2 : step rom_size v { s with state := SREC_RECORDTYPE } ((48 + t : Nat) : Int)
      = { s with
          type := (t : Int)
          out := trace v s.out [Out.recordType (t : Int)]
          state := SREC_BYTECOUNT
          nibble := HI
          bytes := 1
          value := 0
          checksum := 0 } := by
    rw [step_recordType (by rfl)]
    rcases ht with h | h | h | h | h | h | h | h <;> subst h <;> simp [stepRecordType]
  rw [decodeLoop_cons_running hr, decodeLoop_cons_running hr1, e1, e2]

/-- C11: a record of type 0, 5, 7, 8 or 9, well-formed or not, writes nothing.
From the start of a line, for every starting image and high-water mark, after
`S` (or `s`), the type digit and any characters other than the newline, and also
after the newline that follows them, the binary file, its position, the calls
made on it and the high-water mark are as they were. -/
theorem other_types_write_nothing (rom_size v : Int) (s : Machine) (c0 t : Nat)
    (body : List Nat) (hs : s.state = SREC_NEWLINE) (hc0 : c0 = 83 ∨ c0 = 115)
    (ht : t = 0 ∨ t = 5 ∨ t = 7 ∨ t = 8 ∨ t = 9) (hbody : 10 ∉ body) :
    sameFile s (decodeLoop rom_size v s (c0 :: (48 + t) :: body)) ∧
    sameFile s (decodeLoop rom_size v s (c0 :: (48 + t) :: body ++ [10])) := by
  by_cases hr : running s
  · have ht8 : t = 0 ∨ t = 1 ∨ t = 2 ∨ t = 3 ∨ t = 5 ∨ t = 7 ∨ t = 8 ∨ t = 9 := by omega
    have e := decode_start rom_size v hs hr hc0 ht8
    have hrest := decodeLoop_rest_of_line rom_size v body
      { s with
        type := (t : Int)
        out := trace v s.out [Out.recordType (t : Int)]
        state := SREC_BYTECOUNT
        nibble := HI
        bytes := 1
        value := 0
        checksum := 0 }
      (by simp [SREC_BYTECOUNT]) (by simp only []; omega) hbody
    have h1 : sameFile s (decodeLoop rom_size v s (c0 :: (48 + t) :: body)) := by
      rw [e]; exact hrest.1
    refine ⟨h1, ?_⟩
    have e2 : c0 :: (48 + t) :: body ++ [10] = (c0 :: (48 + t) :: body) ++ [10] := by simp
    rw [e2, decodeLoop_append, decodeLoop_single]
    split_ifs
    · refine sameFile_trans h1 (step_sameFile rom_size v _ _ (Or.inr ?_))
      rw [e, hrest.2.2]; simp only []; omega
    · exact h1
  · rw [decodeLoop_stopped hr, decodeLoop_stopped hr]
    exact ⟨⟨rfl, rfl, rfl, rfl⟩, ⟨rfl, rfl, rfl, rfl⟩⟩

/-- C11 at a closed input: a type 9 record that carries data bytes,
on an image of 8 bytes. -/
theorem other_types_write_nothing_witness :
    sameFile (resetForFile (blankImage 8 255 zeroMachine))
      (decodeLoop 8 1 (resetForFile (blankImage 8 255 zeroMachine))
        (83 :: (48 + 9) :: chars "050002AABB93")) ∧
    sameFile (resetForFile (blankImage 8 255 zeroMachine))
      (decodeLoop 8 1 (resetForFile (blankImage 8 255 zeroMachine))
        (83 :: (48 + 9) :: chars "050002AABB93" ++ [10])) :=
  other_types_write_nothing 8 1 (resetForFile (blankImage 8 255 zeroMachine)) 83 9
    (chars "050002AABB93") (by decide) (by decide) (by decide) (by decide)

/-! ## The high-water mark -/

theorem writeData_min_rom_size_le (rom_size : Int) (s : Machine) :
    s.min_rom_size ≤ (writeData rom_size s).min_rom_size := by
  simp only [writeData]
  split_ifs with h1 h2 h3 h4
  · exact le_of_lt h3
  · exact le_refl _
  · exact le_of_lt h4
  · exact le_refl _
  · exact le_refl _

/-- The write of a data byte of a record of type 1, 2 or 3 raises the high-water
mark to the address after it, below `rom_size` or not, as long as that address
is an `int`. -/
theorem writeData_high_water (rom_size : Int) {s : Machine}
    (ht : s.type = 1 ∨ s.type = 2 ∨ s.type = 3)
    (h : -2147483648 ≤ s.address + 1 ∧ s.address + 1 < 2147483648) :
    (writeData rom_size s).min_rom_size = max s.min_rom_size (s.address + 1) := by
  have hw : wrap32 (s.address + 1) = s.address + 1 := wrap32_of_range h
  simp only [writeData, if_pos ht]
  split_ifs with h2 h3 h4
  · simp only [hw] at h3 ⊢; omega
  · simp only [hw] at h3 ⊢; omega
  · simp only [hw] at h4 ⊢; omega
  · simp only [hw] at h4 ⊢; omega

theorem step_min_rom_size_le (rom_size v : Int) (s : Machine) (c : Int) :
    s.min_rom_size ≤ (step rom_size v s c).min_rom_size := by
  by_cases s4 : s.state = 4
  · rw [step_data s4]
    simp only [stepData, fail]
    split_ifs <;> first
      | exact le_refl _
      | exact writeData_min_rom_size_le rom_size _
  · rw [(step_sameFile rom_size v s c (Or.inl s4)).2.2.2]

/-- The high-water mark never goes down while a file is decoded. -/
theorem decodeLoop_min_rom_size_le (rom_size v : Int) (cs : List Nat) :
    ∀ s : Machine, s.min_rom_size ≤ (decodeLoop rom_size v s cs).min_rom_size := by
  induction cs with
  | nil => intro s; exact le_refl _
  | cons c cs ih =>
    intro s
    by_cases hr : running s
    · rw [decodeLoop_cons_running hr]
      exact le_trans (step_min_rom_size_le rom_size v s c) (ih _)
    · rw [decodeLoop_stopped hr]

theorem processFile_min_rom_size_le (rom_size v : Int) (m : Machine) (file : List Nat) :
    m.min_rom_size ≤ (processFile rom_size v m file).min_rom_size := by
  have h := decodeLoop_min_rom_size_le rom_size v file (resetForFile m)
  simp only [processFile]
  split_ifs <;> simpa [resetForFile] using h

/-- The high-water mark is not reset between files and never goes down. -/
theorem processFiles_min_rom_size_le (rom_size v : Int) (files : List (List Nat)) :
    ∀ m : Machine, m.min_rom_size ≤ (processFiles rom_size v m files).min_rom_size := by
  induction files with
  | nil => intro m; exact le_refl _
  | cons f fs ih =>
    intro m
    simp only [processFiles]
    split_ifs with h
    · exact le_refl _
    · exact le_trans (processFile_min_rom_size_le rom_size v m f) (ih _)

/-- C12 at its failing input: on a fresh image of 16 bytes the file
`S306F0000000AA5F` is decoded without error, its data byte `0xAA` is decoded for
a type 3 record, and the high-water mark is still 0, not 1 + `0xF0000000`: the
address is held as the negative `int` -268435456. -/
theorem high_water_mark_misses_high_address :
    (convert 16 2 255 zeroMachine [highRecordFile]).min_rom_size = 0 ∧
    Out.recordType 3 ∈ (convert 16 2 255 zeroMachine [highRecordFile]).out ∧
    Out.address (-268435456) ∈ (convert 16 2 255 zeroMachine [highRecordFile]).out ∧
    Out.data 170 ∈ (convert 16 2 255 zeroMachine [highRecordFile]).out ∧
    (convert 16 2 255 zeroMachine [highRecordFile]).error = 0 ∧
    (convert 16 2 255 zeroMachine [highRecordFile]).records = 1 ∧
    beValue [240, 0, 0, 0] = 4026531840 := by
  decide

/-! ## The address field as a number -/

theorem wrap32_modEq (x : Int) : wrap32 x ≡ x [ZMOD 4294967296] := by
  unfold wrap32 Int.ModEq; omega

theorem wrap32_congr {x y : Int} (h : x ≡ y [ZMOD 4294967296]) : wrap32 x = wrap32 y := by
  unfold wrap32; unfold Int.ModEq at h; omega

theorem wrap32_range (x : Int) : -2147483648 ≤ wrap32 x ∧ wrap32 x < 2147483648 := by
  unfold wrap32; omega

/-- The address field is accumulated modulo `2 ^ 32` and held as a signed
`int`. -/
theorem shiftIn_eq_wrap32 (bs : List Nat) :
    ∀ v : Int, -2147483648 ≤ v ∧ v < 2147483648 →
      shiftIn v bs = wrap32 (v * 256 ^ bs.length + (beValue bs : Int)) := by
  induction bs with
  | nil =>
    intro v hv
    simp only [shiftIn, beValue, List.length_nil, pow_zero, mul_one, Nat.cast_zero, add_zero]
    exact (wrap32_of_range hv).symm
  | cons b bs ih =>
    intro v hv
    simp only [shiftIn, beValue, List.length_cons]
    rw [ih _ (wrap32_range _)]
    apply wrap32_congr
    have h1 : wrap32 (wrap32 (v * 256) + (b : Int)) ≡ v * 256 + b [ZMOD 4294967296] :=
      (wrap32_modEq _).trans ((wrap32_modEq _).add_right _)
    have h2 := (h1.mul_right ((256 : Int) ^ bs.length)).add_right ((beValue bs : Int))
    refine h2.trans ?_
    have e : (v * 256 + (b : Int)) * 256 ^ bs.length + (beValue bs : Int)
        = v * 256 ^ (bs.length + 1) + ((b * 256 ^ bs.length + beValue bs : Nat) : Int) := by
      push_cast; ring
    rw [e]

/-- An address field whose unsigned value is below `2 ^ 31` is held as that
value; one of `2 ^ 31` and above, which takes four bytes, is held as that value
less `2 ^ 32`, a negative number. -/
theorem shiftIn_value (bs : List Nat) (hb : ∀ x ∈ bs, x < 256) (hl : bs.length ≤ 4) :
    (beValue bs < 2147483648 → shiftIn 0 bs = (beValue bs : Int)) ∧
    (2147483648 ≤ beValue bs → shiftIn 0 bs = (beValue bs : Int) - 4294967296 ∧
      shiftIn 0 bs < 0) := by
  have hlt : beValue bs < 256 ^ bs.length := by
    clear hl
    induction bs with
    | nil => simp [beValue]
    | cons b bs ih =>
      have h1 := ih (fun x hx => hb x (List.mem_cons_of_mem _ hx))
      have h2 := hb b (List.mem_cons_self _ _)
      simp only [beValue, List.length_cons, pow_succ]
      nlinarith
  have h4 : (256 : Nat) ^ bs.length ≤ 256 ^ 4 := Nat.pow_le_pow_right (by norm_num) hl
  have h5 : beValue bs < 4294967296 := by
    have : (256 : Nat) ^ 4 = 4294967296 := by norm_num
    omega
  rw [shiftIn_eq_wrap32 bs 0 (by omega)]
  simp only [zero_mul, zero_add]
  unfold wrap32
  constructor
  · intro h; omega
  · intro h; omega

/-- C18 at its failing input: the four address bytes `FF FF FF FF` have the
unsigned big-endian value 4294967295, and the address the program holds for the
first data byte of `S306FFFFFFFFAA53`, prints and passes to `fseek`, is -1. -/
theorem top_address_held_negative :
    beValue [255, 255, 255, 255] = 4294967295 ∧
    Out.address (-1) ∈ (convert 16 2 255 zeroMachine [topRecordFile]).out ∧
    (convert 16 2 255 zeroMachine [topRecordFile]).writes = [(-1, 170)] ∧
    (convert 16 2 255 zeroMachine [topRecordFile]).error = 0 := by
  decide

/-! ## An unsupported record type -/

/-- C15, as stated, fails: the file `S4060004DDEEFF2B` names the record type 4;
the file listed after it is still processed, its record is counted and its
bytes `AA BB CC` are in the image, and the program has not exited. -/
theorem unsupported_type_later_file_processed :
    (convert 16 1 255 zeroMachine [unsupportedTypeFile, fileAfterUnsupported]).bin
      = scenarioAExpected ∧
    (convert 16 1 255 zeroMachine [unsupportedTypeFile, fileAfterUnsupported]).out
      = [Out.records 0, Out.records 1] ∧
    (convert 16 1 255 zeroMachine [unsupportedTypeFile, fileAfterUnsupported]).exited
      = false := by
  decide

/-- C15, amended: a character after `S` that is not one of the type digits
0, 1, 2, 3, 5, 7, 8, 9 aborts the current file only. Nothing more of that file is
read, its error flag is set, the image, the high-water mark and the record count
are those reached before the `S`, the program does not exit, and the files
listed after it are processed from the result. -/
theorem unsupported_type_aborts_file_only (rom_size v : Int) (m : Machine)
    (p : List Nat) (c : Nat) (rest : List Nat) (files : List (List Nat))
    (hm : m.exited = false)
    (hp : (decodeLoop rom_size v (resetForFile m) p).state = SREC_RECORDTYPE)
    (hrun : running (decodeLoop rom_size v (resetForFile m) p))
    (hc : ¬ (c = 48 ∨ c = 49 ∨ c = 50 ∨ c = 51 ∨ c = 53 ∨ c = 55 ∨ c = 56 ∨ c = 57)) :
    (processFile rom_size v m (p ++ c :: rest)).exited = false ∧
    (processFile rom_size v m (p ++ c :: rest)).error = TRUE ∧
    (processFile rom_size v m (p ++ c :: rest)).processing = FALSE ∧
    sameFile (decodeLoop rom_size v (resetForFile m) p)
      (processFile rom_size v m (p ++ c :: rest)) ∧
    (processFile rom_size v m (p ++ c :: rest)).records
      = (decodeLoop rom_size v (resetForFile m) p).records ∧
    processFile rom_size v m (p ++ c :: rest) = processFile rom_size v m (p ++ [c]) ∧
    processFiles rom_size v m ((p ++ c :: rest) :: files)
      = processFiles rom_size v (processFile rom_size v m (p ++ c :: rest)) files := by
  have hf : fatalChar (decodeLoop rom_size v (resetForFile m) p) (c : Int) := by
    right; left
    refine ⟨hp, ?_⟩
    omega
  obtain ⟨o, nv, e⟩ := step_fatal rom_size v hf
  have hstop : ∀ q, decodeLoop rom_size v (resetForFile m) (p ++ c :: q)
      = step rom_size v (decodeLoop rom_size v (resetForFile m) p) (c : Int) := by
    intro q
    rw [decodeLoop_append, decodeLoop_cons_running hrun, decodeLoop_stopped]
    rw [e]; simp [running, FALSE]
  have hex := processFile_exited rom_size v m (p ++ c :: rest)
  have e1 : processFile rom_size v m (p ++ c :: rest) = processFile rom_size v m (p ++ [c]) := by
    simp only [processFile, hstop]
  refine ⟨hex.trans hm, ?_, ?_, ?_, ?_, e1, ?_⟩
  · simp only [processFile, hstop, e]; split_ifs <;> rfl
  · simp only [processFile, hstop, e]; split_ifs <;> rfl
  · simp only [processFile, hstop, e]; split_ifs <;> exact ⟨rfl, rfl, rfl, rfl⟩
  · simp only [processFile, hstop, e]; split_ifs <;> rfl
  · simp only [processFiles, hm]; rfl

/-- C15, amended, at a closed input: the type digit `4` on an image of 16
bytes, with one file listed after it. -/
theorem unsupported_type_aborts_file_only_witness :
    (processFile 16 1 (blankImage 16 255 zeroMachine)
      (chars "S" ++ 52 :: chars "060004DDEEFF2B\n")).exited = false ∧
    (processFile 16 1 (blankImage 16 255 zeroMachine)
      (chars "S" ++ 52 :: chars "060004DDEEFF2B\n")).error = TRUE ∧
    (processFile 16 1 (blankImage 16 255 zeroMachine)
      (chars "S" ++ 52 :: chars "060004DDEEFF2B\n")).processing = FALSE ∧
    sameFile (decodeLoop 16 1 (resetForFile (blankImage 16 255 zeroMachine)) (chars "S"))
      (processFile 16 1 (blankImage 16 255 zeroMachine)
        (chars "S" ++ 52 :: chars "060004DDEEFF2B\n")) ∧
    (processFile 16 1 (blankImage 16 255 zeroMachine)
      (chars "S" ++ 52 :: chars "060004DDEEFF2B\n")).records
      = (decodeLoop 16 1 (resetForFile (blankImage 16 255 zeroMachine)) (chars "S")).records ∧
    processFile 16 1 (blankImage 16 255 zeroMachine)
        (chars "S" ++ 52 :: chars "060004DDEEFF2B\n")
      = processFile 16 1 (blankImage 16 255 zeroMachine) (chars "S" ++ [52]) ∧
    processFiles 16 1 (blankImage 16 255 zeroMachine)
        ((chars "S" ++ 52 :: chars "060004DDEEFF2B\n") :: [fileAfterUnsupported])
      = processFiles 16 1
          (processFile 16 1 (blankImage 16 255 zeroMachine)
            (chars "S" ++ 52 :: chars "060004DDEEFF2B\n")) [fileAfterUnsupported] :=
  unsupported_type_aborts_file_only 16 1 (blankImage 16 255 zeroMachine) (chars "S") 52
    (chars "060004DDEEFF2B\n") [fileAfterUnsupported] (by decide) (by decide) (by decide)
    (by decide)

/-! ## The default blank value -/

theorem scanFrom_blank (atoi : String → Int) (args : List String) :
    ∀ (i : Int) (st : Settings), "-d" ∉ args → (scanFrom atoi i args st).blank = st.blank := by
  induction args with
  | nil => intro i st _; rfl
  | cons a rest ih =>
    intro i st h
    cases rest with
    | nil => rfl
    | cons b rest =>
      have ha : a ≠ "-d" := fun e => h (by simp [e])
      simp only [scanFrom]
      rw [ih _ _ (fun hh => h (List.mem_cons_of_mem _ hh))]
      simp only [scanPair, if_neg ha]
      split_ifs <;> rfl

/-- A command line without `-d` leaves the blank value at `0xFF`, and the image
is filled with it. -/
theorem blank_without_switch (atoi : String → Int) (u : Int) (um : Machine)
    (argv : List String) (h : "-d" ∉ argv) :
    (scanArgs atoi u argv).blank = 255 ∧
    (blankImage (scanArgs atoi u argv).rom_size (scanArgs atoi u argv).blank um).bin
      = List.replicate (scanArgs atoi u argv).rom_size.toNat 255 := by
  have h1 : (scanArgs atoi u argv).blank = 255 := by
    unfold scanArgs
    rw [scanFrom_blank atoi _ _ _ (fun hh => h (List.mem_of_mem_drop hh))]
    rfl
  refine ⟨h1, ?_⟩
  simp [blankImage, h1, toByte]

/-- C16 at its failing input: for the command line `srec2bin image.bin -B 4`,
which carries no `-d`, the blank value is `0xFF`, not the `0x00` of the help
text, and the image is filled with `0xFF`. -/
theorem default_blank_is_ff (atoi : String → Int) (u : Int) (um : Machine) :
    (scanArgs atoi u ["srec2bin", "image.bin", "-B", "4"]).blank = 255 ∧
    (scanArgs atoi u ["srec2bin", "image.bin", "-B", "4"]).rom_size = atoi "4" ∧
    (blankImage (scanArgs atoi u ["srec2bin", "image.bin", "-B", "4"]).rom_size
        (scanArgs atoi u ["srec2bin", "image.bin", "-B", "4"]).blank um).bin
      = List.replicate (atoi "4").toNat 255 ∧
    (blankImage 4 (scanArgs atoi u ["srec2bin", "image.bin", "-B", "4"]).blank um).bin
      = [255, 255, 255, 255] := by
  have e : scanArgs atoi u ["srec2bin", "image.bin", "-B", "4"]
      = { blank := 255, verbosity := 1, rom_size := atoi "4", s_position := u } := by
    simp [scanArgs, scanFrom, scanPair, initialSettings, defaultBlank, defaultVerbosity]
  rw [e]
  simp [blankImage, toByte]

/-! ## Well-formed records in either case of the hexadecimal digits -/

/-- The nibble decoder accepts every hexadecimal digit and gives it at most its
value; a value it gets wrong is at least 5. -/
theorem hexvalue_le_spec {c : Int} (h : isHexDigit c) :
    0 ≤ hexvalue c ∧ hexvalue c ≤ specHexValue c ∧ specHexValue c ≤ 15 ∧
      (hexvalue c = specHexValue c ∨ 5 ≤ hexvalue c) := by
  unfold isHexDigit at h
  unfold hexvalue specHexValue
  split_ifs <;> omega

/-- A hexadecimal digit inside the address, data or checksum field of a record
with positive counters brings the end of the line one character nearer. -/
theorem step_in_fields (rom_size v : Int) {s : Machine} {c : Int} (hs : inFields s)
    (hc : isHexDigit c) :
    inFields (step rom_size v s c) ∧ (step rom_size v s c).records = s.records ∧
      (step rom_size v s c).error = s.error ∧
      (s.state ≠ 6 → fieldsLeft (step rom_size v s c) = fieldsLeft s - 1) ∧
      (s.state = 6 → step rom_size v s c = s) := by
  obtain ⟨hr, hn, hst, h3, h4, h5⟩ := hs
  have hv := (hexvalue_le_spec hc).1
  have hv' : hexvalue c ≥ 0 := hv
  have hc10 : c ≠ 10 := by unfold isHexDigit at hc; omega
  by_cases s6 : s.state = 6
  · have e : step rom_size v s c = s := by
      rw [step_endOfLine s6]; simp only [stepEndOfLine]; rw [if_neg hc10]
    rw [e]
    exact ⟨⟨hr, hn, hst, h3, h4, h5⟩, rfl, rfl, fun h => absurd s6 h, fun _ => rfl⟩
  have hst5 : 2 ≤ s.state ∧ s.state ≤ 5 := by omega
  rcases hn with hn | hn
  · rw [step_high rom_size v hst5 hn hv']
    refine ⟨⟨hr, Or.inr rfl, hst, h3, h4, h5⟩, rfl, rfl, fun _ => ?_, fun h => absurd h s6⟩
    simp only [fieldsLeft, hn, HI, LO]
    simp
    omega
  · have hnh : s.nibble ≠ HI := by rw [hn]; decide
    by_cases s3 : s.state = 3
    · obtain ⟨b1, b4, d0, d255⟩ := h3 s3
      rw [step_address_low s3 hn hv']
      have hw : wrap32 (s.bytes - 1) = s.bytes - 1 := wrap32_of_range (by omega)
      simp only [hw]
      by_cases hb : s.bytes - 1 = 0
      · simp only [if_pos hb, addressDone]
        by_cases hd : s.data_bytes = 0
        · simp only [hd, ne_eq, not_true_eq_false, if_false]
          refine ⟨⟨hr, Or.inl rfl, by simp [SREC_CHKSUM], by simp [SREC_CHKSUM],
            by simp [SREC_CHKSUM], fun _ => rfl⟩, by trivial, by trivial, fun _ => ?_,
            fun h => absurd h s6⟩
          simp [fieldsLeft, SREC_CHKSUM, HI, LO, s3, hn, hd]
          omega
        · simp only [ne_eq, hd, not_false_eq_true, if_true]
          refine ⟨⟨hr, Or.inl rfl, by simp [SREC_DATA], by simp [SREC_DATA],
            fun _ => ⟨by simp only []; omega, by simp only []; omega⟩, by simp [SREC_DATA]⟩,
            by trivial, by trivial, fun _ => ?_, fun h => absurd h s6⟩
          simp [fieldsLeft, SREC_DATA, HI, LO, s3, hn]
          omega
      · simp only [if_neg hb]
        refine ⟨⟨hr, Or.inl rfl, by simp [s3],
          fun _ => ⟨by simp only []; omega, by simp only []; omega, d0, d255⟩,
          by simp [s3], by simp [s3]⟩, by trivial, by trivial, fun _ => ?_,
          fun h => absurd h s6⟩
        simp [fieldsLeft, HI, LO, s3, hn]
        omega
    by_cases s4 : s.state = 4
    · obtain ⟨b1, b255⟩ := h4 s4
      rw [step_data_low s4 hn hv']
      have hw : wrap32 (s.bytes - 1) = s.bytes - 1 := wrap32_of_range (by omega)
      simp only [hw]
      have hr' : running (writeData rom_size
          { s with
            out := trace v (trace v s.out [Out.echo c])
              [Out.data (wrap32 (wrap32 (s.byte_value * 16) + hexvalue c))]
            nibble_value := hexvalue c
            nibble := HI
            byte_value := wrap32 (wrap32 (s.byte_value * 16) + hexvalue c)
            checksum := wrap32 (s.checksum + wrap32 (wrap32 (s.byte_value * 16) + hexvalue c)) })
          := by
        unfold running; simp only [writeData_processing, writeData_exited]; exact hr
      by_cases hb : s.bytes - 1 = 0
      · simp only [if_pos hb]
        refine ⟨⟨hr', by simp, by simp [SREC_CHKSUM], by simp [SREC_CHKSUM],
          by simp [SREC_CHKSUM], fun _ => rfl⟩, by simp, by simp, fun _ => ?_,
          fun h => absurd h s6⟩
        simp [fieldsLeft, SREC_CHKSUM, HI, LO, s4, hn]
        omega
      · simp only [if_neg hb]
        refine ⟨⟨hr', by simp, by simp [s4], by simp [s4],
          fun _ => ⟨by simp only []; omega, by simp only []; omega⟩, by simp [s4]⟩,
          by simp, by simp, fun _ => ?_, fun h => absurd h s6⟩
        simp [fieldsLeft, HI, LO, s4, hn]
        omega
    · have s5 : s.state = 5 := by omega
      rw [step_chksum_low s5 hn hv' (h5 s5)]
      refine ⟨⟨hr, Or.inl rfl, by simp [SREC_ENDOFLINE], by simp [SREC_ENDOFLINE],
        by simp [SREC_ENDOFLINE], by simp [SREC_ENDOFLINE]⟩, rfl, rfl, fun _ => ?_,
        fun h => absurd h s6⟩
      simp [fieldsLeft, SREC_ENDOFLINE, HI, LO, s5, hn]

theorem fieldsLeft_nonneg {s : Machine} (hs : inFields s) :
    0 ≤ fieldsLeft s ∧ (fieldsLeft s ≤ 0 → s.state = 6) := by
  obtain ⟨-, hn, hst, h3, h4, h5⟩ := hs
  unfold fieldsLeft
  split_ifs with a b c d e f g <;> omega

/-- Hexadecimal digits, at least as many as the fields of the record still
need, bring the decoder to the end-of-line state without an error; the digits
beyond the checksum are passed over. -/
theorem decodeLoop_in_fields (rom_size v : Int) (h : List Nat) :
    ∀ s : Machine, inFields s → (∀ c ∈ h, isHexDigit (c : Int)) →
      fieldsLeft s ≤ (h.length : Int) →
      (decodeLoop rom_size v s h).state = 6 ∧ running (decodeLoop rom_size v s h) ∧
      (decodeLoop rom_size v s h).records = s.records ∧
      (decodeLoop rom_size v s h).error = s.error := by
  induction h with
  | nil =>
    intro s hs _ hl
    exact ⟨(fieldsLeft_nonneg hs).2 (by simpa using hl), hs.1, rfl, rfl⟩
  | cons c cs ih =>
    intro s hs hc hl
    rw [decodeLoop_cons_running hs.1]
    obtain ⟨k1, k2, k3, k4, k5⟩ :=
      step_in_fields rom_size v hs (hc c (List.mem_cons_self _ _))
    have hc' : ∀ x ∈ cs, isHexDigit (x : Int) := fun x hx => hc x (List.mem_cons_of_mem _ hx)
    by_cases s6 : s.state = 6
    · rw [k5 s6]
      have h0 : fieldsLeft s = 0 := by
        unfold fieldsLeft
        have e3 : ¬ s.state = 3 := by omega
        have e4 : ¬ s.state = 4 := by omega
        have e5 : ¬ s.state = 5 := by omega
        have e : ¬ (s.nibble = LO ∧ 3 ≤ s.state ∧ s.state ≤ 5) := by omega
        simp only [if_neg e3, if_neg e4, if_neg e5, if_neg e]
        rfl
      exact ih s hs hc' (by rw [h0]; exact Int.natCast_nonneg _)
    · have hl' : fieldsLeft (step rom_size v s c) ≤ (cs.length : Int) := by
        rw [k4 s6]
        simp only [List.length_cons, Nat.cast_add, Nat.cast_one] at hl
        omega
      obtain ⟨r1, r2, r3, r4⟩ := ih _ k1 hc' hl'
      exact ⟨r1, r2, r3.trans k2, r4.trans k3⟩

/-- The two digits of a byte count, in either case, of a record whose byte count
covers its address field and checksum: the decoder enters the fields with
positive counters and needs no more digits than the byte count gives. -/
theorem decode_byteCount_chars (rom_size v : Int) {s : Machine} (hs : s.state = 2)
    (hn : s.nibble = HI) (hr : running s) (hb : s.bytes = 1) {c1 c2 w : Nat}
    (h1 : isHexDigit (c1 : Int)) (h2 : isHexDigit (c2 : Int))
    (hw : addrWidth s.type = some (w : Int)) (hw4 : w ≤ 4)
    (hbc : (w : Int) + 1 ≤ 16 * specHexValue (c1 : Int) + specHexValue (c2 : Int))
    (hbc2 : w ≠ 0 ∨ 2 ≤ 16 * specHexValue (c1 : Int) + specHexValue (c2 : Int))
    (rest : List Nat) :
    ∃ s', decodeLoop rom_size v s (c1 :: c2 :: rest) = decodeLoop rom_size v s' rest ∧
      inFields s' ∧
      fieldsLeft s' ≤ 2 * (16 * specHexValue (c1 : Int) + specHexValue (c2 : Int)) ∧
      s'.records = s.records ∧ s'.error = s.error ∧ s'.type = s.type ∧ sameFile s s' := by
  obtain ⟨a1, a2, a3, a4⟩ := hexvalue_le_spec h1
  obtain ⟨b1, b2, b3, b4⟩ := hexvalue_le_spec h2
  have e1 := step_high rom_size v (s := s) (c := (c1 : Int)) (by omega) hn a1
  have hr1 : running (step rom_size v s (c1 : Int)) := by rw [e1]; exact hr
  have e2 := @step_byteCount_low rom_size v
    { s with
      out := trace v s.out [Out.echo (c1 : Int)]
      nibble_value := hexvalue (c1 : Int)
      nibble := LO
      byte_value := hexvalue (c1 : Int) } (c2 : Int) (w : Int)
    (by exact hs) rfl b1 (by exact hb) (by exact hw)
  have hbv : wrap32 (wrap32 (hexvalue (c1 : Int) * 16) + hexvalue (c2 : Int))
      = hexvalue (c1 : Int) * 16 + hexvalue (c2 : Int) := by
    rw [wrap32_of_range (x := hexvalue (c1 : Int) * 16) (by omega), wrap32_of_range (by omega)]
  have hd : wrap32 (wrap32 (hexvalue (c1 : Int) * 16 + hexvalue (c2 : Int) - (w : Int)) - 1)
      = hexvalue (c1 : Int) * 16 + hexvalue (c2 : Int) - (w : Int) - 1 := by
    rw [wrap32_of_range (x := hexvalue (c1 : Int) * 16 + hexvalue (c2 : Int) - (w : Int))
      (by omega), wrap32_of_range (by omega)]
  simp only [hbv, hd] at e2
  have key := (@decodeLoop_cons_running rom_size v s hr c1 (c2 :: rest)).trans
    (decodeLoop_cons_running hr1 c2 rest)
  rw [e1, e2] at key
  refine ⟨_, key, ?_⟩
  · by_cases hw0 : w = 0
    · subst hw0
      have hbc2' : 2 ≤ 16 * specHexValue (c1 : Int) + specHexValue (c2 : Int) := by
        rcases hbc2 with h | h
        · exact absurd rfl h
        · exact h
      refine ⟨⟨hr, Or.inl rfl, by simp [SREC_DATA], by simp [SREC_DATA], ?_,
        by simp [SREC_DATA]⟩, ?_, rfl, rfl, rfl, ⟨rfl, rfl, rfl, rfl⟩⟩
      · intro _; simp; omega
      · simp [fieldsLeft, SREC_DATA, HI, LO]; omega
    · have hwi : (w : Int) ≠ 0 := by exact_mod_cast hw0
      refine ⟨⟨hr, Or.inl rfl, by simp [SREC_ADDRESS, hwi], ?_, by simp [SREC_ADDRESS, hwi],
        by simp [SREC_ADDRESS, hwi]⟩, ?_, rfl, rfl, rfl, ⟨rfl, rfl, rfl, rfl⟩⟩
      · intro _; simp [hwi]; omega
      · simp [fieldsLeft, SREC_ADDRESS, HI, LO, hwi]; omega

/-- In the end-of-line state every character but the newline is passed over. -/
theorem decodeLoop_skip_junk (rom_size v : Int) (g rest : List Nat) (s : Machine)
    (hs : s.state = 6) (hg : 10 ∉ g) :
    decodeLoop rom_size v s (g ++ rest) = decodeLoop rom_size v s rest := by
  induction g with
  | nil => rfl
  | cons c g ih =>
    by_cases hr : running s
    · have hc : (c : Int) ≠ 10 := by
        intro h; apply hg; simp; left; exact_mod_cast h.symm
      have e : step rom_size v s (c : Int) = s := by
        rw [step_endOfLine hs]; simp only [stepEndOfLine]; rw [if_neg hc]
      rw [List.cons_append, decodeLoop_cons_running hr, e]
      exact ih (fun h => hg (List.mem_cons_of_mem _ h))
    · rw [decodeLoop_stopped hr, decodeLoop_stopped hr]

/-- At the start of a line the four blanks are passed over. -/
theorem decodeLoop_skip_blanks (rom_size v : Int) (w rest : List Nat) (s : Machine)
    (hs : s.state = 0) (hw : ∀ c ∈ w, c = 32 ∨ c = 9 ∨ c = 13 ∨ c = 10) :
    decodeLoop rom_size v s (w ++ rest) = decodeLoop rom_size v s rest := by
  induction w with
  | nil => rfl
  | cons c w ih =>
    by_cases hr : running s
    · have hc : (c : Int) = 10 ∨ (c : Int) = 13 ∨ (c : Int) = 32 ∨ (c : Int) = 9 := by
        have := hw c (List.mem_cons_self _ _); omega
      have e : step rom_size v s (c : Int) = s := by
        rw [step_newline hs]; simp only [stepNewline]; rw [if_pos hc]
      rw [List.cons_append, decodeLoop_cons_running hr, e]
      exact ih (fun x hx => hw x (List.mem_cons_of_mem _ hx))
    · rw [decodeLoop_stopped hr, decodeLoop_stopped hr]

/-- A well-formed record line, with characters other than the newline put
before its newline or not, and started by `S` or by `s`: the decoder is back at
the start of a line, in one and the same state whatever was put in, with one
more record counted and no error. -/
theorem decode_padded_line (rom_size v : Int) (r : RecordLine) (hw : wellFormedLine r)
    {s : Machine} (hs : s.state = 0) (hr : running s) :
    ∃ s', (∀ (c0 : Nat) (g rest : List Nat), (c0 = 83 ∨ c0 = 115) → 10 ∉ g →
        decodeLoop rom_size v s (c0 :: (48 + r.type) :: (r.hex ++ (g ++ 10 :: rest)))
          = decodeLoop rom_size v s' rest) ∧
      s'.state = 0 ∧ running s' ∧ s'.records = wrap32 (s.records + 1) ∧
      s'.error = s.error := by
  obtain ⟨-, ht, hhex, hlen, hbc, hbc2⟩ := hw
  obtain ⟨hwd, hw4⟩ := addrWidth_supported ht
  match hh : r.hex, hlen, hhex, hbc, hbc2 with
  | [], hlen, _, _, _ => simp [byteCountOf] at hlen
  | [_], hlen, _, _, _ => simp [byteCountOf] at hlen
  | c1 :: c2 :: body, hlen, hhex, hbc, hbc2 =>
    have h1 : isHexDigit (c1 : Int) := hhex c1 (by simp)
    have h2 : isHexDigit (c2 : Int) := hhex c2 (by simp)
    obtain ⟨-, -, a3, -⟩ := hexvalue_le_spec h1
    obtain ⟨-, -, b3, -⟩ := hexvalue_le_spec h2
    have a0 : 0 ≤ specHexValue (c1 : Int) := le_trans (hexvalue_le_spec h1).1 (hexvalue_le_spec h1).2.1
    have b0 : 0 ≤ specHexValue (c2 : Int) := le_trans (hexvalue_le_spec h2).1 (hexvalue_le_spec h2).2.1
    have hcount : ((byteCountOf (c1 :: c2 :: body) : Nat) : Int)
        = 16 * specHexValue (c1 : Int) + specHexValue (c2 : Int) := by
      simp only [byteCountOf]; omega
    have hlen' : (body.length : Int) = 2 * (16 * specHexValue (c1 : Int) + specHexValue (c2 : Int)) := by
      simp only [List.length_cons] at hlen; omega
    obtain ⟨s1, e1, k1, k2, k3, k4, -, -⟩ :=
      decode_byteCount_chars rom_size v
        (s := { s with
          type := (r.type : Int)
          out := trace v s.out [Out.recordType (r.type : Int)]
          state := SREC_BYTECOUNT
          nibble := HI
          bytes := 1
          value := 0
          checksum := 0 })
        rfl rfl hr rfl h1 h2 hwd hw4 (by omega) (by omega) []
    have hb : ∀ c ∈ body, isHexDigit (c : Int) := fun c hc => hhex c (by simp [hc])
    obtain ⟨f1, f2, f3, f4⟩ := decodeLoop_in_fields rom_size v body s1 k1 hb (by omega)
    obtain ⟨s2, n1, n2, n3, -, -, -, -, n4, -, n5, -⟩ := decode_newline rom_size v f1 f2 []
    rw [decodeLoop_nil] at n1
    refine ⟨s2, fun c0 g rest hc0 hg => ?_, n2, n5, ?_, ?_⟩
    · rw [decode_start rom_size v hs hr hc0 ht]
      rw [decodeLoop_nil] at e1
      have e2 : c1 :: c2 :: body ++ (g ++ 10 :: rest) = [c1, c2] ++ (body ++ (g ++ 10 :: rest)) :=
        rfl
      have e3 : (10 : Nat) :: rest = [10] ++ rest := rfl
      rw [e2, decodeLoop_append, e1, decodeLoop_append,
        decodeLoop_skip_junk rom_size v g _ _ f1 hg, e3, decodeLoop_append, n1]
    · rw [n3, f3, k3]
    · rw [n4, f4, k4]

theorem wrap32_succ (x : Int) (k : Nat) :
    wrap32 (wrap32 (x + 1) + (k : Int)) = wrap32 (x + ((k + 1 : Nat) : Int)) := by
  unfold wrap32; push_cast; omega

/-- A file of well-formed records: every record is counted, no error is raised,
and the decoder is at the start of a line. -/
theorem decode_plainFile (rom_size v : Int) (rs : List RecordLine) :
    ∀ s : Machine, s.state = 0 → running s → (∀ r ∈ rs, wellFormedLine r) →
      (-2147483648 ≤ s.records ∧ s.records < 2147483648) →
      (decodeLoop rom_size v s (plainFile rs)).state = 0 ∧
      running (decodeLoop rom_size v s (plainFile rs)) ∧
      (decodeLoop rom_size v s (plainFile rs)).records = wrap32 (s.records + (rs.length : Int)) ∧
      (decodeLoop rom_size v s (plainFile rs)).error = s.error := by
  induction rs with
  | nil =>
    intro s hs hr _ hrec
    refine ⟨hs, hr, ?_, rfl⟩
    simp only [plainFile, decodeLoop_nil, List.length_nil, Nat.cast_zero, add_zero]
    exact (wrap32_of_range hrec).symm
  | cons r rs ih =>
    intro s hs hr hw hrec
    obtain ⟨s1, e, k1, k2, k3, k4⟩ :=
      decode_padded_line rom_size v r (hw r (List.mem_cons_self _ _)) hs hr
    have e1 := e r.start [] (plainFile rs) (hw r (List.mem_cons_self _ _)).1 (by simp)
    have e2 : plainFile (r :: rs)
        = r.start :: (48 + r.type) :: (r.hex ++ ([] ++ 10 :: plainFile rs)) := by
      simp [plainFile]
    rw [e2, e1]
    obtain ⟨i1, i2, i3, i4⟩ := ih s1 k1 k2 (fun x hx => hw x (List.mem_cons_of_mem _ hx))
      (by rw [k3]; exact wrap32_range _)
    refine ⟨i1, i2, ?_, i4.trans k4⟩
    rw [i3, k3, wrap32_succ]
    simp

/-- Padding around the records of a file of well-formed records is passed
over. -/
theorem decode_paddedFile (rom_size v : Int) (xs : List (RecordLine × Padding)) :
    ∀ (s : Machine) (rest : List Nat), s.state = 0 → running s →
      (∀ x ∈ xs, wellFormedLine x.1 ∧ allowedPadding x.2) →
      decodeLoop rom_size v s (paddedFile xs ++ rest)
        = decodeLoop rom_size v s (plainFile (xs.map Prod.fst) ++ rest) := by
  induction xs with
  | nil => intro s rest _ _ _; rfl
  | cons x xs ih =>
    intro s rest hs hr hw
    obtain ⟨hwf, hlead, hstart, hjunk⟩ := hw x (List.mem_cons_self _ _)
    obtain ⟨s1, e, k1, k2, -, -⟩ := decode_padded_line rom_size v x.1 hwf hs hr
    have ea : paddedFile (x :: xs) ++ rest
        = x.2.lead ++ (x.2.start :: (48 + x.1.type) ::
            (x.1.hex ++ (x.2.junk ++ 10 :: (paddedFile xs ++ rest)))) := by
      simp [paddedFile]
    have eb : plainFile ((x :: xs).map Prod.fst) ++ rest
        = x.1.start :: (48 + x.1.type) ::
            (x.1.hex ++ ([] ++ 10 :: (plainFile (xs.map Prod.fst) ++ rest))) := by
      simp [plainFile]
    rw [ea, eb, decodeLoop_skip_blanks rom_size v _ _ s hs hlead, e _ _ _ hstart hjunk,
      e _ _ _ hwf.1 (by simp)]
    exact ih s1 rest k1 k2 (fun y hy => hw y (List.mem_cons_of_mem _ hy))

/-! ## The record counter and the loop flag -/

theorem step_records (rom_size v : Int) (s : Machine) (c : Int) :
    (step rom_size v s c).records
      = if s.state = SREC_ENDOFLINE ∧ c = 10 then wrap32 (s.records + 1) else s.records := by
  by_cases s6 : s.state = 6
  · rw [step_endOfLine s6]; simp only [stepEndOfLine, SREC_ENDOFLINE]
    split_ifs <;> simp_all
  have hne : ¬ (s.state = SREC_ENDOFLINE ∧ c = 10) := fun h => s6 h.1
  rw [if_neg hne]
  by_cases s0 : s.state = 0
  · rw [step_newline s0]; unfold stepNewline fail; split_ifs <;> rfl
  by_cases s1 : s.state = 1
  · rw [step_recordType s1]; unfold stepRecordType fail; split_ifs <;> rfl
  by_cases s2 : s.state = 2
  · rw [step_byteCount s2]; simp only [stepByteCount, byteCountDone, fail]
    split_ifs <;> (try split) <;> rfl
  by_cases s3 : s.state = 3
  · rw [step_address s3]; simp only [stepAddress, addressDone, fail]
    split_ifs <;> rfl
  by_cases s4 : s.state = 4
  · rw [step_data s4]; simp only [stepData, fail]
    split_ifs <;> simp
  by_cases s5 : s.state = 5
  · rw [step_chksum s5]; simp only [stepChksum, fail]
    split_ifs <;> rfl
  · rw [step_undefined (by omega)]

theorem step_processing (rom_size v : Int) (s : Machine) (c : Int) :
    (step rom_size v s c).processing = s.processing ∨ (step rom_size v s c).processing = 0 := by
  by_cases s0 : s.state = 0
  · rw [step_newline s0]; unfold stepNewline fail; split_ifs <;> simp [FALSE]
  by_cases s1 : s.state = 1
  · rw [step_recordType s1]; unfold stepRecordType fail; split_ifs <;> simp [FALSE]
  by_cases s2 : s.state = 2
  · rw [step_byteCount s2]; simp only [stepByteCount, byteCountDone, fail]
    split_ifs <;> (try split) <;> simp [FALSE, fail]
  by_cases s3 : s.state = 3
  · rw [step_address s3]; simp only [stepAddress, addressDone, fail]
    split_ifs <;> simp [FALSE]
  by_cases s4 : s.state = 4
  · rw [step_data s4]; simp only [stepData, fail]
    split_ifs <;> simp [FALSE]
  by_cases s5 : s.state = 5
  · rw [step_chksum s5]; simp only [stepChksum, fail]
    split_ifs <;> simp [FALSE]
  by_cases s6 : s.state = 6
  · rw [step_endOfLine s6]; simp only [stepEndOfLine]
    split_ifs <;> simp
  · rw [step_undefined (by omega)]; simp

/-- The loop flag is only ever cleared. -/
theorem decodeLoop_processing (rom_size v : Int) (cs : List Nat) :
    ∀ s : Machine, (decodeLoop rom_size v s cs).processing = s.processing ∨
      (decodeLoop rom_size v s cs).processing = 0 := by
  induction cs with
  | nil => intro s; exact Or.inl rfl
  | cons c cs ih =>
    intro s
    by_cases hr : running s
    · rw [decodeLoop_cons_running hr]
      rcases ih (step rom_size v s (c : Int)) with h | h
      · rcases step_processing rom_size v s (c : Int) with h' | h'
        · exact Or.inl (h.trans h')
        · exact Or.inr (h.trans h')
      · exact Or.inr h
    · rw [decodeLoop_stopped hr]; exact Or.inl rfl

theorem processFile_fields (rom_size v : Int) (m : Machine) (file : List Nat) :
    (processFile rom_size v m file).records
      = (decodeLoop rom_size v (resetForFile m) file).records ∧
    (processFile rom_size v m file).error
      = (decodeLoop rom_size v (resetForFile m) file).error ∧
    (processFile rom_size v m file).processing
      = (decodeLoop rom_size v (resetForFile m) file).processing ∧
    (processFile rom_size v m file).bin = (decodeLoop rom_size v (resetForFile m) file).bin ∧
    (processFile rom_size v m file).min_rom_size
      = (decodeLoop rom_size v (resetForFile m) file).min_rom_size := by
  simp only [processFile]
  split_ifs <;> exact ⟨rfl, rfl, rfl, rfl, rfl⟩

/-! ## Insignificant characters -/

/-- C14: in a file of well-formed records, each closed by a newline, blanks
(space, tab, carriage return, newline) put before a record or after the last
one, characters other than the newline put between a record's checksum digits
and its newline, and `s` for `S` (or `S` for `s`) at the start of a record,
change nothing: the decoder ends in the same state, with the same image,
high-water mark, record count and error flag. -/
theorem padding_is_insignificant (rom_size v : Int) (m : Machine)
    (xs : List (RecordLine × Padding)) (tail : List Nat)
    (hw : ∀ x ∈ xs, wellFormedLine x.1 ∧ allowedPadding x.2)
    (ht : ∀ c ∈ tail, c = 32 ∨ c = 9 ∨ c = 13 ∨ c = 10) :
    (processFile rom_size v m (paddedFile xs ++ tail)).bin
      = (processFile rom_size v m (plainFile (xs.map Prod.fst))).bin ∧
    (processFile rom_size v m (paddedFile xs ++ tail)).min_rom_size
      = (processFile rom_size v m (plainFile (xs.map Prod.fst))).min_rom_size ∧
    (processFile rom_size v m (paddedFile xs ++ tail)).records
      = (processFile rom_size v m (plainFile (xs.map Prod.fst))).records ∧
    (processFile rom_size v m (paddedFile xs ++ tail)).error
      = (processFile rom_size v m (plainFile (xs.map Prod.fst))).error ∧
    processFile rom_size v m (paddedFile xs ++ tail)
      = processFile rom_size v m (plainFile (xs.map Prod.fst)) := by
  have key : decodeLoop rom_size v (resetForFile m) (paddedFile xs ++ tail)
      = decodeLoop rom_size v (resetForFile m) (plainFile (xs.map Prod.fst)) := by
    by_cases hr : running (resetForFile m)
    · rw [decode_paddedFile rom_size v xs (resetForFile m) tail rfl hr hw, decodeLoop_append]
      have hwf : ∀ r ∈ xs.map Prod.fst, wellFormedLine r := by
        intro r hr'
        obtain ⟨x, hx, rfl⟩ := List.mem_map.mp hr'
        exact (hw x hx).1
      obtain ⟨d1, -, -, -⟩ := decode_plainFile rom_size v (xs.map Prod.fst) (resetForFile m)
        rfl hr hwf (by simp [resetForFile])
      have e := decodeLoop_skip_blanks rom_size v tail [] _ d1 ht
      rw [List.append_nil, decodeLoop_nil] at e
      exact e
    · rw [decodeLoop_stopped hr, decodeLoop_stopped hr]
  have e : processFile rom_size v m (paddedFile xs ++ tail)
      = processFile rom_size v m (plainFile (xs.map Prod.fst)) := by
    simp only [processFile, key]
  rw [e]
  exact ⟨rfl, rfl, rfl, rfl, rfl⟩

/-- C14 at a closed input: the record `S1060004AABBCCC4` with blanks before it,
started by `s`, with a remark before its newline and two newlines after it, on
an image of 16 bytes. -/
theorem padding_is_insignificant_witness :
    (processFile 16 1 (blankImage 16 255 zeroMachine) (paddedFile paddedRecords ++ [10, 10])).bin
      = (processFile 16 1 (blankImage 16 255 zeroMachine)
          (plainFile (paddedRecords.map Prod.fst))).bin ∧
    (processFile 16 1 (blankImage 16 255 zeroMachine)
        (paddedFile paddedRecords ++ [10, 10])).min_rom_size
      = (processFile 16 1 (blankImage 16 255 zeroMachine)
          (plainFile (paddedRecords.map Prod.fst))).min_rom_size ∧
    (processFile 16 1 (blankImage 16 255 zeroMachine)
        (paddedFile paddedRecords ++ [10, 10])).records
      = (processFile 16 1 (blankImage 16 255 zeroMachine)
          (plainFile (paddedRecords.map Prod.fst))).records ∧
    (processFile 16 1 (blankImage 16 255 zeroMachine)
        (paddedFile paddedRecords ++ [10, 10])).error
      = (processFile 16 1 (blankImage 16 255 zeroMachine)
          (plainFile (paddedRecords.map Prod.fst))).error ∧
    processFile 16 1 (blankImage 16 255 zeroMachine) (paddedFile paddedRecords ++ [10, 10])
      = processFile 16 1 (blankImage 16 255 zeroMachine)
          (plainFile (paddedRecords.map Prod.fst)) :=
  padding_is_insignificant 16 1 (blankImage 16 255 zeroMachine) paddedRecords [10, 10]
    (by decide) (by decide)

/-! ## The shape of a record -/

theorem hexvalue_le (c : Int) : hexvalue c ≤ 15 := by
  unfold hexvalue; split_ifs <;> omega

theorem addrWidth_range {t w : Int} (h : addrWidth t = some w) : 0 ≤ w ∧ w ≤ 4 := by
  unfold addrWidth at h
  split_ifs at h <;> simp at h <;> omega

theorem countStep_inv_start (rom_size v : Int) {x : Counted} {n : Nat} (c : Int)
    (h : shapeInv x n) (hs : x.m.state = 0 ∨ x.m.state = 1 ∨ ¬ (0 ≤ x.m.state ∧ x.m.state ≤ 6)) :
    shapeInv (countStep rom_size v x c) (n + 1) := by
  obtain ⟨hn, -, -, -, -⟩ := h
  rcases hs with s0 | s1 | su
  · have e : (step rom_size v x.m c).state = 0 ∨ (step rom_size v x.m c).state = 1 := by
      rw [step_newline s0]; unfold stepNewline fail
      split_ifs <;> simp [SREC_RECORDTYPE, s0]
    have hd : (countStep rom_size v x c).dataSeen ≤ n + 1 := by
      simp [countStep, s0, SREC_RECORDTYPE, SREC_DATA]; omega
    refine ⟨hd, ?_, ?_, ?_, ?_⟩ <;> intro h' <;> simp only [countStep] at h' <;> omega
  · have hd : (countStep rom_size v x c).dataSeen ≤ n + 1 := by
      simp [countStep, s1, SREC_RECORDTYPE]
    have ha : (countStep rom_size v x c).addrSeen = 0 := by
      simp [countStep, s1, SREC_RECORDTYPE]
    have hd0 : (countStep rom_size v x c).dataSeen = 0 := by
      simp [countStep, s1, SREC_RECORDTYPE]
    have e : ((step rom_size v x.m c).state = 1) ∨
        ((step rom_size v x.m c).state = 2 ∧ addrWidth (step rom_size v x.m c).type ≠ none ∧
          (step rom_size v x.m c).nibble = HI ∧ (step rom_size v x.m c).bytes = 1) := by
      rw [step_recordType s1]; simp only [stepRecordType, fail]
      split_ifs with hc
      · right
        refine ⟨rfl, ?_, rfl, rfl⟩
        rcases hc with h | h | h | h | h | h | h | h <;> simp [h, addrWidth]
      · left; exact s1
    refine ⟨hd, ?_, ?_, ?_, ?_⟩
    · intro h'
      rcases e with e | ⟨-, e2, e3, e4⟩
      · simp only [countStep] at h'; omega
      · exact ⟨e2, ha, hd0, e4, fun hne => absurd e3 hne⟩
    all_goals
      intro h'
      simp only [countStep] at h'
      rcases e with e | ⟨e, -, -, -⟩ <;> omega
  · have e : (step rom_size v x.m c).state = x.m.state := by
      rw [step_undefined su]
    have hd : (countStep rom_size v x c).dataSeen ≤ n + 1 := by
      have e1 : ¬ x.m.state = SREC_RECORDTYPE := by simp only [SREC_RECORDTYPE]; omega
      have e4 : ¬ (x.m.state = SREC_DATA ∧ x.m.nibble = LO ∧ hexvalue c ≥ 0) := by
        simp only [SREC_DATA]; omega
      simp only [countStep, if_neg e1, if_neg e4]; omega
    refine ⟨hd, ?_, ?_, ?_, ?_⟩ <;> intro h' <;> simp only [countStep] at h' <;> omega

/-- A step that leaves the state and the variables of the record alone, and
consumes no byte, keeps the shape. -/
theorem shapeInv_same {x y : Counted} {n : Nat} (h : shapeInv x n)
    (e1 : y.m.state = x.m.state) (e2 : y.m.type = x.m.type) (e3 : y.m.bytes = x.m.bytes)
    (e4 : y.m.byte_count = x.m.byte_count) (e5 : y.m.addr_bytes = x.m.addr_bytes)
    (e6 : y.m.data_bytes = x.m.data_bytes) (e7 : y.addrSeen = x.addrSeen)
    (e8 : y.dataSeen = x.dataSeen)
    (e9 : x.m.state = 2 → y.m.nibble ≠ HI → 0 ≤ y.m.byte_value ∧ y.m.byte_value ≤ 15) :
    shapeInv y (n + 1) := by
  obtain ⟨hn, h2, h3, h4, h56⟩ := h
  unfold shapeInv
  rw [e1, e2, e3, e4, e5, e6, e7, e8]
  refine ⟨by omega, fun s2 => ?_, h3, h4, h56⟩
  obtain ⟨a1, a2, a3, a4, -⟩ := h2 s2
  exact ⟨a1, a2, a3, a4, e9 s2⟩

/-- A character that a hexadecimal field refuses. -/
theorem step_hex_refused (rom_size v : Int) {s : Machine} {c : Int}
    (hs : 2 ≤ s.state ∧ s.state ≤ 5)
    (h : ¬ hexvalue c ≥ 0 ∨ (s.nibble ≠ HI ∧ s.nibble ≠ LO)) :
    step rom_size v s c
      = { s with
          out := trace v s.out [Out.echo c]
          nibble_value := hexvalue c
          processing := FALSE
          error := TRUE } := by
  by_cases s2 : s.state = 2
  · rw [step_byteCount s2]; simp only [stepByteCount, fail]
    rcases h with h | ⟨h1, h2⟩
    · rw [if_neg h]
    · rw [if_neg h1, if_neg h2]; split_ifs <;> rfl
  by_cases s3 : s.state = 3
  · rw [step_address s3]; simp only [stepAddress, fail]
    rcases h with h | ⟨h1, h2⟩
    · rw [if_neg h]
    · rw [if_neg h1, if_neg h2]; split_ifs <;> rfl
  by_cases s4 : s.state = 4
  · rw [step_data s4]; simp only [stepData, fail]
    rcases h with h | ⟨h1, h2⟩
    · rw [if_neg h]
    · rw [if_neg h1, if_neg h2]; split_ifs <;> rfl
  · have s5 : s.state = 5 := by omega
    rw [step_chksum s5]; simp only [stepChksum, fail]
    rcases h with h | ⟨h1, h2⟩
    · rw [if_neg h]
    · rw [if_neg h1, if_neg h2]; split_ifs <;> rfl

theorem countStep_inv_refused (rom_size v : Int) {x : Counted} {n : Nat} {c : Int}
    (h : shapeInv x n) (hs : 2 ≤ x.m.state ∧ x.m.state ≤ 5)
    (hc : ¬ hexvalue c ≥ 0 ∨ (x.m.nibble ≠ HI ∧ x.m.nibble ≠ LO)) :
    shapeInv (countStep rom_size v x c) (n + 1) := by
  have e := step_hex_refused rom_size v hs hc
  have e1 : ¬ x.m.state = SREC_RECORDTYPE := by simp only [SREC_RECORDTYPE]; omega
  have e3 : ¬ (x.m.state = SREC_ADDRESS ∧ x.m.nibble = LO ∧ hexvalue c ≥ 0) := by
    rintro ⟨-, k1, k2⟩
    rcases hc with hc | hc
    · exact hc k2
    · exact hc.2 k1
  have e4 : ¬ (x.m.state = SREC_DATA ∧ x.m.nibble = LO ∧ hexvalue c ≥ 0) := by
    rintro ⟨-, k1, k2⟩
    rcases hc with hc | hc
    · exact hc k2
    · exact hc.2 k1
  have hm : (countStep rom_size v x c).m = step rom_size v x.m c := rfl
  refine shapeInv_same h ?_ ?_ ?_ ?_ ?_ ?_ ?_ ?_ ?_
  · rw [hm, e]
  · rw [hm, e]
  · rw [hm, e]
  · rw [hm, e]
  · rw [hm, e]
  · rw [hm, e]
  · simp only [countStep, if_neg e1, if_neg e3]
  · simp only [countStep, if_neg e1, if_neg e4]
  · intro s2
    rw [hm, e]
    exact (h.2.1 s2).2.2.2.2

theorem countStep_inv_high (rom_size v : Int) {x : Counted} {n : Nat} {c : Int}
    (h : shapeInv x n) (hs : 2 ≤ x.m.state ∧ x.m.state ≤ 5) (hc : hexvalue c ≥ 0)
    (hn : x.m.nibble = HI) : shapeInv (countStep rom_size v x c) (n + 1) := by
  have e := step_high rom_size v hs hn hc
  have hl : ¬ x.m.nibble = LO := by rw [hn]; decide
  have e1 : ¬ x.m.state = SREC_RECORDTYPE := by simp only [SREC_RECORDTYPE]; omega
  have e3 : ¬ (x.m.state = SREC_ADDRESS ∧ x.m.nibble = LO ∧ hexvalue c ≥ 0) :=
    fun k => hl k.2.1
  have e4 : ¬ (x.m.state = SREC_DATA ∧ x.m.nibble = LO ∧ hexvalue c ≥ 0) :=
    fun k => hl k.2.1
  have hm : (countStep rom_size v x c).m = step rom_size v x.m c := rfl
  refine shapeInv_same h ?_ ?_ ?_ ?_ ?_ ?_ ?_ ?_ ?_
  · rw [hm, e]
  · rw [hm, e]
  · rw [hm, e]
  · rw [hm, e]
  · rw [hm, e]
  · rw [hm, e]
  · simp only [countStep, if_neg e1, if_neg e3]
  · simp only [countStep, if_neg e1, if_neg e4]
  · intro _ _
    rw [hm, e]
    exact ⟨hc, hexvalue_le c⟩

@[simp]
theorem writeData_byte_count (rom_size : Int) (s : Machine) :
    (writeData rom_size s).byte_count = s.byte_count := by
  simp only [writeData]; split_ifs <;> rfl

theorem countStep_inv_byteCount (rom_size v : Int) {x : Counted} {n : Nat} {c : Int}
    (h : shapeInv x n) (hs : x.m.state = 2) (hc : hexvalue c ≥ 0) (hn : x.m.nibble = LO) :
    shapeInv (countStep rom_size v x c) (n + 1) := by
  obtain ⟨hd, h2, -, -, -⟩ := h
  obtain ⟨a1, a2, a3, a4, a5⟩ := h2 hs
  obtain ⟨w, hw⟩ := Option.ne_none_iff_exists'.mp a1
  obtain ⟨w0, w4⟩ := addrWidth_range hw
  obtain ⟨v0, v15⟩ := a5 (by rw [hn]; decide)
  have hc15 := hexvalue_le c
  have hbv : wrap32 (wrap32 (x.m.byte_value * 16) + hexvalue c)
      = x.m.byte_value * 16 + hexvalue c := by
    rw [wrap32_of_range (x := x.m.byte_value * 16) (by omega), wrap32_of_range (by omega)]
  have hdb : wrap32 (wrap32 (x.m.byte_value * 16 + hexvalue c - w) - 1)
      = x.m.byte_value * 16 + hexvalue c - w - 1 := by
    rw [wrap32_of_range (x := x.m.byte_value * 16 + hexvalue c - w) (by omega),
      wrap32_of_range (by omega)]
  have e := @step_byteCount_low rom_size v x.m c w hs hn hc a4 hw
  simp only [hbv, hdb] at e
  have hm : (countStep rom_size v x c).m = step rom_size v x.m c := rfl
  have ha : (countStep rom_size v x c).addrSeen = 0 := by
    simp [countStep, hs, SREC_RECORDTYPE, SREC_ADDRESS, a2]
  have hd0 : (countStep rom_size v x c).dataSeen = 0 := by
    simp [countStep, hs, SREC_RECORDTYPE, SREC_DATA, a3]
  unfold shapeInv
  rw [hm, e, ha, hd0]
  by_cases hw0 : w = 0
  · subst hw0
    simp [SREC_DATA, hw]
    omega
  · simp [SREC_ADDRESS, hw0, hw]
    omega

theorem countStep_inv_address (rom_size v : Int) {x : Counted} {n : Nat} {c : Int}
    (h : shapeInv x n) (hs : x.m.state = 3) (hc : hexvalue c ≥ 0) (hn : x.m.nibble = LO) :
    shapeInv (countStep rom_size v x c) (n + 1) := by
  obtain ⟨hd, -, h3, -, -⟩ := h
  obtain ⟨b1, b2, b3, b4, b5, b6⟩ := h3 hs
  obtain ⟨w0, w4⟩ := addrWidth_range b1
  have hwb : wrap32 (x.m.bytes - 1) = x.m.bytes - 1 := wrap32_of_range (by omega)
  have e := @step_address_low rom_size v x.m c hs hn hc
  simp only [hwb] at e
  have hm : (countStep rom_size v x c).m = step rom_size v x.m c := rfl
  have ha : (countStep rom_size v x c).addrSeen = x.addrSeen + 1 := by
    simp [countStep, hs, SREC_RECORDTYPE, SREC_ADDRESS, hn, hc]
  have hd0 : (countStep rom_size v x c).dataSeen = 0 := by
    simp [countStep, hs, SREC_RECORDTYPE, SREC_DATA, b6]
  unfold shapeInv
  rw [hm, e, ha, hd0]
  by_cases hb : x.m.bytes - 1 = 0
  · have hab : x.m.addr_bytes = ((x.addrSeen + 1 : Nat) : Int) := by push_cast; omega
    by_cases hdz : x.m.data_bytes = 0
    · simp [hb, addressDone, hdz, SREC_CHKSUM, b1, hab]
      omega
    · simp [hb, addressDone, hdz, SREC_DATA, b1, hab]
      omega
  · simp [hb, hs, b1]
    omega

theorem countStep_inv_data (rom_size v : Int) {x : Counted} {n : Nat} {c : Int}
    (h : shapeInv x n) (hs : x.m.state = 4) (hc : hexvalue c ≥ 0) (hn : x.m.nibble = LO)
    (hlen : n + 1 < 2147483648) : shapeInv (countStep rom_size v x c) (n + 1) := by
  obtain ⟨hd, -, -, h4, -⟩ := h
  obtain ⟨c1, c2, c3, c4⟩ := h4 hs
  obtain ⟨w0, w4⟩ := addrWidth_range c1
  have e := @step_data_low rom_size v x.m c hs hn hc
  have hm : (countStep rom_size v x c).m = step rom_size v x.m c := rfl
  have ha : (countStep rom_size v x c).addrSeen = x.addrSeen := by
    simp [countStep, hs, SREC_RECORDTYPE, SREC_ADDRESS]
  have hd1 : (countStep rom_size v x c).dataSeen = x.dataSeen + 1 := by
    simp [countStep, hs, SREC_RECORDTYPE, SREC_DATA, hn, hc]
  have hr := wrap32_range (x.m.bytes - 1)
  unfold shapeInv
  rw [hm, e, ha, hd1]
  by_cases hb : wrap32 (x.m.bytes - 1) = 0
  · have hb1 : x.m.bytes = 1 := by unfold wrap32 at hb; omega
    simp [hb, SREC_CHKSUM, c1]
    omega
  · simp [hb, hs, c1]
    refine ⟨by omega, by omega, hr, ?_⟩
    unfold wrap32
    omega

theorem countStep_inv_chksum (rom_size v : Int) {x : Counted} {n : Nat} {c : Int}
    (h : shapeInv x n) (hs : x.m.state = 5 ∨ x.m.state = 6) :
    shapeInv (countStep rom_size v x c) (n + 1) := by
  obtain ⟨hd, -, -, -, h56⟩ := h
  obtain ⟨d1, d2⟩ := h56 hs
  have hm : (countStep rom_size v x c).m = step rom_size v x.m c := rfl
  have ha : (countStep rom_size v x c).addrSeen = x.addrSeen := by
    rcases hs with hs | hs <;> simp [countStep, hs, SREC_RECORDTYPE, SREC_ADDRESS]
  have hd1 : (countStep rom_size v x c).dataSeen = x.dataSeen := by
    rcases hs with hs | hs <;> simp [countStep, hs, SREC_RECORDTYPE, SREC_DATA]
  have key : ((step rom_size v x.m c).state = 5 ∨ (step rom_size v x.m c).state = 6 ∨
      (step rom_size v x.m c).state = 0) ∧ (step rom_size v x.m c).type = x.m.type ∧
      (step rom_size v x.m c).byte_count = x.m.byte_count := by
    rcases hs with hs | hs
    · rw [step_chksum hs]; simp only [stepChksum, fail]
      split_ifs <;> simp [SREC_ENDOFLINE, hs]
    · rw [step_endOfLine hs]; simp only [stepEndOfLine]
      split_ifs <;> simp [SREC_NEWLINE, hs]
  obtain ⟨k1, k2, k3⟩ := key
  unfold shapeInv
  rw [hm, ha, hd1, k2, k3]
  refine ⟨by omega, ?_, ?_, ?_, fun _ => ⟨d1, d2⟩⟩ <;> intro h' <;> omega

/-- Every iteration of the loop keeps the shape, while fewer than `2 ^ 31`
characters have been read. -/
theorem countStep_inv (rom_size v : Int) {x : Counted} {n : Nat} (c : Int)
    (h : shapeInv x n) (hlen : n + 1 < 2147483648) :
    shapeInv (countStep rom_size v x c) (n + 1) := by
  by_cases h01 : x.m.state = 0 ∨ x.m.state = 1 ∨ ¬ (0 ≤ x.m.state ∧ x.m.state ≤ 6)
  · exact countStep_inv_start rom_size v c h h01
  by_cases h56 : x.m.state = 5 ∨ x.m.state = 6
  · exact countStep_inv_chksum rom_size v h h56
  have hs : 2 ≤ x.m.state ∧ x.m.state ≤ 5 := by omega
  by_cases hc : hexvalue c ≥ 0
  · by_cases hn : x.m.nibble = HI
    · exact countStep_inv_high rom_size v h hs hc hn
    · by_cases hl : x.m.nibble = LO
      · by_cases s2 : x.m.state = 2
        · exact countStep_inv_byteCount rom_size v h s2 hc hl
        by_cases s3 : x.m.state = 3
        · exact countStep_inv_address rom_size v h s3 hc hl
        · exact countStep_inv_data rom_size v h (by omega) hc hl hlen
      · exact countStep_inv_refused rom_size v h hs (Or.inr ⟨hn, hl⟩)
  · exact countStep_inv_refused rom_size v h hs (Or.inl hc)

theorem shapeInv_mono {x : Counted} {n k : Nat} (h : shapeInv x n) (hk : n ≤ k) :
    shapeInv x k := by
  obtain ⟨h1, h2⟩ := h
  exact ⟨le_trans h1 hk, h2⟩

theorem countLoop_machine (rom_size v : Int) (cs : List Nat) :
    ∀ x : Counted, (countLoop rom_size v x cs).m = decodeLoop rom_size v x.m cs := by
  induction cs with
  | nil => intro x; rfl
  | cons c cs ih =>
    intro x
    simp only [countLoop, decodeLoop]
    split_ifs
    · rw [ih]; rfl
    · rfl

theorem countLoop_inv (rom_size v : Int) (cs : List Nat) :
    ∀ (x : Counted) (n : Nat), shapeInv x n → n + cs.length < 2147483648 →
      shapeInv (countLoop rom_size v x cs) (n + cs.length) := by
  induction cs with
  | nil => intro x n h _; exact h
  | cons c cs ih =>
    intro x n h hlen
    simp only [List.length_cons] at hlen ⊢
    simp only [countLoop]
    split_ifs
    · have h1 := countStep_inv rom_size v (c : Int) h (by omega)
      have h2 := ih _ (n + 1) h1 (by omega)
      have e : n + 1 + cs.length = n + (cs.length + 1) := by omega
      rw [e] at h2
      exact h2
    · exact shapeInv_mono h (by omega)

theorem addrWidth_spec {t w : Int} (h : addrWidth t = some w) :
    w = ((specAddrWidth t.toNat : Nat) : Int) ∧
      (t = 0 ∨ t = 1 ∨ t = 2 ∨ t = 3 ∨ t = 5 ∨ t = 7 ∨ t = 8 ∨ t = 9) := by
  unfold addrWidth at h
  split_ifs at h with h0 h1 h2 h3 h5 h7 h8 h9 <;> simp at h <;> subst h
  · subst h0; exact ⟨by decide, by decide⟩
  · subst h1; exact ⟨by decide, by decide⟩
  · subst h2; exact ⟨by decide, by decide⟩
  · subst h3; exact ⟨by decide, by decide⟩
  · subst h5; exact ⟨by decide, by decide⟩
  · subst h7; exact ⟨by decide, by decide⟩
  · subst h8; exact ⟨by decide, by decide⟩
  · subst h9; exact ⟨by decide, by decide⟩

/-- C17: for every file shorter than `2 ^ 31` characters (the range of the `int`
counter of remaining bytes) and every point of its decoding at which the record
being read has reached the checksum state, or the end-of-line state after it,
the record type is a supported one, the address bytes consumed are as many as
the width of that type (0 for types 0 and 5, 2 for 1 and 9, 3 for 2 and 8, 4 for
3 and 7), and the data bytes consumed are `byte_count` less the address width
less 1. The counters are those of `countStep`, which runs the decoder
unchanged. -/
theorem record_shape (rom_size v : Int) (m : Machine) (cs : List Nat)
    (hlen : cs.length < 2147483648) :
    (countFile rom_size v m cs).m = decodeLoop rom_size v (resetForFile m) cs ∧
    ((countFile rom_size v m cs).m.state = SREC_CHKSUM ∨
        (countFile rom_size v m cs).m.state = SREC_ENDOFLINE →
      addrWidth (countFile rom_size v m cs).m.type
        = some ((countFile rom_size v m cs).addrSeen : Int) ∧
      (countFile rom_size v m cs).addrSeen
        = specAddrWidth (countFile rom_size v m cs).m.type.toNat ∧
      ((countFile rom_size v m cs).dataSeen : Int)
        = (countFile rom_size v m cs).m.byte_count
          - ((countFile rom_size v m cs).addrSeen : Int) - 1 ∧
      (countFile rom_size v m cs).m.byte_count
        = ((countFile rom_size v m cs).addrSeen : Int)
          + ((countFile rom_size v m cs).dataSeen : Int) + 1) := by
  have h0 : shapeInv { m := resetForFile m, addrSeen := 0, dataSeen := 0 } 0 := by
    unfold shapeInv
    simp [resetForFile, SREC_NEWLINE]
  have h1 := countLoop_inv rom_size v cs _ 0 h0 (by omega)
  refine ⟨countLoop_machine rom_size v cs _, fun hs => ?_⟩
  obtain ⟨-, -, -, -, h56⟩ := h1
  obtain ⟨d1, d2⟩ := h56 hs
  have d3 := (addrWidth_spec d1).1
  exact ⟨d1, by exact_mod_cast d3, by unfold countFile; omega, d2⟩

/-- C17 at a closed input: the record `S1060004AABBCC` has reached the checksum
state with 2 address bytes and 3 data bytes consumed. -/
theorem record_shape_witness :
    (countFile 16 1 (blankImage 16 255 zeroMachine) advisoryStart).m
      = decodeLoop 16 1 (resetForFile (blankImage 16 255 zeroMachine)) advisoryStart ∧
    ((countFile 16 1 (blankImage 16 255 zeroMachine) advisoryStart).m.state = SREC_CHKSUM ∨
        (countFile 16 1 (blankImage 16 255 zeroMachine) advisoryStart).m.state
          = SREC_ENDOFLINE →
      addrWidth (countFile 16 1 (blankImage 16 255 zeroMachine) advisoryStart).m.type
        = some ((countFile 16 1 (blankImage 16 255 zeroMachine) advisoryStart).addrSeen : Int) ∧
      (countFile 16 1 (blankImage 16 255 zeroMachine) advisoryStart).addrSeen
        = specAddrWidth
            (countFile 16 1 (blankImage 16 255 zeroMachine) advisoryStart).m.type.toNat ∧
      ((countFile 16 1 (blankImage 16 255 zeroMachine) advisoryStart).dataSeen : Int)
        = (countFile 16 1 (blankImage 16 255 zeroMachine) advisoryStart).m.byte_count
          - ((countFile 16 1 (blankImage 16 255 zeroMachine) advisoryStart).addrSeen : Int)
          - 1 ∧
      (countFile 16 1 (blankImage 16 255 zeroMachine) advisoryStart).m.byte_count
        = ((countFile 16 1 (blankImage 16 255 zeroMachine) advisoryStart).addrSeen : Int)
          + ((countFile 16 1 (blankImage 16 255 zeroMachine) advisoryStart).dataSeen : Int)
          + 1) :=
  record_shape 16 1 (blankImage 16 255 zeroMachine) advisoryStart (by decide)

/-- The closed input of the shape example is in the checksum state, with 2
address bytes and 3 data bytes consumed of a byte count of 6. -/
theorem record_shape_example :
    (countFile 16 1 (blankImage 16 255 zeroMachine) advisoryStart).m.state = SREC_CHKSUM ∧
    (countFile 16 1 (blankImage 16 255 zeroMachine) advisoryStart).addrSeen = 2 ∧
    (countFile 16 1 (blankImage 16 255 zeroMachine) advisoryStart).dataSeen = 3 ∧
    (countFile 16 1 (blankImage 16 255 zeroMachine) advisoryStart).m.byte_count = 6 := by
  decide

/-! ## Records whose byte count is too small -/

theorem step_stuck (rom_size v : Int) {s : Machine} {n : Nat} (c : Int) (h : stuck s n)
    (hlen : (n : Int) + 6 ≤ 2147483648) :
    stuck (step rom_size v s c) (n + 1) ∧ (step rom_size v s c).records = s.records ∧
      (¬ isHexDigit c →
        (step rom_size v s c).error = TRUE ∧ (step rom_size v s c).processing = FALSE) ∧
      (running s → running (step rom_size v s c) ∨
        ((step rom_size v s c).error = TRUE ∧ (step rom_size v s c).processing = FALSE)) := by
  have hst : 2 ≤ s.state ∧ s.state ≤ 5 := by
    rcases h with h | h <;> omega
  by_cases hc : hexvalue c ≥ 0
  · have hhex : isHexDigit c := (hexvalue_nonneg_iff c).mp hc
    by_cases hn : s.nibble = HI
    · rw [step_high rom_size v hst hn hc]
      refine ⟨?_, rfl, fun h' => absurd hhex h', fun hr => Or.inl hr⟩
      rcases h with ⟨a1, a2, a3, a4, a5⟩ | ⟨a1, a2, a3⟩
      · exact Or.inl ⟨a1, a2, a3, a4, a5⟩
      · exact Or.inr ⟨a1, a2, by push_cast; omega⟩
    · by_cases hl : s.nibble = LO
      · rcases h with ⟨a1, a2, a3, a4, a5⟩ | ⟨a1, a2, a3⟩
        · rw [step_address_low a1 hl hc]
          have hw : wrap32 (s.bytes - 1) = s.bytes - 1 := wrap32_of_range (by omega)
          have hd : s.data_bytes ≠ 0 := by omega
          simp only [hw]
          by_cases hb : s.bytes - 1 = 0
          · simp only [if_pos hb, addressDone, ne_eq, hd, not_false_eq_true, if_true]
            refine ⟨Or.inr ⟨rfl, ?_, ?_⟩, by trivial, fun h' => absurd hhex h', fun hr => Or.inl hr⟩
            · simp only []; omega
            · simp only []; omega
          · simp only [if_neg hb]
            refine ⟨Or.inl ⟨a1, ?_, ?_, a4, a5⟩, by trivial, fun h' => absurd hhex h',
              fun hr => Or.inl hr⟩
            · simp only []; omega
            · simp only []; omega
        · rw [step_data_low a1 hl hc]
          have hw : wrap32 (s.bytes - 1) = s.bytes - 1 := wrap32_of_range (by omega)
          have hb : ¬ s.bytes - 1 = 0 := by omega
          simp only [hw, if_neg hb]
          refine ⟨Or.inr ⟨by simp [a1], ?_, ?_⟩, by simp, fun h' => absurd hhex h',
            fun hr => Or.inl ?_⟩
          · simp only []; omega
          · push_cast; omega
          · unfold running at hr ⊢
            simpa using hr
      · rw [step_hex_refused rom_size v hst (Or.inr ⟨hn, hl⟩)]
        refine ⟨?_, rfl, fun _ => ⟨rfl, rfl⟩, fun _ => Or.inr ⟨rfl, rfl⟩⟩
        rcases h with ⟨a1, a2, a3, a4, a5⟩ | ⟨a1, a2, a3⟩
        · exact Or.inl ⟨a1, a2, a3, a4, a5⟩
        · exact Or.inr ⟨a1, a2, by push_cast; omega⟩
  · rw [step_hex_refused rom_size v hst (Or.inl hc)]
    refine ⟨?_, rfl, fun _ => ⟨rfl, rfl⟩, fun _ => Or.inr ⟨rfl, rfl⟩⟩
    rcases h with ⟨a1, a2, a3, a4, a5⟩ | ⟨a1, a2, a3⟩
    · exact Or.inl ⟨a1, a2, a3, a4, a5⟩
    · exact Or.inr ⟨a1, a2, by push_cast; omega⟩

/-- Whatever follows a byte count that is too small, the record stays in its
address or data field, it is not counted, and the first character that is no
hexadecimal digit aborts the file. -/
theorem decodeLoop_stuck (rom_size v : Int) (q : List Nat) :
    ∀ (s : Machine) (n : Nat), stuck s n → (n : Int) + q.length + 5 ≤ 2147483648 →
      stuck (decodeLoop rom_size v s q) (n + q.length) ∧
      (decodeLoop rom_size v s q).records = s.records ∧
      (running s → (∃ c ∈ q, ¬ isHexDigit (c : Int)) →
        (decodeLoop rom_size v s q).error = TRUE ∧
        (decodeLoop rom_size v s q).processing = FALSE) := by
  induction q with
  | nil =>
    intro s n h _
    refine ⟨h, rfl, fun _ hex => ?_⟩
    obtain ⟨c, hc, -⟩ := hex
    exact absurd hc (List.not_mem_nil c)
  | cons c q ih =>
    intro s n h hlen
    simp only [List.length_cons, Nat.cast_add, Nat.cast_one] at hlen
    have hmono : stuck s (n + (q.length + 1)) := by
      rcases h with h | ⟨a1, a2, a3⟩
      · exact Or.inl h
      · exact Or.inr ⟨a1, a2, by push_cast; omega⟩
    by_cases hr : running s
    · rw [decodeLoop_cons_running hr]
      obtain ⟨k1, k2, k3, k4⟩ := step_stuck rom_size v (c : Int) h (by omega)
      obtain ⟨i1, i2, i3⟩ := ih _ (n + 1) k1 (by push_cast; omega)
      have e : n + 1 + q.length = n + (q.length + 1) := by omega
      rw [e] at i1
      refine ⟨i1, i2.trans k2, fun _ hex => ?_⟩
      by_cases hc : isHexDigit (c : Int)
      · rcases k4 hr with hr1 | ⟨f1, f2⟩
        · apply i3 hr1
          obtain ⟨x, hx, hx'⟩ := hex
          rcases List.mem_cons.mp hx with rfl | hx
          · exact absurd hc hx'
          · exact ⟨x, hx, hx'⟩
        · have hstop : ¬ running (step rom_size v s (c : Int)) := by
            unfold running; rw [f2]; simp [FALSE]
          rw [decodeLoop_stopped hstop]
          exact ⟨f1, f2⟩
      · obtain ⟨f1, f2⟩ := k3 hc
        have hstop : ¬ running (step rom_size v s (c : Int)) := by
          unfold running; rw [f2]; simp [FALSE]
        rw [decodeLoop_stopped hstop]
        exact ⟨f1, f2⟩
    · rw [decodeLoop_stopped hr]
      exact ⟨hmono, rfl, fun hr' => absurd hr' hr⟩

/-- A data byte read while the counter of remaining bytes is not positive: the
counter goes further down and the decoder stays in the data state. -/
theorem decode_data_byte_open (rom_size v : Int) {s : Machine} {b : Nat} (hs : s.state = 4)
    (hn : s.nibble = HI) (hr : running s) (hb : b < 256) (hbytes : s.bytes ≤ 0)
    (hlo : -2147483647 ≤ s.bytes) (rest : List Nat) :
    ∃ s', decodeLoop rom_size v s (hexByte b ++ rest) = decodeLoop rom_size v s' rest ∧
      s'.state = 4 ∧ s'.nibble = HI ∧ running s' ∧ s'.type = s.type ∧
      s'.records = s.records ∧ s'.error = s.error ∧ s'.bytes = s.bytes - 1 ∧
      (¬ (s.type = 1 ∨ s.type = 2 ∨ s.type = 3) → sameFile s s') ∧
      (∀ A : Nat, (s.type = 1 ∨ s.type = 2 ∨ s.type = 3) → s.address = (A : Int) →
        (A : Int) < rom_size → A < s.bin.length → A + 1 < 2147483648 →
        s'.address = (A : Int) + 1 ∧ s'.bin = s.bin.set A b ∧
        s'.min_rom_size = max s.min_rom_size ((A : Int) + 1)) := by
  have x2 := hexvalue_lo b
  refine ⟨_, decodeLoop_hexByte (by omega) hn hr hb rest, ?_⟩
  rw [step_data_low (by exact hs) rfl (by omega)]
  simp only [x2, byte_of_nibbles hb]
  have hwb : wrap32 (s.bytes - 1) = s.bytes - 1 := wrap32_of_range (by omega)
  have hnz : ¬ s.bytes - 1 = 0 := by omega
  rw [hwb]
  simp only [if_neg hnz]
  refine ⟨by simp [hs], by simp, ?_, by simp, by simp, by simp, by trivial, ?_, ?_⟩
  · unfold running at hr ⊢
    simpa using hr
  · intro ht
    rw [writeData_other (by exact ht)]
    exact ⟨rfl, rfl, rfl, rfl⟩
  · intro A ht ha hrom hlen h31
    rw [writeData_in_range (A := A) (by exact ht) (by exact ha) hrom (by exact hlen) h31]
    refine ⟨rfl, ?_, ?_⟩
    · simp only [toByte_of_lt hb]
    · simp only []
      split_ifs <;> omega

/-- The pairs of hexadecimal digits that follow in the data state while the
counter of remaining bytes is not positive: each is read as a data byte and, for
a record of type 1, 2 or 3 inside the image, written at the next address. -/
theorem decode_data_open (rom_size v : Int) (d : List Nat) :
    ∀ (rest : List Nat) {s : Machine}, (∀ x ∈ d, x < 256) →
      s.state = 4 → s.nibble = HI → running s → s.bytes ≤ 0 →
      -2147483647 + (d.length : Int) ≤ s.bytes + 1 →
      ∃ s', decodeLoop rom_size v s (hexBytes d ++ rest) = decodeLoop rom_size v s' rest ∧
        s'.state = 4 ∧ s'.nibble = HI ∧ running s' ∧ s'.type = s.type ∧
        s'.records = s.records ∧ s'.error = s.error ∧ s'.bytes = s.bytes - (d.length : Int) ∧
        (¬ (s.type = 1 ∨ s.type = 2 ∨ s.type = 3) → sameFile s s') ∧
        (∀ A : Nat, (s.type = 1 ∨ s.type = 2 ∨ s.type = 3) → s.address = (A : Int) →
          ((A + d.length : Nat) : Int) ≤ rom_size → A + d.length ≤ s.bin.length →
          A + d.length < 2147483648 →
          s'.address = ((A + d.length : Nat) : Int) ∧ s'.bin.length = s.bin.length ∧
          s.min_rom_size ≤ s'.min_rom_size ∧ ((A + d.length : Nat) : Int) ≤
            max s'.min_rom_size (A : Int) ∧
          (∀ i, i < d.length → s'.bin[A + i]? = d[i]?) ∧
          (∀ j, j < A ∨ A + d.length ≤ j → s'.bin[j]? = s.bin[j]?)) := by
  induction d with
  | nil =>
    intro rest s _ hs hn hr _ _
    refine ⟨s, rfl, hs, hn, hr, rfl, rfl, rfl, by simp, fun _ => ⟨rfl, rfl, rfl, rfl⟩, ?_⟩
    intro A _ ha _ _ _
    refine ⟨by simpa using ha, rfl, le_refl _, by simp, ?_, fun _ _ => rfl⟩
    intro i hi
    simp at hi
  | cons b d ih =>
    intro rest s hd hs hn hr hbytes hlo
    have hb : b < 256 := hd b (List.mem_cons_self _ _)
    have hd' : ∀ x ∈ d, x < 256 := fun x hx => hd x (List.mem_cons_of_mem _ hx)
    simp only [List.length_cons, Nat.cast_add, Nat.cast_one] at hlo
    obtain ⟨s1, e1, h1s, h1n, h1r, h1t, h1rec, h1err, h1b, h1o, h1w⟩ :=
      decode_data_byte_open rom_size v (b := b) hs hn hr hb hbytes (by omega)
        (hexBytes d ++ rest)
    obtain ⟨s2, e2, h2s, h2n, h2r, h2t, h2rec, h2err, h2b, h2o, h2w⟩ :=
      ih rest hd' h1s h1n h1r (by omega) (by omega)
    refine ⟨s2, ?_, h2s, h2n, h2r, h2t.trans h1t, h2rec.trans h1rec, h2err.trans h1err, ?_,
      ?_, ?_⟩
    · simp only [hexBytes, List.append_assoc]
      rw [e1, e2]
    · rw [h2b, h1b]; simp only [List.length_cons]; push_cast; omega
    · intro ht
      exact sameFile_trans (h1o ht) (h2o (by rw [h1t]; exact ht))
    · intro A ht ha hrom hlen h31
      simp only [List.length_cons] at hrom hlen h31
      obtain ⟨w1, w2, w3⟩ := h1w A ht ha (by push_cast at hrom; omega) (by omega) (by omega)
      have hlen1 : s1.bin.length = s.bin.length := by rw [w2]; simp
      obtain ⟨z1, z2, z3, z4, z5, z6⟩ := h2w (A + 1) (by rw [h1t]; exact ht)
        (by rw [w1]; simp) (by push_cast at hrom ⊢; omega) (by rw [hlen1]; omega) (by omega)
      have hset : ∀ j, j ≠ A → s1.bin[j]? = s.bin[j]? := by
        intro j hj
        rw [w2, List.getElem?_set_ne (Ne.symm hj)]
      have hsetA : s1.bin[A]? = some b := by
        rw [w2]
        exact List.getElem?_set_self (by omega)
      refine ⟨?_, z2.trans hlen1, ?_, ?_, ?_, ?_⟩
      · rw [z1]; simp only [List.length_cons]; congr 1; omega
      · rw [w3] at z3; omega
      · simp only [List.length_cons]; push_cast at z4 ⊢; omega
      · intro i hi
        cases i with
        | zero =>
          rw [Nat.add_zero, z6 A (Or.inl (by omega))]
          simpa using hsetA
        | succ i =>
          have := z5 i (by simpa using hi)
          rw [show A + (i + 1) = A + 1 + i by omega, this]
          simp
      · intro j hj
        simp only [List.length_cons] at hj
        rw [z6 j (by omega), hset j (by omega)]

theorem hexBytes_length (d : List Nat) : (hexBytes d).length = 2 * d.length := by
  induction d with
  | nil => rfl
  | cons b d ih => simp [hexBytes, hexByte, ih]; omega

/-- The start of a record up to its byte count, whatever the byte count: no
error is raised, and the data length is the byte count less the address width
less 1, negative or not. -/
theorem decode_recordHead (rom_size v : Int) {s : Machine} (hs : s.state = 0)
    (hr : running s) {t n : Nat}
    (ht : t = 0 ∨ t = 1 ∨ t = 2 ∨ t = 3 ∨ t = 5 ∨ t = 7 ∨ t = 8 ∨ t = 9) (hn : n < 256) :
    running (decodeLoop rom_size v s (recordHead t n)) ∧
    keeps s (decodeLoop rom_size v s (recordHead t n)) ∧
    (decodeLoop rom_size v s (recordHead t n)).type = (t : Int) ∧
    (decodeLoop rom_size v s (recordHead t n)).nibble = HI ∧
    (decodeLoop rom_size v s (recordHead t n)).value = 0 ∧
    (decodeLoop rom_size v s (recordHead t n)).data_bytes
      = (n : Int) - (specAddrWidth t : Int) - 1 ∧
    (decodeLoop rom_size v s (recordHead t n)).state
      = (if specAddrWidth t ≠ 0 then 3 else 4) ∧
    (decodeLoop rom_size v s (recordHead t n)).bytes
      = (if specAddrWidth t ≠ 0 then (specAddrWidth t : Int) else (n : Int) - 1) := by
  obtain ⟨hwd, hw4⟩ := addrWidth_supported ht
  have e0 := decode_start rom_size v hs hr (Or.inl rfl) ht (hexByte n)
  obtain ⟨s1, e1, k1, k2, k3, k4, k5, k6, -, k7, -⟩ :=
    decode_byteCount_any rom_size v
      (s := { s with
        type := (t : Int)
        out := trace v s.out [Out.recordType (t : Int)]
        state := SREC_BYTECOUNT
        nibble := HI
        bytes := 1
        value := 0
        checksum := 0 })
      rfl rfl hr rfl hn hwd hw4 []
  rw [List.append_nil, decodeLoop_nil] at e1
  have e : decodeLoop rom_size v s (recordHead t n) = s1 := by
    unfold recordHead
    rw [e0, e1]
  rw [e]
  have hk : keeps s s1 := by
    obtain ⟨a1, a2, a3, a4, a5, a6, a7, a8⟩ := k7
    exact ⟨a1, a2, a3, a4, a5, a6, a7, a8⟩
  exact ⟨keeps_running hk hr, hk, k4, k2, k5, k6, k1, k3⟩

/-- C19, as stated, fails: the record `S101FE` has the byte count 1, below the
address width 2 of its type plus 1, and the decoder never enters the data state
for it. After the byte count it reads `FE` as an address byte, and the newline
aborts the file in the address state. -/
theorem short_record_never_in_data :
    (convert 16 1 255 zeroMachine [shortRecordFile]).state = SREC_ADDRESS ∧
    (convert 16 1 255 zeroMachine [shortRecordFile]).error = TRUE ∧
    (convert 16 1 255 zeroMachine [shortRecordFile]).records = 0 ∧
    (∀ p ∈ shortRecordFile.inits,
      (decodeLoop 16 1 (resetForFile (blankImage 16 255 zeroMachine)) p).state ≠ SREC_DATA) := by
  decide

/-- A record with a byte count that is too small, its address field read in
full and any number of pairs of hexadecimal digits after it. -/
theorem decode_open_record (rom_size v : Int) {s : Machine} (hs : s.state = 0)
    (hr : running s) (t n a : Nat) (d : List Nat)
    (ht : t = 0 ∨ t = 1 ∨ t = 2 ∨ t = 3 ∨ t = 5 ∨ t = 7 ∨ t = 8 ∨ t = 9)
    (hn : n ≤ specAddrWidth t ∨ (specAddrWidth t = 0 ∧ n = 1))
    (ha : a < 256 ^ specAddrWidth t) (ha31 : a + d.length < 2147483648)
    (hd : ∀ x ∈ d, x < 256) (hlend : 2 * d.length + 4 < 2147483648) :
    ∃ r, decodeLoop rom_size v s
        (recordHead t n ++ hexBytes (beBytes (specAddrWidth t) a) ++ hexBytes d) = r ∧
      r.state = 4 ∧ running r ∧
      r.bytes = (n : Int) - (specAddrWidth t : Int) - 1 - (d.length : Int) ∧
      r.error = s.error ∧
      (¬ (t = 1 ∨ t = 2 ∨ t = 3) → sameFile s r) ∧
      ((t = 1 ∨ t = 2 ∨ t = 3) → ((a + d.length : Nat) : Int) ≤ rom_size →
        a + d.length ≤ s.bin.length →
        (∀ i, i < d.length → r.bin[a + i]? = d[i]?) ∧
        (∀ j, j < a ∨ a + d.length ≤ j → r.bin[j]? = s.bin[j]?)) := by
  have hw4 := (addrWidth_supported ht).2
  have hn256 : n < 256 := by omega
  obtain ⟨h1, h2, h3, h4, h5, h6, h7, h8⟩ := decode_recordHead rom_size v hs hr ht hn256
  obtain ⟨k1, k2, k3, k4, k5, k6, k7, k8⟩ := h2
  rw [decodeLoop_append, decodeLoop_append]
  generalize hW : specAddrWidth t = W at *
  cases W with
  | zero =>
    have ht05 : ¬ (t = 1 ∨ t = 2 ∨ t = 3) := by
      intro h
      rcases h with h | h | h <;> subst h <;> simp [specAddrWidth] at hW
    simp only [ne_eq, not_true_eq_false, if_false] at h7 h8
    simp only [beBytes, hexBytes, decodeLoop_nil]
    obtain ⟨s2, e2, d1, d2, d3, d4, d5, d6, d7, d8, d9⟩ :=
      decode_data_open rom_size v d [] hd h7 h4 h1 (by rw [h8]; omega) (by rw [h8]; omega)
    rw [List.append_nil, decodeLoop_nil] at e2
    refine ⟨s2, e2, d1, d3, ?_, d6.trans k5, fun _ => ?_, fun h => absurd h ht05⟩
    · rw [d7, h8]; push_cast; omega
    · exact sameFile_trans ⟨k1, k2, k3, k4⟩ (d8 (by rw [h3]; exact_mod_cast ht05))
  | succ w =>
    have hne : (w + 1 : Nat) ≠ 0 := by omega
    simp only [ne_eq, hne, not_false_eq_true, if_true] at h7 h8
    obtain ⟨s2, e2, a1, a2, a3, a4, a5, a6⟩ :=
      decode_address rom_size v w a h7 h4 h1 h8 (by omega) ha (by omega) h5
        (by rw [h6]; omega) []
    rw [List.append_nil, decodeLoop_nil] at e2
    rw [e2]
    have hr2 : running s2 := keeps_running a6 h1
    obtain ⟨s3, e3, d1, d2, d3, d4, d5, d6, d7, d8, d9⟩ :=
      decode_data_open rom_size v d [] hd a1 a2 hr2 (by rw [a3, h6]; omega)
        (by rw [a3, h6]; omega)
    rw [List.append_nil, decodeLoop_nil] at e3
    obtain ⟨m1, m2, m3, m4, m5, m6, m7, m8⟩ := a6
    refine ⟨s3, e3, d1, d3, ?_, (d6.trans m5).trans k5, fun hnt => ?_, fun hdt hrom hlen => ?_⟩
    · rw [d7, a3, h6]
    · have hnt' : ¬ (s2.type = 1 ∨ s2.type = 2 ∨ s2.type = 3) := by
        rw [a5, h3]; exact_mod_cast hnt
      exact sameFile_trans ⟨k1, k2, k3, k4⟩
        (sameFile_trans ⟨m1, m2, m3, m4⟩ (d8 hnt'))
    · have hdt' : s2.type = 1 ∨ s2.type = 2 ∨ s2.type = 3 := by
        rw [a5, h3]; exact_mod_cast hdt
      obtain ⟨-, -, -, -, z5, z6⟩ := d9 a hdt' a4 hrom (by rw [m1, k1]; exact hlen) ha31
      refine ⟨z5, fun j hj => ?_⟩
      rw [z6 j hj, m1, k1]

/-- Hexadecimal digits, fewer than the address field still needs, leave the
decoder in the address state. -/
theorem decodeLoop_address_partial (rom_size v : Int) (h : List Nat) :
    ∀ s : Machine, s.state = 3 → running s → (s.nibble = HI ∨ s.nibble = LO) →
      (1 ≤ s.bytes ∧ s.bytes ≤ 4) → (∀ x ∈ h, isHexDigit (x : Int)) →
      (h.length : Int) < 2 * s.bytes - (if s.nibble = LO then 1 else 0) →
      (decodeLoop rom_size v s h).state = 3 ∧ running (decodeLoop rom_size v s h) ∧
      (decodeLoop rom_size v s h).records = s.records := by
  induction h with
  | nil => intro s hs hr _ _ _ _; exact ⟨hs, hr, rfl⟩
  | cons c h ih =>
    intro s hs hr hn hb hhex hlen
    simp only [List.length_cons, Nat.cast_add, Nat.cast_one] at hlen
    have hc : hexvalue (c : Int) ≥ 0 :=
      (hexvalue_nonneg_iff _).mpr (hhex c (List.mem_cons_self _ _))
    have hhex' : ∀ x ∈ h, isHexDigit (x : Int) :=
      fun x hx => hhex x (List.mem_cons_of_mem _ hx)
    rw [decodeLoop_cons_running hr]
    rcases hn with hn | hn
    · have hl : ¬ s.nibble = LO := by rw [hn]; decide
      rw [if_neg hl] at hlen
      rw [step_high rom_size v (by omega) hn hc]
      exact ih _ hs hr (Or.inr rfl) hb hhex' (by simp only [if_true]; omega)
    · rw [if_pos hn] at hlen
      have hw : wrap32 (s.bytes - 1) = s.bytes - 1 := wrap32_of_range (by omega)
      have hnz : ¬ s.bytes - 1 = 0 := by omega
      rw [step_address_low hs hn hc]
      simp only [hw, if_neg hnz]
      have hl : ¬ HI = LO := by decide
      exact ih _ hs hr (Or.inl rfl) (by simp only []; omega) hhex'
        (by simp only [if_neg hl]; omega)

/-- A record cut off inside its address field: a character that is no
hexadecimal digit aborts the file in the address state. -/
theorem decode_address_cut (rom_size v : Int) {s : Machine} (hs : s.state = 0)
    (hr : running s) (t n : Nat) (h : List Nat) (c : Nat)
    (ht : t = 0 ∨ t = 1 ∨ t = 2 ∨ t = 3 ∨ t = 5 ∨ t = 7 ∨ t = 8 ∨ t = 9) (hn : n < 256)
    (hh : ∀ x ∈ h, isHexDigit (x : Int)) (hl : h.length < 2 * specAddrWidth t)
    (hc : ¬ isHexDigit (c : Int)) :
    (decodeLoop rom_size v s (recordHead t n ++ h ++ [c])).state = SREC_ADDRESS ∧
    (decodeLoop rom_size v s (recordHead t n ++ h ++ [c])).error = TRUE ∧
    (decodeLoop rom_size v s (recordHead t n ++ h ++ [c])).processing = FALSE ∧
    (decodeLoop rom_size v s (recordHead t n ++ h ++ [c])).records = s.records := by
  have hw4 := (addrWidth_supported ht).2
  obtain ⟨h1, h2, h3, h4, h5, h6, h7, h8⟩ := decode_recordHead rom_size v hs hr ht hn
  have hne : specAddrWidth t ≠ 0 := by omega
  rw [if_pos hne] at h7 h8
  obtain ⟨k1, k2, k3⟩ := decodeLoop_address_partial rom_size v h _ h7 h1 (Or.inl h4)
    (by rw [h8]; omega) hh
    (by
      have hl' : ¬ (decodeLoop rom_size v s (recordHead t n)).nibble = LO := by
        rw [h4]; decide
      rw [h8, if_neg hl']; omega)
  rw [decodeLoop_append, decodeLoop_append, decodeLoop_single, if_pos k2]
  rw [step_hex_refused rom_size v (by omega)
    (Or.inl (by have := (hexvalue_neg_iff (c : Int)).mpr hc; omega))]
  obtain ⟨-, -, -, -, -, -, -, g8⟩ := h2
  exact ⟨k1, rfl, rfl, k3.trans g8⟩

/-- C19, amended: a record whose byte count `n` is below the address width of
its type plus 1, or is 1 for a type 0 or 5 record, raises no error at its byte
count. Whatever follows it in an input shorter than `2 ^ 31` characters, the
decoder is in the address state or in the data state with a counter of remaining
bytes that is not positive, never in the checksum state; the record is not
counted, and a character that is no hexadecimal digit aborts the file. Once the
address field, if the type has one, has been read in full, the decoder is in the
data state with the counter at `n` less the address width less 1, and every
following pair of hexadecimal digits is read as a data byte that takes the
counter further down; for a record of type 1, 2 or 3 these bytes are written at
consecutive addresses where they are inside the image, and a record of another
type writes nothing. A character that is no hexadecimal digit and comes before
the address field is complete aborts the file in the address state. -/
theorem undersized_byte_count_stays_open (rom_size v : Int) (s : Machine) (t n a : Nat)
    (d q g : List Nat) (z : Nat) (hs : s.state = SREC_NEWLINE) (hr : running s)
    (ht : t = 0 ∨ t = 1 ∨ t = 2 ∨ t = 3 ∨ t = 5 ∨ t = 7 ∨ t = 8 ∨ t = 9)
    (hn : n ≤ specAddrWidth t ∨ (specAddrWidth t = 0 ∧ n = 1))
    (hq : (recordHead t n ++ q).length < 2147483648)
    (ha : a < 256 ^ specAddrWidth t) (ha31 : a + d.length < 2147483648)
    (hd : ∀ x ∈ d, x < 256)
    (hdl : (recordHead t n ++ hexBytes (beBytes (specAddrWidth t) a) ++ hexBytes d).length
      < 2147483648) :
    (running (decodeLoop rom_size v s (recordHead t n)) ∧
      (decodeLoop rom_size v s (recordHead t n)).error = s.error ∧
      (decodeLoop rom_size v s (recordHead t n)).state
        = (if specAddrWidth t ≠ 0 then SREC_ADDRESS else SREC_DATA) ∧
      (decodeLoop rom_size v s (recordHead t n)).data_bytes
        = (n : Int) - (specAddrWidth t : Int) - 1 ∧
      (decodeLoop rom_size v s (recordHead t n)).data_bytes ≤ 0) ∧
    (((decodeLoop rom_size v s (recordHead t n ++ q)).state = SREC_ADDRESS ∨
        ((decodeLoop rom_size v s (recordHead t n ++ q)).state = SREC_DATA ∧
          (decodeLoop rom_size v s (recordHead t n ++ q)).bytes ≤ 0)) ∧
      (decodeLoop rom_size v s (recordHead t n ++ q)).records = s.records ∧
      ((∃ c ∈ q, ¬ isHexDigit (c : Int)) →
        (decodeLoop rom_size v s (recordHead t n ++ q)).error = TRUE ∧
        (decodeLoop rom_size v s (recordHead t n ++ q)).processing = FALSE)) ∧
    ((decodeLoop rom_size v s
        (recordHead t n ++ hexBytes (beBytes (specAddrWidth t) a) ++ hexBytes d)).state
        = SREC_DATA ∧
      running (decodeLoop rom_size v s
        (recordHead t n ++ hexBytes (beBytes (specAddrWidth t) a) ++ hexBytes d)) ∧
      (decodeLoop rom_size v s
        (recordHead t n ++ hexBytes (beBytes (specAddrWidth t) a) ++ hexBytes d)).bytes
        = (n : Int) - (specAddrWidth t : Int) - 1 - (d.length : Int) ∧
      (decodeLoop rom_size v s
        (recordHead t n ++ hexBytes (beBytes (specAddrWidth t) a) ++ hexBytes d)).error
        = s.error ∧
      (¬ (t = 1 ∨ t = 2 ∨ t = 3) →
        sameFile s (decodeLoop rom_size v s
          (recordHead t n ++ hexBytes (beBytes (specAddrWidth t) a) ++ hexBytes d))) ∧
      ((t = 1 ∨ t = 2 ∨ t = 3) → ((a + d.length : Nat) : Int) ≤ rom_size →
        a + d.length ≤ s.bin.length →
        (∀ i, i < d.length →
          (decodeLoop rom_size v s
            (recordHead t n ++ hexBytes (beBytes (specAddrWidth t) a) ++ hexBytes d)).bin[a + i]?
            = d[i]?) ∧
        (∀ j, j < a ∨ a + d.length ≤ j →
          (decodeLoop rom_size v s
            (recordHead t n ++ hexBytes (beBytes (specAddrWidth t) a) ++ hexBytes d)).bin[j]?
            = s.bin[j]?))) ∧
    ((∀ x ∈ g, isHexDigit (x : Int)) → g.length < 2 * specAddrWidth t →
      ¬ isHexDigit (z : Int) →
      (decodeLoop rom_size v s (recordHead t n ++ g ++ [z])).state = SREC_ADDRESS ∧
      (decodeLoop rom_size v s (recordHead t n ++ g ++ [z])).error = TRUE ∧
      (decodeLoop rom_size v s (recordHead t n ++ g ++ [z])).processing = FALSE ∧
      (decodeLoop rom_size v s (recordHead t n ++ g ++ [z])).records = s.records) := by
  have hw4 := (addrWidth_supported ht).2
  have hn256 : n < 256 := by omega
  obtain ⟨h1, h2, h3, h4, h5, h6, h7, h8⟩ := decode_recordHead rom_size v hs hr ht hn256
  have hdb : (decodeLoop rom_size v s (recordHead t n)).data_bytes ≤ 0 := by
    rw [h6]; omega
  have hdb5 : -5 ≤ (decodeLoop rom_size v s (recordHead t n)).data_bytes := by
    rw [h6]; omega
  have hlenq : q.length + 4 < 2147483648 := by
    have := hq
    simp only [List.length_append, recordHead, hexByte, List.length_cons,
      List.length_nil] at this
    omega
  obtain ⟨-, -, -, -, g5, -, -, g8⟩ := h2
  have hlend : 2 * d.length + 4 < 2147483648 := by
    have := hdl
    simp only [List.length_append, hexBytes_length, recordHead, hexByte, List.length_cons,
      List.length_nil] at this
    omega
  refine ⟨⟨h1, g5, ?_, h6, hdb⟩, ?_, ?_,
    fun hg hl hz => decode_address_cut rom_size v hs hr t n g z ht hn256 hg hl hz⟩
  · rw [h7]; split_ifs <;> rfl
  · have hst : stuck (decodeLoop rom_size v s (recordHead t n)) 0 := by
      by_cases hw0 : specAddrWidth t = 0
      · right
        rw [h7, h8, if_neg (by simpa using hw0), if_neg (by simpa using hw0)]
        refine ⟨rfl, ?_, ?_⟩ <;> omega
      · left
        rw [h7, h8, if_pos hw0, if_pos hw0]
        refine ⟨rfl, ?_, ?_, ?_, hdb5⟩
        · omega
        · omega
        · rw [h6]; omega
    obtain ⟨k1, k2, k3⟩ := decodeLoop_stuck rom_size v q _ 0 hst (by push_cast; omega)
    rw [← decodeLoop_append] at k1 k2 k3
    refine ⟨?_, k2.trans g8, k3 h1⟩
    rcases k1 with ⟨a1, -⟩ | ⟨a1, a2, -⟩
    · exact Or.inl a1
    · exact Or.inr ⟨a1, a2⟩
  · obtain ⟨r, e, r1, r2, r3, r4, r5, r6⟩ :=
      decode_open_record rom_size v hs hr t n a d ht hn ha ha31 hd hlend
    rw [e]
    exact ⟨r1, r2, r3, r4, r5, r6⟩

/-- C19, amended, at a closed input: the type 1 record `S102` with the address
`0004`, the bytes `AA BB` after it and a newline, and the same record cut off by
a newline after `00`, on an image of 16 bytes. -/
theorem undersized_byte_count_stays_open_witness :
    (running (decodeLoop 16 1 (resetForFile (blankImage 16 255 zeroMachine)) (recordHead 1 2)) ∧
      (decodeLoop 16 1 (resetForFile (blankImage 16 255 zeroMachine)) (recordHead 1 2)).error
        = (resetForFile (blankImage 16 255 zeroMachine)).error ∧
      (decodeLoop 16 1 (resetForFile (blankImage 16 255 zeroMachine)) (recordHead 1 2)).state
        = (if specAddrWidth 1 ≠ 0 then SREC_ADDRESS else SREC_DATA) ∧
      (decodeLoop 16 1 (resetForFile (blankImage 16 255 zeroMachine))
        (recordHead 1 2)).data_bytes = ((2 : Nat) : Int) - (specAddrWidth 1 : Int) - 1 ∧
      (decodeLoop 16 1 (resetForFile (blankImage 16 255 zeroMachine))
        (recordHead 1 2)).data_bytes ≤ 0) ∧
    (((decodeLoop 16 1 (resetForFile (blankImage 16 255 zeroMachine))
          (recordHead 1 2 ++ chars "0004AABB\n")).state = SREC_ADDRESS ∨
        ((decodeLoop 16 1 (resetForFile (blankImage 16 255 zeroMachine))
            (recordHead 1 2 ++ chars "0004AABB\n")).state = SREC_DATA ∧
          (decodeLoop 16 1 (resetForFile (blankImage 16 255 zeroMachine))
            (recordHead 1 2 ++ chars "0004AABB\n")).bytes ≤ 0)) ∧
      (decodeLoop 16 1 (resetForFile (blankImage 16 255 zeroMachine))
          (recordHead 1 2 ++ chars "0004AABB\n")).records
        = (resetForFile (blankImage 16 255 zeroMachine)).records ∧
      ((∃ c ∈ chars "0004AABB\n", ¬ isHexDigit (c : Int)) →
        (decodeLoop 16 1 (resetForFile (blankImage 16 255 zeroMachine))
          (recordHead 1 2 ++ chars "0004AABB\n")).error = TRUE ∧
        (decodeLoop 16 1 (resetForFile (blankImage 16 255 zeroMachine))
          (recordHead 1 2 ++ chars "0004AABB\n")).processing = FALSE)) ∧
    ((decodeLoop 16 1 (resetForFile (blankImage 16 255 zeroMachine))
        (recordHead 1 2 ++ hexBytes (beBytes (specAddrWidth 1) 4) ++ hexBytes [170, 187])).state
        = SREC_DATA ∧
      running (decodeLoop 16 1 (resetForFile (blankImage 16 255 zeroMachine))
        (recordHead 1 2 ++ hexBytes (beBytes (specAddrWidth 1) 4) ++ hexBytes [170, 187])) ∧
      (decodeLoop 16 1 (resetForFile (blankImage 16 255 zeroMachine))
        (recordHead 1 2 ++ hexBytes (beBytes (specAddrWidth 1) 4) ++ hexBytes [170, 187])).bytes
        = ((2 : Nat) : Int) - (specAddrWidth 1 : Int) - 1 - (([170, 187] : List Nat).length : Int) ∧
      (decodeLoop 16 1 (resetForFile (blankImage 16 255 zeroMachine))
        (recordHead 1 2 ++ hexBytes (beBytes (specAddrWidth 1) 4) ++ hexBytes [170, 187])).error
        = (resetForFile (blankImage 16 255 zeroMachine)).error ∧
      (¬ ((1 : Nat) = 1 ∨ (1 : Nat) = 2 ∨ (1 : Nat) = 3) →
        sameFile (resetForFile (blankImage 16 255 zeroMachine))
          (decodeLoop 16 1 (resetForFile (blankImage 16 255 zeroMachine))
            (recordHead 1 2 ++ hexBytes (beBytes (specAddrWidth 1) 4)
              ++ hexBytes [170, 187]))) ∧
      (((1 : Nat) = 1 ∨ (1 : Nat) = 2 ∨ (1 : Nat) = 3) →
        ((4 + ([170, 187] : List Nat).length : Nat) : Int) ≤ 16 →
        4 + ([170, 187] : List Nat).length
          ≤ (resetForFile (blankImage 16 255 zeroMachine)).bin.length →
        (∀ i, i < ([170, 187] : List Nat).length →
          (decodeLoop 16 1 (resetForFile (blankImage 16 255 zeroMachine))
            (recordHead 1 2 ++ hexBytes (beBytes (specAddrWidth 1) 4)
              ++ hexBytes [170, 187])).bin[4 + i]?
            = ([170, 187] : List Nat)[i]?) ∧
        (∀ j, j < 4 ∨ 4 + ([170, 187] : List Nat).length ≤ j →
          (decodeLoop 16 1 (resetForFile (blankImage 16 255 zeroMachine))
            (recordHead 1 2 ++ hexBytes (beBytes (specAddrWidth 1) 4)
              ++ hexBytes [170, 187])).bin[j]?
            = (resetForFile (blankImage 16 255 zeroMachine)).bin[j]?))) ∧
    ((∀ x ∈ chars "00", isHexDigit (x : Int)) → (chars "00").length < 2 * specAddrWidth 1 →
      ¬ isHexDigit ((10 : Nat) : Int) →
      (decodeLoop 16 1 (resetForFile (blankImage 16 255 zeroMachine))
        (recordHead 1 2 ++ chars "00" ++ [10])).state = SREC_ADDRESS ∧
      (decodeLoop 16 1 (resetForFile (blankImage 16 255 zeroMachine))
        (recordHead 1 2 ++ chars "00" ++ [10])).error = TRUE ∧
      (decodeLoop 16 1 (resetForFile (blankImage 16 255 zeroMachine))
        (recordHead 1 2 ++ chars "00" ++ [10])).processing = FALSE ∧
      (decodeLoop 16 1 (resetForFile (blankImage 16 255 zeroMachine))
        (recordHead 1 2 ++ chars "00" ++ [10])).records
        = (resetForFile (blankImage 16 255 zeroMachine)).records) :=
  undersized_byte_count_stays_open 16 1 (resetForFile (blankImage 16 255 zeroMachine)) 1 2 4
    [170, 187] (chars "0004AABB\n") (chars "00") 10 (by decide) (by decide) (by decide)
    (by decide) (by decide) (by decide) (by decide) (by decide) (by decide)

/-! ## The record count -/

/-- Before the checksum field a character does not bring the decoder to the end
of the line, it leaves the record counter alone, and the checksum field is
entered with one byte to read. -/
theorem step_before_chksum (rom_size v : Int) {s : Machine} (c : Int)
    (hs : 0 ≤ s.state ∧ s.state ≤ 4) :
    (step rom_size v s c).state ≠ 6 ∧
      ((step rom_size v s c).state = 5 → (step rom_size v s c).bytes = 1) ∧
      (step rom_size v s c).records = s.records := by
  by_cases s0 : s.state = 0
  · rw [step_newline s0]; unfold stepNewline fail
    split_ifs <;> simp [SREC_RECORDTYPE, s0]
  by_cases s1 : s.state = 1
  · rw [step_recordType s1]; unfold stepRecordType fail
    split_ifs <;> simp [SREC_BYTECOUNT, s1]
  by_cases s2 : s.state = 2
  · rw [step_byteCount s2]; simp only [stepByteCount, byteCountDone, fail]
    split_ifs <;> (try split) <;> simp [SREC_ADDRESS, SREC_DATA, s2, fail]
  by_cases s3 : s.state = 3
  · rw [step_address s3]; simp only [stepAddress, addressDone, fail]
    split_ifs <;> simp [SREC_CHKSUM, SREC_DATA, s3]
  · have s4 : s.state = 4 := by omega
    rw [step_data s4]; simp only [stepData, fail]
    split_ifs <;> simp [SREC_CHKSUM, s4]

/-- In the checksum field the decoder goes to the end of the line exactly where
the low digit of the checksum byte is accepted. -/
theorem step_in_chksum (rom_size v : Int) {s : Machine} (c : Int) (hs : s.state = 5)
    (hb : s.bytes = 1) :
    (step rom_size v s c).records = s.records ∧
    ((s.nibble = LO ∧ hexvalue c ≥ 0) → (step rom_size v s c).state = 6) ∧
    (¬ (s.nibble = LO ∧ hexvalue c ≥ 0) →
      (step rom_size v s c).state = 5 ∧ (step rom_size v s c).bytes = 1) := by
  refine ⟨?_, ?_, ?_⟩
  · rw [step_records]
    rw [if_neg]
    simp [SREC_ENDOFLINE, hs]
  · rintro ⟨hn, hc⟩
    rw [step_chksum_low hs hn hc hb]
    rfl
  · intro h
    by_cases hc : hexvalue c ≥ 0
    · by_cases hn : s.nibble = HI
      · rw [step_high rom_size v (by omega) hn hc]
        exact ⟨hs, hb⟩
      · rw [step_hex_refused rom_size v (by omega) (Or.inr ⟨hn, fun hl => h ⟨hl, hc⟩⟩)]
        exact ⟨hs, hb⟩
    · rw [step_hex_refused rom_size v (by omega) (Or.inl hc)]
      exact ⟨hs, hb⟩

/-- Every iteration of the loop keeps the counters of closed records in step
with the decoder, while fewer than `2 ^ 31` characters have been read. -/
theorem tallyStep_inv (rom_size v : Int) {y : Tally} {n : Nat} (c : Int)
    (h : tallyInv y n) (hlen : n + 1 < 2147483648) :
    tallyInv (tallyStep rom_size v y c) (n + 1) := by
  obtain ⟨hshape, hrange, h6, hn6, h5, hrec, hcl⟩ := h
  have hshape' := countStep_inv rom_size v c hshape hlen
  have hrange' := (step_state_range hrange rom_size v c).1
  have hm : (tallyStep rom_size v y c).x.m = step rom_size v y.x.m c := rfl
  by_cases s6 : y.x.m.state = 6
  · have hchk := h6 s6
    have hcomplete : recordComplete y := by
      obtain ⟨d1, d2⟩ := hshape.2.2.2.2 (Or.inr s6)
      exact ⟨d1, d2, hchk⟩
    have e1 : ¬ y.x.m.state = SREC_RECORDTYPE := by simp [SREC_RECORDTYPE, s6]
    have e5 : ¬ (y.x.m.state = SREC_CHKSUM ∧ y.x.m.nibble = LO ∧ hexvalue c ≥ 0) := by
      simp [SREC_CHKSUM, s6]
    by_cases hc : c = 10
    · have hst : (step rom_size v y.x.m c).state = 0 ∧
          (step rom_size v y.x.m c).records = wrap32 (y.x.m.records + 1) ∧
          (step rom_size v y.x.m c).bytes = y.x.m.bytes := by
        rw [step_endOfLine s6]; simp only [stepEndOfLine]; rw [if_pos hc]
        exact ⟨rfl, rfl, rfl⟩
      obtain ⟨k1, k2, k3⟩ := hst
      have hw : wrap32 (y.x.m.records + 1) = y.x.m.records + 1 :=
        wrap32_of_range (by omega)
      refine ⟨hshape', hrange', ?_, ?_, ?_, ?_, ?_⟩
      · intro h'; rw [hm, k1] at h'; omega
      · intro _; simp only [tallyStep, if_pos hc]
      · intro h'; rw [hm, k1] at h'; omega
      · rw [hm, k2, hw, hrec]
        simp only [tallyStep, hc, hcomplete, and_self, if_true]
        push_cast; ring
      · simp only [tallyStep, hc, hcomplete, and_self, if_true]; omega
    · have hst : step rom_size v y.x.m c = y.x.m := by
        rw [step_endOfLine s6]; simp only [stepEndOfLine, if_neg hc]
      have hnc : ¬ (c = 10 ∧ recordComplete y) := fun h' => hc h'.1
      refine ⟨hshape', hrange', ?_, ?_, ?_, ?_, ?_⟩
      · intro _; simp only [tallyStep, if_neg hc, if_neg e1, if_neg e5]; exact hchk
      · intro h'; rw [hm, hst] at h'; exact absurd s6 h'
      · intro h'; rw [hm, hst] at h'; omega
      · rw [hm, hst, hrec]; simp only [tallyStep, if_neg hnc]
      · simp only [tallyStep, if_neg hnc]; omega
  · have hchk := hn6 s6
    have hnc : ¬ (c = 10 ∧ recordComplete y) := by
      rintro ⟨-, -, -, h'⟩
      omega
    have hclosed : (tallyStep rom_size v y c).closed = y.closed := by
      simp only [tallyStep, if_neg hnc]
    by_cases s5 : y.x.m.state = 5
    · obtain ⟨k1, k2, k3⟩ := step_in_chksum rom_size v c s5 (h5 s5)
      have e1 : ¬ y.x.m.state = SREC_RECORDTYPE := by simp [SREC_RECORDTYPE, s5]
      by_cases hlo : y.x.m.nibble = LO ∧ hexvalue c ≥ 0
      · have hc : ¬ c = 10 := by
          intro h'; rw [h'] at hlo
          exact absurd hlo.2 (by decide)
        have hlo' : y.x.m.state = SREC_CHKSUM ∧ y.x.m.nibble = LO ∧ hexvalue c ≥ 0 :=
          ⟨s5, hlo⟩
        have hst := k2 hlo
        refine ⟨hshape', hrange', ?_, ?_, ?_, ?_, ?_⟩
        · intro _; simp only [tallyStep, if_neg hc, if_neg e1, if_pos hlo', hchk]
        · intro h'; rw [hm, hst] at h'; exact absurd rfl h'
        · intro h'; rw [hm, hst] at h'; omega
        · rw [hm, k1, hrec, hclosed]
        · rw [hclosed]; omega
      · obtain ⟨hst, hb⟩ := k3 hlo
        have hlo' : ¬ (y.x.m.state = SREC_CHKSUM ∧ y.x.m.nibble = LO ∧ hexvalue c ≥ 0) :=
          fun h' => hlo h'.2
        refine ⟨hshape', hrange', ?_, ?_, ?_, ?_, ?_⟩
        · intro h'; rw [hm, hst] at h'; omega
        · intro _
          simp only [tallyStep, if_neg e1, if_neg hlo', hchk]
          split_ifs <;> rfl
        · intro _; rw [hm]; exact hb
        · rw [hm, k1, hrec, hclosed]
        · rw [hclosed]; omega
    · obtain ⟨k1, k2, k3⟩ := step_before_chksum rom_size v c (s := y.x.m) (by omega)
      have e5 : ¬ (y.x.m.state = SREC_CHKSUM ∧ y.x.m.nibble = LO ∧ hexvalue c ≥ 0) :=
        fun h' => s5 h'.1
      refine ⟨hshape', hrange', ?_, ?_, ?_, ?_, ?_⟩
      · intro h'; rw [hm] at h'; exact absurd h' k1
      · intro _
        simp only [tallyStep, if_neg e5, hchk]
        split_ifs <;> rfl
      · intro h'; rw [hm] at h' ⊢; exact k2 h'
      · rw [hm, k3, hrec, hclosed]
      · rw [hclosed]; omega

theorem tallyInv_mono {y : Tally} {n k : Nat} (h : tallyInv y n) (hk : n ≤ k) :
    tallyInv y k := by
  obtain ⟨h1, h2, h3, h4, h5, h6, h7⟩ := h
  exact ⟨shapeInv_mono h1 hk, h2, h3, h4, h5, h6, le_trans h7 hk⟩

theorem tallyLoop_machine (rom_size v : Int) (cs : List Nat) :
    ∀ y : Tally, (tallyLoop rom_size v y cs).x.m = decodeLoop rom_size v y.x.m cs := by
  induction cs with
  | nil => intro y; rfl
  | cons c cs ih =>
    intro y
    simp only [tallyLoop, decodeLoop]
    split_ifs
    · rw [ih]; rfl
    · rfl

theorem tallyLoop_inv (rom_size v : Int) (cs : List Nat) :
    ∀ (y : Tally) (n : Nat), tallyInv y n → n + cs.length < 2147483648 →
      tallyInv (tallyLoop rom_size v y cs) (n + cs.length) := by
  induction cs with
  | nil => intro y n h _; exact h
  | cons c cs ih =>
    intro y n h hlen
    simp only [List.length_cons] at hlen ⊢
    simp only [tallyLoop]
    split_ifs
    · have h1 := tallyStep_inv rom_size v (c : Int) h (by omega)
      have h2 := ih _ (n + 1) h1 (by omega)
      have e : n + 1 + cs.length = n + (cs.length + 1) := by omega
      rw [e] at h2
      exact h2
    · exact tallyInv_mono h (by omega)

/-- C13: the decoder runs unchanged beside counters that the source does not
keep. For every file shorter than `2 ^ 31` characters the record count is the
number of records whose checksum field was read and that were then closed by a
newline: the newlines read when the record before them had all its fields read,
as many address bytes as the width of its type, as many data bytes as its byte
count leaves, and its checksum byte. And for a file of `k` well-formed records
(`k` below `2 ^ 31`, the range of the `int` counter; any checksum value,
hexadecimal digits in either case, each record with an address field or at
least one data byte), each closed by a newline, the count is `k`, the error
flag is clear and the loop was not stopped. -/
theorem record_count (rom_size v : Int) (m : Machine) (file : List Nat)
    (rs : List RecordLine) (hm : m.exited = false) (hlen : file.length < 2147483648)
    (hw : ∀ r ∈ rs, wellFormedLine r) (hk : rs.length < 2147483648) :
    (tallyFile rom_size v m file).x.m = decodeLoop rom_size v (resetForFile m) file ∧
    (processFile rom_size v m file).records = ((tallyFile rom_size v m file).closed : Int) ∧
    (processFile rom_size v m (plainFile rs)).records = (rs.length : Int) ∧
    (processFile rom_size v m (plainFile rs)).error = FALSE ∧
    (processFile rom_size v m (plainFile rs)).processing = TRUE := by
  have hr : running (resetForFile m) := by
    simp [running, resetForFile, hm, TRUE]
  have h0 : (resetForFile m).records = 0 := rfl
  obtain ⟨p1, -, -, -, -⟩ := processFile_fields rom_size v m file
  obtain ⟨q1, q2, q3, -, -⟩ := processFile_fields rom_size v m (plainFile rs)
  have hmach := tallyLoop_machine rom_size v file
    { x := { m := resetForFile m, addrSeen := 0, dataSeen := 0 }, chkSeen := 0, closed := 0 }
  have hinv0 : tallyInv
      { x := { m := resetForFile m, addrSeen := 0, dataSeen := 0 }, chkSeen := 0, closed := 0 }
      0 := by
    unfold tallyInv shapeInv
    simp [resetForFile, SREC_NEWLINE]
  have hinv := tallyLoop_inv rom_size v file _ 0 hinv0 (by omega)
  obtain ⟨-, -, -, -, -, t6, -⟩ := hinv
  obtain ⟨d1, d2, d3, d4⟩ := decode_plainFile rom_size v rs (resetForFile m) rfl hr hw
    (by simp [resetForFile])
  refine ⟨hmach, ?_, ?_, ?_, ?_⟩
  · rw [p1, ← hmach]; exact t6
  · rw [q1, d3, h0, zero_add]
    exact wrap32_of_range (by omega)
  · rw [q2, d4]; rfl
  · rw [q3]
    rcases decodeLoop_processing rom_size v (plainFile rs) (resetForFile m) with h | h
    · rw [h]; rfl
    · exact absurd h d2.1

/-- C13 at closed inputs: a file that stops inside its second record, and a file
of three well-formed records. -/
theorem record_count_witness :
    (tallyFile 16 1 (blankImage 16 255 zeroMachine) unfinishedFile).x.m
      = decodeLoop 16 1 (resetForFile (blankImage 16 255 zeroMachine)) unfinishedFile ∧
    (processFile 16 1 (blankImage 16 255 zeroMachine) unfinishedFile).records
      = ((tallyFile 16 1 (blankImage 16 255 zeroMachine) unfinishedFile).closed : Int) ∧
    (processFile 16 1 (blankImage 16 255 zeroMachine) (plainFile threeRecords)).records
      = (threeRecords.length : Int) ∧
    (processFile 16 1 (blankImage 16 255 zeroMachine) (plainFile threeRecords)).error = FALSE ∧
    (processFile 16 1 (blankImage 16 255 zeroMachine) (plainFile threeRecords)).processing
      = TRUE :=
  record_count 16 1 (blankImage 16 255 zeroMachine) unfinishedFile threeRecords
    (by decide) (by decide) (by decide) (by decide)

/-- The counters at closed inputs: the first record of the file that stops inside
its second record is closed; a record whose line ends after the first digit of
its checksum is not closed and not counted, and the file is aborted in the
checksum state; three well-formed records are closed. -/
theorem record_count_example :
    (tallyFile 16 1 (blankImage 16 255 zeroMachine) unfinishedFile).closed = 1 ∧
    (tallyFile 16 1 (blankImage 16 255 zeroMachine) halfChecksumFile).closed = 0 ∧
    (processFile 16 1 (blankImage 16 255 zeroMachine) halfChecksumFile).records = 0 ∧
    (processFile 16 1 (blankImage 16 255 zeroMachine) halfChecksumFile).error = TRUE ∧
    (processFile 16 1 (blankImage 16 255 zeroMachine) halfChecksumFile).state = SREC_CHKSUM ∧
    (tallyFile 16 1 (blankImage 16 255 zeroMachine) (plainFile threeRecords)).closed = 3 := by
  decide

end Srec2bin
